import Mathlib

/-! Cosmos spreadsheet (`src/App.jsx`): address codec, grid and sheet operations, validation
gate, CSV codec, recompute effect, pivot, initial state.

A shallow embedding of the pure parts of `App.jsx` together with the properties the
specification states about them.  JavaScript strings are Lean `String`s (character lists
inside the algorithms), row/column indices are natural numbers, sheet indices and field
indices are integers, JavaScript numbers are binary64 values with the rounding of each
operation made explicit, and a JavaScript exception is the result `none`.  What the component
takes from outside (the formula engine, `JSON.stringify` and `JSON.parse`, the
locale-dependent formatters) is a parameter.
-/

namespace Cosmos

/-! ## JavaScript numbers

A JavaScript number is an IEEE 754 binary64 value, and an arithmetic operation returns the
representable value nearest to the exact result, the one with the even significand when two
are equally near.  `colToName` and `addr` compute on natural numbers, where the rounding is
`dbl`; everything else computes on the numbers `Num`. -/

/-- The least `L` at or above the start with `n < 2 ^ L`, searched upwards. -/
def leastPow : Nat → Nat → Nat → Nat
  | 0, _, L => L
  | fuel + 1, n, L => if n < 2 ^ L then L else leastPow fuel n (L + 1)

/-- The number of binary digits of `n`: the least `L` with `n < 2 ^ L`. -/
def bitLen (n : Nat) : Nat := leastPow n n 0

/-- The integer nearest to `a / b`, the even one of the two when `a / b` lies half way. -/
def roundHalfEven (a b : Nat) : Nat :=
  let k := a / b
  let r := a % b
  if 2 * r < b then k
  else if b < 2 * r then k + 1
  else if k % 2 = 0 then k
  else k + 1

/-- The binary64 value nearest to the natural number `n`: its 53 leading binary digits, rounded
to nearest, ties to even.  A natural number below `2 ^ 53` is its own value.  (It is applied to
`n + 1` and `n - 1` for a number `n`, which stay below the numbers that overflow.) -/
def dbl (n : Nat) : Nat :=
  roundHalfEven n (2 ^ (bitLen n - 53)) * 2 ^ (bitLen n - 53)

/-- `Math.floor(p / d)` for natural numbers `p` and `d > 0`: the quotient is rounded to 53
binary digits (to nearest, ties to even) before the floor is taken.  A quotient below 1 rounds
up to 1 only from `1 - 2 ^ (-54)` on. -/
def floorQuot (p d : Nat) : Nat :=
  if d ≤ p then
    if 53 ≤ bitLen (p / d) then
      roundHalfEven p (d * 2 ^ (bitLen (p / d) - 53)) * 2 ^ (bitLen (p / d) - 53)
    else roundHalfEven (p * 2 ^ (53 - bitLen (p / d))) d / 2 ^ (53 - bitLen (p / d))
  else if d * (2 ^ 54 - 1) ≤ p * 2 ^ 54 then 1
  else 0

/-- A JavaScript number.  A finite one is the value `m * 2 ^ e`; the operations return it with
`e = 0` when it is an integer and with `m` odd and `e < 0` otherwise (10.5 is `fin 21 (-1)`).
Negative zero is not told apart from zero. -/
inductive Num where
  | nan
  | inf (negative : Bool)
  | fin (m : Int) (e : Int)
  deriving DecidableEq, Repr

/-- A numeral is the integer it writes. -/
instance (n : Nat) : OfNat Num n := ⟨Num.fin (Int.ofNat n) 0⟩

/-- Halves `m` and raises `e` while `e < 0` and `m` is even, at most `fuel` times. -/
def Num.strip : Nat → Int → Int → Num
  | 0, m, e => Num.fin m e
  | fuel + 1, m, e =>
    if e < 0 ∧ m % 2 = 0 then Num.strip fuel (m / 2) (e + 1) else Num.fin m e

/-- The number `m * 2 ^ e` in the form the operations return. -/
def Num.norm (m e : Int) : Num :=
  if 0 ≤ e then Num.fin (m * 2 ^ e.toNat) 0 else Num.strip (-e).toNat m e

/-- The binary64 value nearest to `m * 2 ^ e`, ties to even: the last binary digit kept is
that of `2 ^ t`, where `t` leaves 53 digits and is not below `-1074` (gradual underflow); a
result of `2 ^ 1024` or more in absolute value is an infinity. -/
def Num.round (m e : Int) : Num :=
  let a := m.natAbs
  let t : Int := max (e + (bitLen a : Int) - 53) (-1074)
  let k := (t - e).toNat
  let q := roundHalfEven a (2 ^ k)
  if 1024 < (bitLen q : Int) + (e + (k : Int)) then Num.inf (decide (m < 0))
  else Num.norm (if m < 0 then -(q : Int) else (q : Int)) (e + (k : Int))

/-- `-x`. -/
def Num.neg : Num → Num
  | .nan => .nan
  | .inf s => .inf (!s)
  | .fin m e => .fin (-m) e

/-- `x + y`: the exact sum of two finite numbers, rounded. -/
def Num.add : Num → Num → Num
  | .nan, _ => .nan
  | _, .nan => .nan
  | .inf s, .inf s' => if s = s' then .inf s else .nan
  | .inf s, .fin _ _ => .inf s
  | .fin _ _, .inf s => .inf s
  | .fin m e, .fin m' e' =>
    Num.round (m * 2 ^ (e - min e e').toNat + m' * 2 ^ (e' - min e e').toNat) (min e e')

/-- `x - y`. -/
def Num.sub (x y : Num) : Num := Num.add x (Num.neg y)

/-- `x * y`: the exact product of two finite numbers, rounded. -/
def Num.mul : Num → Num → Num
  | .nan, _ => .nan
  | _, .nan => .nan
  | .inf s, .inf s' => .inf (s != s')
  | .inf s, .fin m _ => if m = 0 then .nan else .inf (s != decide (m < 0))
  | .fin m _, .inf s => if m = 0 then .nan else .inf (s != decide (m < 0))
  | .fin m e, .fin m' e' => Num.round (m * m') (e + e')

/-- `Number.isFinite(x)`. -/
def Num.isFinite : Num → Bool
  | .fin _ _ => true
  | _ => false

/-- `x < y`. -/
def Num.lt : Num → Num → Bool
  | .nan, _ => false
  | _, .nan => false
  | .inf s, .inf s' => s && !s'
  | .inf s, .fin _ _ => s
  | .fin _ _, .inf s => !s
  | .fin m e, .fin m' e' =>
    decide (m * 2 ^ (e - min e e').toNat < m' * 2 ^ (e' - min e e').toNat)

/-- `Math.min(x, y)`. -/
def Num.min : Num → Num → Num
  | .nan, _ => .nan
  | _, .nan => .nan
  | x, y => if Num.lt y x = true then y else x

/-- `Math.max(x, y)`. -/
def Num.max : Num → Num → Num
  | .nan, _ => .nan
  | _, .nan => .nan
  | x, y => if Num.lt x y = true then y else x

/-- The integer that a number is, when it is a finite integer. -/
def Num.toInt? : Num → Option Int
  | .fin m e =>
    if 0 ≤ e then some (m * 2 ^ e.toNat)
    else if m % 2 ^ (-e).toNat = 0 then some (m / 2 ^ (-e).toNat)
    else none
  | _ => none

/-- The built-ins of the JavaScript host whose results depend on the locale or on the syntax of
numbers: `Number(s)` for a string, `String(x)` for a number that is not an integer of at most
`2 ^ 53` in absolute value (the shortest decimal form, with an exponent where JavaScript writes
one), `num.toLocaleString()`, the `Intl.NumberFormat` for the currency `INR`, and
`toFixed(2)`. -/
structure Host where
  numberOfString : String → Num
  numberToString : Num → String
  toLocaleString : Num → String
  formatINR : Num → String
  toFixed2 : Num → String

/-- `String(x)` for a number: an integer of at most `2 ^ 53` in absolute value is written with
all its decimal digits, the other finite numbers are written by the host. -/
def jsNumberToString (host : Host) : Num → String
  | .nan => "NaN"
  | .inf false => "Infinity"
  | .inf true => "-Infinity"
  | .fin m e =>
    if e = 0 ∧ m.natAbs ≤ 2 ^ 53 then toString m else host.numberToString (.fin m e)

/-- A host for examples: no string is a number, integers print in decimal. -/
def demoHost : Host :=
  { numberOfString := fun _ => Num.nan,
    numberToString := fun _ => "?",
    toLocaleString := fun x => match x with
      | .fin m 0 => toString m
      | _ => "?",
    formatINR := fun x => match x with
      | .fin m 0 => "INR " ++ toString m
      | _ => "?",
    toFixed2 := fun x => match x with
      | .fin m 0 => toString m ++ ".00"
      | _ => "?" }

/-! ## Address codec (`colToName`, `addr`, `parseA1`) -/

/-- The `while (n > 0)` loop of `colToName`, run at most `fuel` times: `s` is the string built
so far.  Each round computes `n - 1` (rounded), prepends
`String.fromCharCode(65 + (n - 1) % 26)` and continues with `Math.floor((n - 1) / 26)`. -/
def colLoop : Nat → Nat → List Char → List Char
  | 0, _, s => s
  | fuel + 1, n, s =>
    if 0 < n then
      colLoop fuel (floorQuot (dbl (n - 1)) 26) (Char.ofNat (65 + dbl (n - 1) % 26) :: s)
    else s

/-- `colToName(n)` for a natural number `n`: `let s = ""; n += 1; while (n > 0) {...}; return s`.
Each round of the loop divides `n` by 26, so that `n` rounds are enough. -/
def colToName (n : Nat) : String := ⟨colLoop (dbl (n + 1)) (dbl (n + 1)) []⟩

/-- `addr(r, c)` for natural numbers `r` and `c`: the template string made of `colToName(c)`
and of `r + 1` converted to a string. -/
def addr (host : Host) (r c : Nat) : String :=
  colToName c ++ jsNumberToString host (Num.fin (dbl (r + 1)) 0)

/-- The result object `{ r, c }` of `parseA1`. -/
structure RC where
  r : Num
  c : Num
  deriving DecidableEq, Repr

/-- The regular expression `([A-Z]+)(\d+)` (flag `i`) tried at the head of `s` with a first
group of `k` characters, then `k - 1`, ... (greedy quantifier, backtracking): the second group
is the longest run of digits after the first group and must not be empty. -/
def matchLetters (s : List Char) : Nat → Option (List Char × List Char)
  | 0 => none
  | k + 1 =>
    let ds := (s.drop (k + 1)).takeWhile Char.isDigit
    if ds ≠ [] then some (s.take (k + 1), ds) else matchLetters s k

/-- The regular expression tried at the head of `s`: the first group starts as the longest
run of letters (`[A-Z]` with flag `i` is `[A-Za-z]`). -/
def matchAt (s : List Char) : Option (List Char × List Char) :=
  matchLetters s (s.takeWhile Char.isAlpha).length

/-- `a1.match(re)`: the regular expression is not anchored, so the leftmost position at which
it matches is taken; the result is the pair of groups `(m[1], m[2])`, `none` for `null`. -/
def reMatch : List Char → Option (List Char × List Char)
  | [] => none
  | ch :: s =>
    match matchAt (ch :: s) with
    | some m => some m
    | none => reMatch s

/-- `m[1].toUpperCase().split("").reduce((n, ch) => n * 26 + (ch.charCodeAt(0) - 64), 0)`. -/
def colOfLetters (ls : List Char) : Num :=
  (ls.map Char.toUpper).foldl
    (fun n ch => Num.add (Num.mul n 26) (Num.fin ((ch.toNat : Int) - 64) 0)) 0

/-- The integer that a string of decimal digits writes. -/
def digitsValue (ds : List Char) : Int :=
  ds.foldl (fun n ch => n * 10 + ((ch.toNat : Int) - 48)) 0

/-- `parseInt(m[2], 10)` on a string of decimal digits: the number nearest to the integer that
the digits write. -/
def parseInt10 (ds : List Char) : Num := Num.round (digitsValue ds) 0

/-- `parseA1(a1)`: `null` when the regular expression matches nowhere, otherwise
`{ r: parseInt(m[2], 10) - 1, c: (reduce over m[1]) - 1 }`. -/
def parseA1 (a1 : String) : Option RC :=
  match reMatch a1.data with
  | none => none
  | some (ls, ds) => some { r := Num.sub (parseInt10 ds) 1, c := Num.sub (colOfLetters ls) 1 }

/-- The value of a column name in bijective base 26, as the specification words it:
`A` = 1, ..., `Z` = 26, most significant letter first. -/
def bijective26 (s : List Char) : Nat :=
  s.foldl (fun n ch => n * 26 + (ch.toNat - 64)) 0

/-- A string of the form the specification gives for addresses: one or more letters of
either case followed by one or more decimal digits, and nothing else. -/
def WellFormedA1 (s : String) : Prop :=
  ∃ ls ds : List Char, s.data = ls ++ ds ∧ ls ≠ [] ∧ ds ≠ [] ∧
    (∀ ch ∈ ls, ch.isAlpha = true) ∧ (∀ ch ∈ ds, ch.isDigit = true)

/-- Somewhere in the string a letter is immediately followed by a decimal digit. -/
def HasLetterDigit (s : String) : Prop :=
  ∃ (pre post : List Char) (l d : Char),
    s.data = pre ++ l :: d :: post ∧ l.isAlpha = true ∧ d.isDigit = true

/-! ## Cells, grids, sheets and the application state -/

/-- The format record `fmt` of a cell. -/
structure Fmt where
  bold : Bool
  italic : Bool
  align : String
  type : String
  deriving DecidableEq, Repr

/-- A validation rule `{ type, values }`; `values` may be missing (`rule.values || []`). -/
structure Rule where
  type : String
  values : Option (List String)
  deriving DecidableEq, Repr

/-- A JavaScript value as the component meets it: what the engine returns for a cell and what
a cell shows in `value`.  A non-null object is given by what the component observes of it:
whether `"type" in v`, whether `"value" in v`, and `Number(v)`. -/
inductive Val where
  | undefined
  | null
  | bool (b : Bool)
  | num (x : Num)
  | str (s : String)
  | object (hasType : Bool) (hasValue : Bool) (number : Num)
  deriving DecidableEq, Repr

/-- A cell `{ input, value, fmt, validation }`; `validation` is `null` or a rule; `value` is
the displayed value, the empty string until the first recomputation. -/
structure Cell where
  input : String
  value : Val
  fmt : Fmt
  validation : Option Rule
  deriving DecidableEq, Repr

/-- `defaultCell()`. -/
def defaultCell : Cell :=
  { input := "", value := Val.str "",
    fmt := { bold := false, italic := false, align := "left", type := "text" },
    validation := none }

/-- A grid: an array of rows, each an array of cells. -/
abbrev Grid := List (List Cell)

/-- `DEFAULT_COLS`. -/
def DEFAULT_COLS : Nat := 12

/-- `DEFAULT_ROWS`. -/
def DEFAULT_ROWS : Nat := 30

/-- `newGrid(rows, cols)`: `rows` rows of `cols` default cells. -/
def newGrid (rows : Nat) (cols : Nat) : Grid :=
  List.replicate rows (List.replicate cols defaultCell)

/-- A sheet `{ name, grid, names }`; `names` is the table of named ranges. -/
structure Sheet where
  name : String
  grid : Grid
  names : List (String × String)
  deriving DecidableEq, Repr

/-- The React state `sheets`: `{ sheets, activeIndex }`. -/
structure Workbook where
  sheets : List Sheet
  activeIndex : Int
  deriving DecidableEq, Repr

/-- The state of the component that the operations below read and write: the React state
`sheets`, the string stored in `localStorage` under `STORAGE_KEY` (`none` when nothing has been
stored), the selection `{ r, c }`, the edit buffer `editVal` and the flag `isEditing`. -/
structure App where
  sheets : Workbook
  storage : Option String
  selR : Nat
  selC : Nat
  editVal : String
  isEditing : Bool
  deriving DecidableEq, Repr

/-- `arr[i]` for a JavaScript number `i`: `undefined` (`none`) off the array. -/
def jsIndex {α : Type} (arr : List α) (i : Int) : Option α :=
  if 0 ≤ i then arr[i.toNat]? else none

/-- `sheets.sheets[sheets.activeIndex]`, the constant `active` of the component. -/
def Workbook.active (w : Workbook) : Option Sheet := jsIndex w.sheets w.activeIndex

/-- `activeGrid`, that is `sheets.sheets[sheets.activeIndex].grid`. -/
def App.activeGrid (a : App) : Option Grid := a.sheets.active.map Sheet.grid

/-- `grid[r]?.[c]`: the cell at row `r`, column `c`, when there is one. -/
def cellAt (g : Grid) (r c : Nat) : Option Cell := (g[r]?).bind (fun row => row[c]?)

/-- All rows of the grid have the same length. -/
def Rect (g : Grid) : Prop := ∀ row ∈ g, ∀ row' ∈ g, row.length = row'.length

/-- The grid invariant of the data model: at least one row, at least one column, and every
row has the same length. -/
def GridOK (g : Grid) : Prop :=
  1 ≤ g.length ∧ (∀ row ∈ g, 1 ≤ row.length) ∧ Rect g

/-- The workbook invariant of the data model: at least one sheet and
`0 ≤ activeIndex < sheets.length`. -/
def WorkbookOK (w : Workbook) : Prop :=
  1 ≤ w.sheets.length ∧ 0 ≤ w.activeIndex ∧ w.activeIndex < w.sheets.length

/-! ## The mutation layer (`mutateActiveGrid`) -/

/-- The callback of `s.sheets.map((sh, i) => ...)` in `mutateActiveGrid`, run over the sheets
from index `i` on: a sheet whose index differs from `activeIndex` is returned as it is; for the
active sheet the grid is copied, `fn` is applied to the copy and the sheet is rebuilt around
it.  `fn` returns `none` when the JavaScript callback throws, which aborts the update. -/
def mutateSheets (fn : Grid → Option Grid) (activeIndex : Int) :
    Nat → List Sheet → Option (List Sheet)
  | _, [] => some []
  | i, sh :: rest =>
    if (i : Int) ≠ activeIndex then
      (mutateSheets fn activeIndex (i + 1) rest).map (fun out => sh :: out)
    else
      match fn sh.grid with
      | none => none
      | some grid =>
        (mutateSheets fn activeIndex (i + 1) rest).map (fun out => { sh with grid := grid } :: out)

/-- `mutateActiveGrid(fn)`: the state updater builds `next` with the active sheet's grid
replaced, stores `serialize(next)` under the storage key and returns `next`. -/
def mutateActiveGrid (serialize : Workbook → String) (fn : Grid → Option Grid) (a : App) :
    Option App :=
  match mutateSheets fn a.sheets.activeIndex 0 a.sheets.sheets with
  | none => none
  | some shs =>
    let next : Workbook := { a.sheets with sheets := shs }
    some { a with sheets := next, storage := some (serialize next) }

/-! ## Row and column operations -/

/-- The callback of `addRow`: `g.push(Array.from({ length: g[0].length }, defaultCell))`;
`g[0].length` throws on a grid without rows. -/
def addRowFn (g : Grid) : Option Grid :=
  match g with
  | [] => none
  | row0 :: _ => some (g ++ [List.replicate row0.length defaultCell])

/-- The callback of `addCol`: `g.forEach((r) => r.push(defaultCell()))`. -/
def addColFn (g : Grid) : Option Grid :=
  some (g.map (fun r => r ++ [defaultCell]))

/-- The callback of `delRow`: `if (g.length > 1) g.pop()`. -/
def delRowFn (g : Grid) : Option Grid :=
  some (if g.length > 1 then g.dropLast else g)

/-- The callback of `delCol`: `if (g[0].length > 1) g.forEach((r) => r.pop())`;
`g[0].length` throws on a grid without rows. -/
def delColFn (g : Grid) : Option Grid :=
  match g with
  | [] => none
  | row0 :: _ => some (if row0.length > 1 then g.map List.dropLast else g)

/-- `addRow()`. -/
def addRow (serialize : Workbook → String) (a : App) : Option App :=
  mutateActiveGrid serialize addRowFn a

/-- `addCol()`. -/
def addCol (serialize : Workbook → String) (a : App) : Option App :=
  mutateActiveGrid serialize addColFn a

/-- `delRow()`. -/
def delRow (serialize : Workbook → String) (a : App) : Option App :=
  mutateActiveGrid serialize delRowFn a

/-- `delCol()`. -/
def delCol (serialize : Workbook → String) (a : App) : Option App :=
  mutateActiveGrid serialize delColFn a

/-- The four grid operations. -/
inductive GridOp where
  | addRow
  | delRow
  | addCol
  | delCol
  deriving DecidableEq, Repr

/-- One grid operation applied to the state. -/
def GridOp.run (serialize : Workbook → String) : GridOp → App → Option App
  | .addRow => Cosmos.addRow serialize
  | .delRow => Cosmos.delRow serialize
  | .addCol => Cosmos.addCol serialize
  | .delCol => Cosmos.delCol serialize

/-- A finite sequence of grid operations, applied from left to right; `none` as soon as one
of them throws. -/
def runGridOps (serialize : Workbook → String) : List GridOp → App → Option App
  | [], a => some a
  | op :: ops, a =>
    match op.run serialize a with
    | none => none
    | some a' => runGridOps serialize ops a'

/-! ## Sheet operations -/

/-- `newSheet()`: appends `{ name: "Sheet" + (length + 1), grid: newGrid(), names: {} }` and
makes it the active sheet. -/
def newSheet (a : App) : App :=
  { a with sheets :=
      { sheets := a.sheets.sheets ++
          [{ name := "Sheet" ++ Nat.repr (a.sheets.sheets.length + 1),
             grid := newGrid DEFAULT_ROWS DEFAULT_COLS, names := [] }],
        activeIndex := a.sheets.sheets.length } }

/-- The callback of `s.sheets.map((sh, i) => (i === idx ? { ...sh, name } : sh))`, run over
the sheets from index `i` on. -/
def renameSheets (idx : Int) (name : String) : Nat → List Sheet → List Sheet
  | _, [] => []
  | i, sh :: rest =>
    (if (i : Int) = idx then { sh with name := name } else sh) ::
      renameSheets idx name (i + 1) rest

/-- `renameSheet(idx, name)`. -/
def renameSheet (idx : Int) (name : String) (a : App) : App :=
  { a with sheets := { a.sheets with sheets := renameSheets idx name 0 a.sheets.sheets } }

/-- `arr.splice(idx, 1)` on a copy of the array: a negative `idx` counts from the end
(`max(len + idx, 0)`), an `idx` beyond the end is clamped to the length, and one element is
removed at the resulting position when there is one. -/
def splice1 {α : Type} (idx : Int) (arr : List α) : List α :=
  let len : Int := arr.length
  let start : Int := if idx < 0 then max (len + idx) 0 else min idx len
  arr.eraseIdx start.toNat

/-- `deleteSheet(idx)`: with one sheet or none the state is returned as it is; otherwise the
sheet is spliced out, `activeIndex` becomes
`Math.max(0, Math.min(s.activeIndex, arr.length - 1))` and the new state is stored. -/
def deleteSheet (serialize : Workbook → String) (idx : Int) (a : App) : App :=
  if a.sheets.sheets.length ≤ 1 then a
  else
    let arr := splice1 idx a.sheets.sheets
    let activeIndex : Int := max 0 (min a.sheets.activeIndex ((arr.length : Int) - 1))
    let next : Workbook := { sheets := arr, activeIndex := activeIndex }
    { a with sheets := next, storage := some (serialize next) }

/-- The click handler of a sheet tab: `setSheets((s) => ({ ...s, activeIndex: i }))`, where
`i` is the index of a tab, that is of a sheet. -/
def setActiveSheet (i : Nat) (a : App) : App :=
  { a with sheets := { a.sheets with activeIndex := i } }

/-- The sheet operations; `setActive i` is a click on tab `i`. -/
inductive SheetOp where
  | new
  | rename (idx : Int) (name : String)
  | delete (idx : Int)
  | setActive (i : Nat)
  deriving DecidableEq, Repr

/-- A sheet operation can be carried out on the state: a tab can be clicked only when it
exists. -/
def SheetOp.Enabled (a : App) : SheetOp → Prop
  | .setActive i => i < a.sheets.sheets.length
  | _ => True

/-- One sheet operation applied to the state. -/
def SheetOp.run (serialize : Workbook → String) : SheetOp → App → App
  | .new => newSheet
  | .rename idx name => renameSheet idx name
  | .delete idx => deleteSheet serialize idx
  | .setActive i => setActiveSheet i

/-- Runs of sheet operations: `SheetRun serialize a ops b` holds when the operations `ops`,
each one enabled in the state it is applied to, lead from `a` to `b`. -/
inductive SheetRun (serialize : Workbook → String) : App → List SheetOp → App → Prop where
  | nil (a : App) : SheetRun serialize a [] a
  | cons (a b : App) (op : SheetOp) (ops : List SheetOp) :
      op.Enabled a → SheetRun serialize (op.run serialize a) ops b →
      SheetRun serialize a (op :: ops) b

/-! ## Validation gate and cell edit (`commitEdit`) -/

/-- `val.startsWith("=")`. -/
def startsWithEq (val : String) : Bool :=
  match val.data with
  | [] => false
  | ch :: _ => ch == '='

/-- The guard of the early return of `commitEdit`: the rule has `type === "list"` and, with
`allowed = rule.values || []`, `!allowed.includes(val) && !val.startsWith("=")`. -/
def commitRejected (rule : Option Rule) (val : String) : Bool :=
  match rule with
  | none => false
  | some rule =>
    rule.type == "list" && (!(rule.values.getD []).contains val && !startsWithEq val)

/-- The callback `(grid) => { grid[r][c].input = val; }`; it throws when `grid[r]` or
`grid[r][c]` is `undefined`. -/
def setInputFn (r c : Nat) (val : String) (g : Grid) : Option Grid :=
  match g[r]? with
  | none => none
  | some row =>
    match row[c]? with
    | none => none
    | some cell => some (g.set r (row.set c { cell with input := val }))

/-- `commitEdit()`: reads the rule of `activeGrid[r][c]` (which throws off the grid); a
rejected value only ends the edit (`flashInvalid` animates the DOM and touches no state); an
accepted one is written through `mutateActiveGrid`, and the edit ends. -/
def commitEdit (serialize : Workbook → String) (a : App) : Option App :=
  match a.activeGrid.bind (fun g => cellAt g a.selR a.selC) with
  | none => none
  | some cell =>
    if commitRejected cell.validation a.editVal = true then
      some { a with isEditing := false }
    else
      (mutateActiveGrid serialize (setInputFn a.selR a.selC a.editVal) a).map
        (fun a' => { a' with isEditing := false })

/-- The specification's `isAcceptable(input, rule)` for its rule type, an optional list rule
given by its allowed values: an absent rule accepts everything; a list rule accepts a formula
(an input that begins with `=`) or a member of the allowed values. -/
def isAcceptable (input : String) : Option (List String) → Prop
  | none => True
  | some allowedValues => input.data.head? = some '=' ∨ input ∈ allowedValues

/-! ## CSV export and import -/

/-- `replaceAll('"', '""')`. -/
def escapeQuotes : List Char → List Char
  | [] => []
  | ch :: t => if ch = '"' then '"' :: '"' :: escapeQuotes t else ch :: escapeQuotes t

/-- The template string that wraps an escaped field in double quotes. -/
def quoteField (input : String) : List Char :=
  '"' :: (escapeQuotes input.data ++ ['"'])

/-- `Array.prototype.join` with a one-character separator. -/
def joinSep (sep : Char) : List (List Char) → List Char
  | [] => []
  | [x] => x
  | x :: y :: rest => x ++ sep :: joinSep sep (y :: rest)

/-- One line of the export: the quoted inputs of a row joined by commas. -/
def exportLine (row : List Cell) : List Char :=
  joinSep ',' (row.map (fun c => quoteField c.input))

/-- The text `csv` that `exportCSV` builds from a grid: the lines joined by `"\n"`. -/
def exportGrid (g : Grid) : String :=
  ⟨joinSep '\n' (g.map exportLine)⟩

/-- `exportCSV()`: the text built from `activeGrid` (which is then offered for download). -/
def exportCSV (a : App) : Option String := a.activeGrid.map exportGrid

/-- `text.replace(/\r\n/g, "\n")`. -/
def replaceCRLF : List Char → List Char
  | [] => []
  | [ch] => [ch]
  | ch :: d :: t =>
    if ch = '\r' ∧ d = '\n' then '\n' :: replaceCRLF t else ch :: replaceCRLF (d :: t)

/-- `.replace(/\r/g, "\n")`. -/
def replaceCR (s : List Char) : List Char :=
  s.map (fun ch => if ch = '\r' then '\n' else ch)

/-- `.split("\n")`: `cur` is the piece being read. -/
def splitOn (sep : Char) : List Char → List Char → List (List Char)
  | [], cur => [cur]
  | ch :: t, cur => if ch = sep then cur :: splitOn sep t [] else splitOn sep t (cur ++ [ch])

/-- The `for` loop of the line tokenizer of `importCSV`, on the characters of the line from
index `i` on, with the variables `cur`, `inQ` and `out`; the result is `out` after the final
`out.push(cur)`.  A double quote inside quotes that is followed by a double quote appends one
quote and skips the next character, any other double quote flips `inQ`, a comma outside quotes
ends the field, and every other character is appended. -/
def tokenize : List Char → List Char → Bool → List String → List String
  | [], cur, _, out => out ++ [⟨cur⟩]
  | ch :: rest, cur, inQ, out =>
    if ch = '"' then
      match rest with
      | [] => tokenize [] cur (!inQ) out
      | d :: rest' =>
        if inQ = true ∧ d = '"' then tokenize rest' (cur ++ ['"']) inQ out
        else tokenize (d :: rest') cur (!inQ) out
    else if ch = ',' ∧ inQ = false then tokenize rest [] inQ (out ++ [⟨cur⟩])
    else tokenize rest (cur ++ [ch]) inQ out

/-- The rows parsed from a CSV text: line endings normalised, the text split into lines, each
line tokenized. -/
def parseCSV (text : String) : List (List String) :=
  (splitOn '\n' (replaceCR (replaceCRLF text.data)) []).map
    (fun line => tokenize line [] false [])

/-- `Math.max(...rows.map((r) => r.length))`, as far as the following `Math.max` with a
column count can see it (the maximum of no numbers does not count). -/
def maxWidth (rows : List (List String)) : Nat :=
  (rows.map List.length).foldl max 0

/-- `while (r.length < colsN) r.push(defaultCell())`. -/
def padRow (colsN : Nat) (r : List Cell) : List Cell :=
  r ++ List.replicate (colsN - r.length) defaultCell

/-- The inner loop `for (c < rows[r].length) g[r][c].input = rows[r][c]` on one row; it throws
when a cell is missing. -/
def writeRow : List String → List Cell → Option (List Cell)
  | [], row => some row
  | _ :: _, [] => none
  | f :: fs, cell :: rest =>
    match writeRow fs rest with
    | none => none
    | some rest' => some ({ cell with input := f } :: rest')

/-- The outer loop `for (r < rows.length)` of the cell writes; a row of the grid that is
missing makes the first write of that row throw. -/
def writeRows : List (List String) → Grid → Option Grid
  | [], g => some g
  | fields :: rows, [] =>
    if fields = [] then writeRows rows [] else none
  | fields :: rows, row :: g =>
    match writeRow fields row with
    | none => none
    | some row' =>
      match writeRows rows g with
      | none => none
      | some g' => some (row' :: g')

/-- `while (g.length < rowsN) g.push(Array.from({ length: g[0].length }, defaultCell))`, with
`width` the length of row 0: rows of `width` default cells are appended until there are
`rowsN` rows. -/
def growRows (rowsN width : Nat) (g : Grid) : Grid :=
  g ++ List.replicate (rowsN - g.length) (List.replicate width defaultCell)

/-- `if (g[0].length < colsN) g.forEach((r) => { while (r.length < colsN) r.push(defaultCell()) })`,
with `width` the length of row 0. -/
def growCols (colsN width : Nat) (g : Grid) : Grid :=
  if width < colsN then g.map (padRow colsN) else g

/-- The callback of `importCSV`: the grid grows to `rowsN` rows, then, when row 0 is shorter
than `colsN`, every row grows to `colsN` cells, then the parsed fields are written into the
inputs.  `g[0].length` throws on a grid without rows. -/
def importFn (rows : List (List String)) (g : Grid) : Option Grid :=
  match g with
  | [] => none
  | row0 :: _ =>
    let rowsN := max rows.length g.length
    let colsN := max (maxWidth rows) row0.length
    writeRows rows (growCols colsN row0.length (growRows rowsN row0.length g))

/-- `importCSV(file)` for a file with contents `text`. -/
def importCSV (serialize : Workbook → String) (text : String) (a : App) : Option App :=
  mutateActiveGrid serialize (importFn (parseCSV text)) a

/-- The field that the parsed rows hold for position `(r, c)`, when there is one. -/
def fieldAt (rows : List (List String)) (r c : Nat) : Option String :=
  (rows[r]?).bind (fun fields => fields[c]?)

/-- No input of the grid contains a line feed or a carriage return. -/
def NoLineBreaks (g : Grid) : Prop :=
  ∀ row ∈ g, ∀ cell ∈ row, '\n' ∉ cell.input.data ∧ '\r' ∉ cell.input.data

/-- A small state for examples: one sheet with a 2 x 2 grid of default cells. -/
def demoApp : App :=
  { sheets := { sheets := [{ name := "Sheet1", grid := newGrid 2 2, names := [] }],
                activeIndex := 0 },
    storage := none, selR := 0, selC := 0, editVal := "", isEditing := false }

/-- A state for examples: one sheet with a 1 x 1 grid whose cell holds `"Low"` and carries the
list rule `["High", "Medium", "Low"]`; `editVal` is the value about to be committed. -/
def priorityApp (editVal : String) : App :=
  { sheets :=
      { sheets :=
          [{ name := "Sheet1",
             grid := [[{ defaultCell with
                          input := "Low",
                          validation := some { type := "list",
                                               values := some ["High", "Medium", "Low"] } }]],
             names := [] }],
        activeIndex := 0 },
    storage := none, selR := 0, selC := 0, editVal := editVal, isEditing := true }

/-- What the cell writes of `importCSV` do to one cell: with a parsed field for its position
the input becomes that field, without one the cell stays as it is. -/
def stamp (field : Option String) (cell : Cell) : Cell :=
  match field with
  | none => cell
  | some f => { cell with input := f }

/-- The state with a single sheet `Sheet1` holding the grid `g`, nothing stored, nothing
being edited. -/
def oneSheetApp (g : Grid) : App :=
  { sheets := { sheets := [{ name := "Sheet1", grid := g, names := [] }], activeIndex := 0 },
    storage := none, selR := 0, selC := 0, editVal := "", isEditing := false }

/-! ## The recompute effect -/

/-- The engine as the component uses it: `engine.getCellValue({ sheet, col, row })`, with the
arguments in that order; `none` when the call throws. -/
abbrev Engine := Int → Int → Int → Option Val

/-- `Number(v)`. -/
def jsNumber (host : Host) : Val → Num
  | .undefined => Num.nan
  | .null => 0
  | .bool b => if b then 1 else 0
  | .num x => x
  | .str s => host.numberOfString s
  | .object _ _ number => number

/-- `if (v && typeof v === "object" && "type" in v) v = "#ARRAY"`. -/
def arraySentinel : Val → Val
  | .object true _ _ => .str "#ARRAY"
  | v => v

/-- `if (v && typeof v === "object" && "value" in v) v = "#ERR"`. -/
def errorSentinel : Val → Val
  | .object _ true _ => .str "#ERR"
  | v => v

/-- The body of the cell callback of the recompute effect after the engine has been read: the
two sentinel tests in the order of the source, then `num = Number(v)`, `display = v` and the
three format tests; `t` is `cell.fmt.type`. -/
def displayOf (host : Host) (v : Val) (t : String) : Val :=
  let v := errorSentinel (arraySentinel v)
  let num := jsNumber host v
  let display := v
  let display :=
    if t = "number" ∧ num.isFinite = true then Val.str (host.toLocaleString num) else display
  let display :=
    if t = "currency" ∧ num.isFinite = true then Val.str (host.formatINR num) else display
  let display :=
    if t = "percent" ∧ num.isFinite = true then
      Val.str (host.toFixed2 (Num.mul num 100) ++ "%")
    else display
  display

/-- The callback `row.map((cell, c) => ...)` of the recompute effect on row `r`, from column
`c` on: the engine is read at `{ sheet: id, col: c, row: r }` and the cell is rebuilt with
`value: display`. -/
def recomputeRow (host : Host) (engine : Engine) (id : Int) (r : Nat) :
    Nat → List Cell → Option (List Cell)
  | _, [] => some []
  | c, cell :: rest =>
    match engine id c r with
    | none => none
    | some v =>
      match recomputeRow host engine id r (c + 1) rest with
      | none => none
      | some rest' => some ({ cell with value := displayOf host v cell.fmt.type } :: rest')

/-- The callback `g.map((row, r) => ...)` of the recompute effect, from row `r` on. -/
def recomputeRows (host : Host) (engine : Engine) (id : Int) : Nat → Grid → Option Grid
  | _, [] => some []
  | r, row :: rest =>
    match recomputeRow host engine id r 0 row with
    | none => none
    | some row' =>
      match recomputeRows host engine id (r + 1) rest with
      | none => none
      | some rest' => some (row' :: rest')

/-- The recompute step on a grid: `nextGrid` of the recompute effect for the sheet `id`. -/
def recomputeGrid (host : Host) (engine : Engine) (id : Int) (g : Grid) : Option Grid :=
  recomputeRows host engine id 0 g

/-- `sheets.sheets.map((s, i) => i === sheets.activeIndex ? { ...s, grid: nextGrid } : s)`,
from index `i` on. -/
def replaceActiveGrid (nextGrid : Grid) (activeIndex : Int) : Nat → List Sheet → List Sheet
  | _, [] => []
  | i, s :: rest =>
    (if (i : Int) = activeIndex then { s with grid := nextGrid } else s) ::
      replaceActiveGrid nextGrid activeIndex (i + 1) rest

/-- The recompute effect: the display values of the active sheet are rebuilt from the engine,
the new workbook becomes the state and is stored.  `active.grid` throws without an active
sheet. -/
def recompute (host : Host) (serialize : Workbook → String) (engine : Engine) (a : App) :
    Option App :=
  match a.sheets.active with
  | none => none
  | some active =>
    match recomputeGrid host engine a.sheets.activeIndex active.grid with
    | none => none
    | some nextGrid =>
      let newsheets : Workbook :=
        { a.sheets with
          sheets := replaceActiveGrid nextGrid a.sheets.activeIndex 0 a.sheets.sheets }
      some { a with sheets := newsheets, storage := some (serialize newsheets) }

/-- Two grids have the same shape and, cell by cell, the same `fmt`. -/
def SameFmt (g1 g2 : Grid) : Prop :=
  List.Forall₂ (List.Forall₂ fun c1 c2 : Cell => c1.fmt = c2.fmt) g1 g2

/-- The values of a grid, cell by cell. -/
def gridValues (g : Grid) : List (List Val) := g.map fun row => row.map Cell.value

/-! ## The pivot (`buildPivot`) -/

/-- The attempts `f n`, `f (n - 1)`, ..., `f 1` of a greedy quantifier that has `n` characters
to take: the first attempt that succeeds is the result. -/
def tryDown {α : Type} (f : Nat → Option α) : Nat → Option α
  | 0 => none
  | k + 1 =>
    match f (k + 1) with
    | some x => some x
    | none => tryDown f k

/-- The part `[A-Z]+\d+` (flag `i`) of the range pattern at the head of `s`, followed by the
rest of the pattern `cont`, which receives the matched text and the text after it: the letters
are tried from the longest run down, and for each the digits from the longest run down. -/
def matchAddr {α : Type} (s : List Char) (cont : List Char → List Char → Option α) :
    Option α :=
  tryDown
    (fun k =>
      tryDown (fun d => cont (s.take (k + d)) (s.drop (k + d)))
        ((s.drop k).takeWhile Char.isDigit).length)
    (s.takeWhile Char.isAlpha).length

/-- The pattern `([A-Z]+\d+):([A-Z]+\d+)` (flag `i`) tried at the head of `s`; the result is
the pair of groups. -/
def matchRangeAt (s : List Char) : Option (List Char × List Char) :=
  matchAddr s fun m1 rest =>
    match rest with
    | [] => none
    | ch :: rest' =>
      if ch = ':' then matchAddr rest' (fun m2 _ => some (m1, m2)) else none

/-- `pivot.range.match(reRange)`: the pattern is not anchored, the leftmost position at which
it matches is taken; the result is `(m[1], m[2])`, `none` for `null`. -/
def reMatchRange : List Char → Option (List Char × List Char)
  | [] => none
  | ch :: s =>
    match matchRangeAt (ch :: s) with
    | some m => some m
    | none => reMatchRange s

/-- `String(v)`; `buildPivot` never converts an object, for which the default `toString` is
given. -/
def jsString (host : Host) : Val → String
  | .undefined => "undefined"
  | .null => "null"
  | .bool b => if b then "true" else "false"
  | .num x => jsNumberToString host x
  | .str s => s
  | .object _ _ _ => "[object Object]"

/-- The state `pivot`: `{ range, rowCol, valCol, agg }`; `rowCol` and `valCol` come from
`parseInt` (a `NaN` indexes nothing, like a negative number). -/
structure Pivot where
  range : String
  rowCol : Int
  valCol : Int
  agg : String
  deriving DecidableEq, Repr

/-- A value `{ count, sum }` of the `Map` of `buildPivot`. -/
structure Agg where
  count : Nat
  sum : Num
  deriving DecidableEq, Repr

/-- A record `{ key, COUNT, SUM }` of the pivot result. -/
structure PivotRow where
  key : String
  COUNT : Nat
  SUM : Num
  deriving DecidableEq, Repr

/-- The state `pivotData` after `buildPivot`: `{ error }` or `{ rows }`. -/
inductive PivotData where
  | error (message : String)
  | rows (out : List PivotRow)
  deriving DecidableEq, Repr

/-- `map.get(k)` on a `Map` with string keys, kept as the list of its entries in insertion
order. -/
def mapGet : List (String × Agg) → String → Option Agg
  | [], _ => none
  | (k', v) :: rest, k => if k' = k then some v else mapGet rest k

/-- `map.set(k, v)`: the value of an existing key is replaced in place, a new key is appended. -/
def mapSet : List (String × Agg) → String → Agg → List (String × Agg)
  | [], k, v => [(k, v)]
  | (k', v') :: rest, k, v =>
    if k' = k then (k, v) :: rest else (k', v') :: mapSet rest k v

/-- `row[idx]`: `undefined` off the row. -/
def rowAt (row : List Val) (idx : Int) : Val := (jsIndex row idx).getD Val.undefined

/-- `const k = String(row[idxRow])`. -/
def pivotKey (host : Host) (idxRow : Int) (row : List Val) : String :=
  jsString host (rowAt row idxRow)

/-- `const val = Number(row[idxVal])`. -/
def pivotNum (host : Host) (idxVal : Int) (row : List Val) : Num :=
  jsNumber host (rowAt row idxVal)

/-- The body of `for (const row of rows)`: the entry of the key is fetched (or started at
`{ count: 0, sum: 0 }`), its count grows by one, `val` is added to its sum when
`Number.isFinite(val)`, and it is stored under the key. -/
def pivotStep (host : Host) (idxRow idxVal : Int) (map : List (String × Agg))
    (row : List Val) : List (String × Agg) :=
  let k := pivotKey host idxRow row
  let val := pivotNum host idxVal row
  let obj := (mapGet map k).getD { count := 0, sum := 0 }
  let obj := { obj with count := obj.count + 1 }
  let obj := if val.isFinite = true then { obj with sum := Num.add obj.sum val } else obj
  mapSet map k obj

/-- The grouping of `buildPivot`: the loop over the rows, then
`Array.from(map.entries()).map(([k, v]) => ({ key: k, COUNT: v.count, SUM: v.sum }))`. -/
def pivotRows (host : Host) (idxRow idxVal : Int) (rows : List (List Val)) : List PivotRow :=
  (rows.foldl (pivotStep host idxRow idxVal) []).map
    fun e => { key := e.1, COUNT := e.2.count, SUM := e.2.sum }

/-- The numbers added one after the other, from 0 on, in the order of the list, each addition
rounded: `((0 + x1) + x2) + ...`. -/
def sumInOrder (xs : List Num) : Num := xs.foldl Num.add 0

/-- A `for` loop over a list whose body may throw: the results in order, `none` as soon as
the body throws. -/
def forEachM {α β : Type} (f : α → Option β) : List α → Option (List β)
  | [] => some []
  | x :: xs =>
    match f x with
    | none => none
    | some y =>
      match forEachM f xs with
      | none => none
      | some ys => some (y :: ys)

/-- The values of `for (let x = lo; x <= hi; x++)`. -/
def intRange (lo hi : Int) : List Int :=
  (List.range (hi - lo + 1).toNat).map fun i : Nat => lo + (i : Int)

/-- `if (v && typeof v === "object") v = ""`. -/
def blankObject : Val → Val
  | .object _ _ _ => Val.str ""
  | v => v

/-- One read of `buildPivot`: `engine.getCellValue({ sheet: id, col: c, row: r })`, an object
replaced by the empty string. -/
def readCell (engine : Engine) (id r c : Int) : Option Val :=
  (engine id c r).map blankObject

/-- The largest length of an array: the `push` that would make an array longer throws. -/
def maxArrayLength : Nat := 2 ^ 32 - 1

/-- The values that `for (let x = lo; x <= hi; x++)` runs through while its body pushes one
element per round onto an array, for bounds that are integers or infinite (those of
`buildPivot` are).  The result is `none` when a `push` throws: with an infinite `hi`, with
`hi` at or beyond `2 ^ 53` (from where on `x++` leaves `x` as it is), and with more values than
an array can hold, the rounds go on until the array is full. -/
def loopRange (lo hi : Num) : Option (List Int) :=
  match lo.toInt?, hi.toInt? with
  | some a, some b =>
    if b < 2 ^ 53 ∧ (b - a + 1).toNat ≤ maxArrayLength then some (intRange a b) else none
  | _, _ => none

/-- The two nested loops of `buildPivot` that read the rectangle `r0..r1` by `c0..c1`. -/
def readRows (engine : Engine) (id : Int) (r0 r1 c0 c1 : Num) : Option (List (List Val)) :=
  match loopRange r0 r1, loopRange c0 c1 with
  | some rs, some cs => forEachM (fun r => forEachM (fun c => readCell engine id r c) cs) rs
  | _, _ => none

/-- `buildPivot()`: the new `pivotData`.  Without a match of the range pattern the result is
the error `"Range must be like A1:C100"`; anything thrown inside the `try` (a `null` endpoint,
a throwing engine, a `push` onto a full array) gives the error `"Pivot error"`; otherwise the
rectangle between the two endpoints is read and grouped. -/
def buildPivot (host : Host) (engine : Engine) (sheets : Workbook) (pivot : Pivot) :
    PivotData :=
  match reMatchRange pivot.range.data with
  | none => PivotData.error "Range must be like A1:C100"
  | some (m1, m2) =>
    match parseA1 ⟨m1⟩, parseA1 ⟨m2⟩ with
    | some s, some e =>
      match readRows engine sheets.activeIndex (Num.min s.r e.r) (Num.max s.r e.r)
          (Num.min s.c e.c) (Num.max s.c e.c) with
      | none => PivotData.error "Pivot error"
      | some rows => PivotData.rows (pivotRows host pivot.rowCol pivot.valCol rows)
    | _, _ => PivotData.error "Pivot error"

/-- Somewhere in the string stands an address, a colon and an address, each address being
one or more letters followed by one or more digits. -/
def HasRangePattern (s : String) : Prop :=
  ∃ (pre post : List Char) (a b : String),
    s.data = pre ++ (a.data ++ ':' :: (b.data ++ post)) ∧ WellFormedA1 a ∧ WellFormedA1 b

/-- An engine for examples: column 0 holds `x`, `y`, `x` and column 1 holds 10, 5, 7 in the
rows 0, 1, 2 of every sheet; every other cell is empty. -/
def demoEngine : Engine := fun _ c r =>
  if c = 0 ∧ r = 0 then some (Val.str "x")
  else if c = 0 ∧ r = 1 then some (Val.str "y")
  else if c = 0 ∧ r = 2 then some (Val.str "x")
  else if c = 1 ∧ r = 0 then some (Val.num 10)
  else if c = 1 ∧ r = 1 then some (Val.num 5)
  else if c = 1 ∧ r = 2 then some (Val.num 7)
  else some Val.null

/-! ## The initial state -/

/-- A value that `JSON.parse` returns; numbers are the integers, an object is the list of its
properties. -/
inductive Json where
  | null
  | bool (b : Bool)
  | num (x : Int)
  | str (s : String)
  | arr (items : List Json)
  | obj (fields : List (String × Json))

/-- What the model takes from the JavaScript host for the initial state: `JSON.parse` (`none`
when it throws) and the comparison `v >= 0` for a string, an array or an object, which goes
through the conversion of `v` to a number. -/
structure JsonHost where
  parse : String → Option Json
  coerceGeZero : Json → Bool

/-- `saved?.key`: the property of an object, `undefined` (`none`) for every other value. -/
def Json.get (key : String) : Json → Option Json
  | .obj fields => fields.lookup key
  | _ => none

/-- The truthiness of `saved?.sheets`. -/
def jsTruthy : Option Json → Bool
  | none => false
  | some .null => false
  | some (.bool b) => b
  | some (.num x) => x ≠ 0
  | some (.str s) => s ≠ ""
  | some (.arr _) => true
  | some (.obj _) => true

/-- `saved?.activeIndex >= 0`: `undefined` is not, `null` and the booleans are (they convert
to 0 and 1), a number is compared, the other values are converted by the host. -/
def jsGeZero (host : JsonHost) : Option Json → Bool
  | none => false
  | some .null => true
  | some (.bool _) => true
  | some (.num x) => 0 ≤ x
  | some v => host.coerceGeZero v

/-- `deserialize(s)` for `s = localStorage.getItem(STORAGE_KEY)`: `JSON.parse` in a `try`,
`null` when it throws; an absent key gives `JSON.parse(null)`, which is `null`. -/
def deserialize (host : JsonHost) (stored : Option String) : Json :=
  match stored with
  | none => Json.null
  | some s => (host.parse s).getD Json.null

/-- The fresh workbook of the initial state: one sheet `Sheet1` with a default grid, no
names, `activeIndex` 0. -/
def defaultWorkbook : Workbook :=
  { sheets := [{ name := "Sheet1", grid := newGrid DEFAULT_ROWS DEFAULT_COLS, names := [] }],
    activeIndex := 0 }

/-- The initial value of the state `sheets`: the parsed value itself, as it is, or the fresh
workbook. -/
inductive InitialState where
  | saved (value : Json)
  | fresh (workbook : Workbook)

/-- The initialiser of the state `sheets`:
`if (saved?.sheets && saved?.activeIndex >= 0) return saved;` and otherwise the fresh
workbook. -/
def initialSheets (host : JsonHost) (stored : Option String) : InitialState :=
  let saved := deserialize host stored
  if jsTruthy (saved.get "sheets") = true ∧ jsGeZero host (saved.get "activeIndex") = true then
    InitialState.saved saved
  else InitialState.fresh defaultWorkbook

/-- A parser for examples that knows two texts: a workbook without sheets, and a workbook
with no sheet at its active index. -/
def demoJsonHost : JsonHost :=
  { parse := fun s =>
      if s = "\x7b\"sheets\":[],\"activeIndex\":0\x7d" then
        some (Json.obj [("sheets", Json.arr []), ("activeIndex", Json.num 0)])
      else if s = "\x7b\"sheets\":[\x7b\"name\":\"S\",\"grid\":[],\"names\":\x7b\x7d\x7d],\"activeIndex\":7\x7d" then
        some (Json.obj
          [("sheets", Json.arr [Json.obj [("name", Json.str "S"), ("grid", Json.arr []),
              ("names", Json.obj [])]]),
           ("activeIndex", Json.num 7)])
      else none,
    coerceGeZero := fun _ => false }

/-- A state for examples: three sheets `A`, `B`, `C` with 1 x 1 default grids, `B` active. -/
def threeSheetApp : App :=
  { sheets :=
      { sheets := [{ name := "A", grid := newGrid 1 1, names := [] },
                   { name := "B", grid := newGrid 1 1, names := [] },
                   { name := "C", grid := newGrid 1 1, names := [] }],
        activeIndex := 1 },
    storage := none, selR := 0, selC := 0, editVal := "", isEditing := false }

/-- The number is an integer kept as `fin n 0`, or an infinity: the form of the numbers that
`parseA1` returns. -/
def Num.IsIntOrInf (x : Num) : Prop :=
  (∃ n : Int, x = Num.fin n 0) ∨ ∃ s : Bool, x = Num.inf s

/-- The two-endpoint form of a range string: an address, a colon and an address, and nothing
else, each address being one or more letters followed by one or more digits. -/
def IsRangeString (s : String) : Prop :=
  ∃ a b : String, s = a ++ ":" ++ b ∧ WellFormedA1 a ∧ WellFormedA1 b

/-! ## The other mutations and the cycle of a mutation -/

/-- The argument of `setFmt`: an object with some of the properties of a format record. -/
structure FmtPatch where
  bold : Option Bool
  italic : Option Bool
  align : Option String
  type : Option String
  deriving DecidableEq, Repr

/-- The object spread of a format record and a patch: the properties of the patch win. -/
def patchFmt (fmt : Fmt) (p : FmtPatch) : Fmt :=
  { bold := p.bold.getD fmt.bold, italic := p.italic.getD fmt.italic,
    align := p.align.getD fmt.align, type := p.type.getD fmt.type }

/-- The callback of `setFmt`: the `fmt` of the selected cell becomes its spread with the patch;
it throws when `grid[r]` or `grid[r][c]` is `undefined`. -/
def setFmtFn (r c : Nat) (p : FmtPatch) (g : Grid) : Option Grid :=
  match g[r]? with
  | none => none
  | some row =>
    match row[c]? with
    | none => none
    | some cell => some (g.set r (row.set c { cell with fmt := patchFmt cell.fmt p }))

/-- `setFmt(patch)`. -/
def setFmt (serialize : Workbook → String) (p : FmtPatch) (a : App) : Option App :=
  mutateActiveGrid serialize (setFmtFn a.selR a.selC p) a

/-- The characters that `trim` removes: white space and line terminators. -/
def jsWhiteSpace (ch : Char) : Bool :=
  decide (ch.toNat ∈ [9, 10, 11, 12, 13, 32, 160, 5760, 8232, 8233, 8239, 8287, 12288, 65279]) ||
    decide (8192 ≤ ch.toNat ∧ ch.toNat ≤ 8202)

/-- `x.trim()`. -/
def jsTrim (x : List Char) : List Char :=
  ((x.dropWhile jsWhiteSpace).reverse.dropWhile jsWhiteSpace).reverse

/-- `valList.split(",").map((x) => x.trim()).filter(Boolean)`. -/
def validationValues (valList : String) : List String :=
  ((splitOn ',' valList.data []).map fun x => String.mk (jsTrim x)).filter fun x => x ≠ ""

/-- The callback of `applyValidationList`: the selected cell gets the rule
`{ type: "list", values: vals }`; it throws when `g[r]` or `g[r][c]` is `undefined`. -/
def setValidationFn (r c : Nat) (vals : List String) (g : Grid) : Option Grid :=
  match g[r]? with
  | none => none
  | some row =>
    match row[c]? with
    | none => none
    | some cell =>
      some (g.set r (row.set c { cell with
        validation := some { type := "list", values := some vals } }))

/-- `applyValidationList()` with the text `valList` of the dialog. -/
def applyValidationList (serialize : Workbook → String) (valList : String) (a : App) :
    Option App :=
  mutateActiveGrid serialize (setValidationFn a.selR a.selC (validationValues valList)) a

/-- The object spread of a table of names with one more entry: the entry of an existing key is
replaced, a new key is added at the end. -/
def namesSet (key ref : String) : List (String × String) → List (String × String)
  | [] => [(key, ref)]
  | (k, v) :: rest => if k = key then (key, ref) :: rest else (k, v) :: namesSet key ref rest

/-- The callback of `s.sheets.map((sh, i) => ...)` in `saveNamedRange`, run over the sheets
from index `i` on: the active sheet gets the new entry in its names. -/
def nameSheets (key ref : String) (activeIndex : Int) : Nat → List Sheet → List Sheet
  | _, [] => []
  | i, sh :: rest =>
    (if (i : Int) = activeIndex then { sh with names := namesSet key ref sh.names } else sh) ::
      nameSheets key ref activeIndex (i + 1) rest

/-- `saveNamedRange()` with the texts `nameKey` and `nameRef` of the dialog: with an empty
text the state stays as it is; otherwise the entry is set in the names of the active sheet and
the new state is stored. -/
def saveNamedRange (serialize : Workbook → String) (nameKey nameRef : String) (a : App) : App :=
  if nameKey = "" ∨ nameRef = "" then a
  else
    let next : Workbook :=
      { a.sheets with sheets := nameSheets nameKey nameRef a.sheets.activeIndex 0 a.sheets.sheets }
    { a with sheets := next, storage := some (serialize next) }

/-- The mutations that change structural or content state. -/
inductive Mutation where
  | commitEdit
  | setFmt (p : FmtPatch)
  | addRow
  | addCol
  | delRow
  | delCol
  | importCSV (text : String)
  | applyValidationList (valList : String)
  | saveNamedRange (nameKey nameRef : String)
  | newSheet
  | renameSheet (idx : Int) (name : String)
  | deleteSheet (idx : Int)
  deriving DecidableEq, Repr

/-- The state update of a mutation; `none` when it throws. -/
def Mutation.run (serialize : Workbook → String) : Mutation → App → Option App
  | .commitEdit, a => Cosmos.commitEdit serialize a
  | .setFmt p, a => Cosmos.setFmt serialize p a
  | .addRow, a => Cosmos.addRow serialize a
  | .addCol, a => Cosmos.addCol serialize a
  | .delRow, a => Cosmos.delRow serialize a
  | .delCol, a => Cosmos.delCol serialize a
  | .importCSV text, a => Cosmos.importCSV serialize text a
  | .applyValidationList valList, a => Cosmos.applyValidationList serialize valList a
  | .saveNamedRange nameKey nameRef, a => some (Cosmos.saveNamedRange serialize nameKey nameRef a)
  | .newSheet, a => some (Cosmos.newSheet a)
  | .renameSheet idx name, a => some (Cosmos.renameSheet idx name a)
  | .deleteSheet idx, a => some (Cosmos.deleteSheet serialize idx a)

/-- The mutation does set a new state `sheets`: a cell edit whose value is accepted, a
named-range save with both texts, a deletion in a workbook with more than one sheet, and every
other mutation. -/
def Mutation.Applies (a : App) : Mutation → Prop
  | .commitEdit =>
    ∃ cell, a.activeGrid.bind (fun g => cellAt g a.selR a.selC) = some cell ∧
      commitRejected cell.validation a.editVal = false
  | .saveNamedRange nameKey nameRef => nameKey ≠ "" ∧ nameRef ≠ ""
  | .deleteSheet _ => 1 < a.sheets.sheets.length
  | _ => True

/-- The state update of the mutation calls `localStorage.setItem` itself; `newSheet` and
`renameSheet` leave the write to the recompute effect. -/
def Mutation.storesItself : Mutation → Bool
  | .newSheet => false
  | .renameSheet _ _ => false
  | _ => true

/-- The recompute effect run `n` times in a row.  A new state `sheets` makes `useMemo` build a
new engine from it (`build`), and the new engine makes the effect run, which sets the state
again. -/
def effectRuns (host : Host) (serialize : Workbook → String) (build : Workbook → Engine) :
    Nat → App → Option App
  | 0, a => some a
  | n + 1, a =>
    match recompute host serialize (build a.sheets) a with
    | none => none
    | some a' => effectRuns host serialize build n a'

/-- Two cells agree in everything but the displayed value. -/
def SameCell (c1 c2 : Cell) : Prop :=
  c1.input = c2.input ∧ c1.fmt = c2.fmt ∧ c1.validation = c2.validation

/-- Two workbooks agree in everything but the displayed values of their cells: the same
`activeIndex`, and sheet by sheet the same name, the same names table and grids of the same
shape whose cells agree in `input`, `fmt` and `validation`. -/
def SameContent (w1 w2 : Workbook) : Prop :=
  w1.activeIndex = w2.activeIndex ∧
  List.Forall₂
    (fun s1 s2 : Sheet =>
      s1.name = s2.name ∧ s1.names = s2.names ∧
        List.Forall₂ (List.Forall₂ SameCell) s1.grid s2.grid)
    w1.sheets w2.sheets

/-! ### Lemmas on the address codec -/

theorem leastPow_le (n L : Nat) (h : n < 2 ^ L) : ∀ (fuel L0 : Nat), L0 ≤ L →
    leastPow fuel n L0 ≤ L := by
  intro fuel
  induction fuel with
  | zero => intro L0 h0; simpa [leastPow] using h0
  | succ f ih =>
    intro L0 h0
    unfold leastPow
    split
    · exact h0
    · rename_i hn
      apply ih
      by_contra hc
      have : L0 = L := by omega
      subst this
      exact hn h

theorem bitLen_le (n L : Nat) (h : n < 2 ^ L) : bitLen n ≤ L :=
  leastPow_le n L h n 0 (Nat.zero_le _)

theorem roundHalfEven_one (a : Nat) : roundHalfEven a 1 = a := by
  unfold roundHalfEven
  have h : a % 1 = 0 := Nat.mod_one a
  simp only [h, Nat.div_one]
  rw [if_pos (by omega)]

theorem roundHalfEven_26 (K T j : Nat) (hj : j < 26) (hT : 16 ≤ T) :
    K ≤ roundHalfEven (26 * K + j * T) 26 ∧ roundHalfEven (26 * K + j * T) 26 < K + T := by
  unfold roundHalfEven
  simp only []
  interval_cases j <;> split_ifs <;> omega

/-- A natural number of at most `2 ^ 53` is a binary64 value. -/
theorem dbl_exact (n : Nat) (h : n ≤ 2 ^ 53) : dbl n = n := by
  rcases Nat.lt_or_ge n (2 ^ 53) with h1 | h1
  · have := bitLen_le n 53 h1
    have h0 : bitLen n - 53 = 0 := by omega
    simp [dbl, h0, roundHalfEven_one]
  · have : n = 2 ^ 53 := by omega
    subst this
    decide

/-- Below `2 ^ 53` the floor of the rounded quotient by 26 is the floor of the exact quotient:
the quotient is below `2 ^ 49`, where binary64 values are at most `2 ^ (-4)` apart, and lies at
least `1 / 26` below the next integer. -/
theorem floorQuot_26 (x : Nat) (hx : x < 2 ^ 53) : floorQuot x 26 = x / 26 := by
  unfold floorQuot
  by_cases h : 26 ≤ x
  · rw [if_pos h]
    have hq : x / 26 < 2 ^ 49 := by
      rw [Nat.div_lt_iff_lt_mul (by norm_num)]
      norm_num at hx ⊢
      omega
    have hL := bitLen_le _ 49 hq
    rw [if_neg (by omega)]
    have hT : 16 ≤ 2 ^ (53 - bitLen (x / 26)) := by
      calc 16 = 2 ^ 4 := by norm_num
        _ ≤ 2 ^ (53 - bitLen (x / 26)) := Nat.pow_le_pow_right (by norm_num) (by omega)
    generalize 2 ^ (53 - bitLen (x / 26)) = T at hT
    have hA : x * T = 26 * (x / 26 * T) + x % 26 * T := by
      conv_lhs => rw [← Nat.div_add_mod x 26]
      ring
    have hb := roundHalfEven_26 (x / 26 * T) T (x % 26) (Nat.mod_lt _ (by norm_num)) hT
    rw [← hA] at hb
    apply Nat.div_eq_of_lt_le hb.1
    rw [Nat.succ_mul]
    exact hb.2
  · rw [if_neg h]
    have h2 : ¬ (26 * (2 ^ 54 - 1) ≤ x * 2 ^ 54) := by
      norm_num
      omega
    rw [if_neg h2]
    omega

/-- An integer of at most `2 ^ 53` in absolute value is a binary64 value. -/
theorem round_of_int (m : Int) (h : m.natAbs ≤ 2 ^ 53) : Num.round m 0 = Num.fin m 0 := by
  rcases Nat.lt_or_ge m.natAbs (2 ^ 53) with h1 | h1
  · have hL := bitLen_le _ 53 h1
    have hk : (max (0 + (bitLen m.natAbs : Int) - 53) (-1074) - 0).toNat = 0 := by omega
    unfold Num.round
    simp only [hk, pow_zero, roundHalfEven_one]
    rw [if_neg (by omega)]
    unfold Num.norm
    rw [if_pos (by omega)]
    have e1 : ((0 : Int) + ((0 : Nat) : Int)).toNat = 0 := by omega
    rw [e1, pow_zero, mul_one]
    congr 1
    split <;> omega
  · have h2 : m.natAbs = 2 ^ 53 := by omega
    rcases Int.natAbs_eq m with h3 | h3
    · rw [h2] at h3
      rw [h3]
      decide
    · rw [h2] at h3
      rw [h3]
      decide

theorem add_of_int (a b : Int) (h : (a + b).natAbs ≤ 2 ^ 53) :
    Num.add (Num.fin a 0) (Num.fin b 0) = Num.fin (a + b) 0 := by
  have e : Num.add (Num.fin a 0) (Num.fin b 0) = Num.round (a + b) 0 := by
    simp [Num.add]
  rw [e, round_of_int _ h]

theorem mul_of_int (a b : Int) (h : (a * b).natAbs ≤ 2 ^ 53) :
    Num.mul (Num.fin a 0) (Num.fin b 0) = Num.fin (a * b) 0 := by
  have e : Num.mul (Num.fin a 0) (Num.fin b 0) = Num.round (a * b) 0 := by
    simp [Num.mul]
  rw [e, round_of_int _ h]

theorem sub_one_of_int (a : Int) (h : (a - 1).natAbs ≤ 2 ^ 53) :
    Num.sub (Num.fin a 0) 1 = Num.fin (a - 1) 0 := by
  have e : Num.sub (Num.fin a 0) 1 = Num.add (Num.fin a 0) (Num.fin (-1) 0) := rfl
  rw [e, add_of_int a (-1) (by simpa [sub_eq_add_neg] using h)]
  rfl


theorem colLoop_append (fuel : Nat) : ∀ (n : Nat) (s : List Char),
    colLoop fuel n s = colLoop fuel n [] ++ s := by
  induction fuel with
  | zero => intro n s; simp [colLoop]
  | succ f ih =>
    intro n s
    simp only [colLoop]
    split
    · rw [ih _ (_ :: s), ih _ [_]]
      simp
    · simp

theorem upper_letter_toNat (r : Nat) (h : r < 26) : (Char.ofNat (65 + r)).toNat = 65 + r := by
  interval_cases r <;> rfl

theorem upper_letter_isUpper (r : Nat) (h : r < 26) : (Char.ofNat (65 + r)).isUpper = true := by
  interval_cases r <;> rfl

theorem colLoop_succ (fuel n : Nat) (h0 : 0 < n) (hn : n ≤ 2 ^ 53) :
    colLoop (fuel + 1) n [] =
      colLoop fuel ((n - 1) / 26) [] ++ [Char.ofNat (65 + (n - 1) % 26)] := by
  have hx : n - 1 < 2 ^ 53 := by omega
  have hd : dbl (n - 1) = n - 1 := dbl_exact _ (by omega)
  simp only [colLoop]
  rw [if_pos h0, hd, floorQuot_26 _ hx, colLoop_append]

theorem colLoop_ne_nil (fuel n : Nat) (h0 : 0 < n) (hn : n ≤ 2 ^ 53) :
    colLoop (fuel + 1) n [] ≠ [] := by
  rw [colLoop_succ fuel n h0 hn]; simp

theorem colLoop_isUpper (fuel : Nat) : ∀ n : Nat, ∀ ch ∈ colLoop fuel n [], ch.isUpper = true := by
  induction fuel with
  | zero => intro n ch hch; simp [colLoop] at hch
  | succ f ih =>
    intro n ch hch
    simp only [colLoop] at hch
    split at hch
    · rw [colLoop_append] at hch
      rcases List.mem_append.mp hch with hm | hm
      · exact ih _ ch hm
      · rw [List.mem_singleton] at hm
        subst hm
        exact upper_letter_isUpper _ (Nat.mod_lt _ (by decide))
    · simp at hch

theorem bijective26_colLoop (fuel : Nat) : ∀ n : Nat, n ≤ 2 ^ 53 → n ≤ fuel →
    bijective26 (colLoop fuel n []) = n := by
  induction fuel with
  | zero =>
    intro n _ hf
    have : n = 0 := by omega
    subst this
    simp [colLoop, bijective26]
  | succ f ih =>
    intro n hn hf
    rcases Nat.eq_zero_or_pos n with h | h
    · subst h; simp [colLoop, bijective26]
    · have hq := ih ((n - 1) / 26) (by omega) (by omega)
      rw [colLoop_succ f n h hn]
      unfold bijective26 at hq ⊢
      rw [List.foldl_append, hq]
      simp only [List.foldl_cons, List.foldl_nil]
      rw [upper_letter_toNat _ (Nat.mod_lt _ (by decide))]
      omega

theorem colToName_data (n : Nat) (h : n < 2 ^ 53) :
    (colToName n).data = colLoop (n + 1) (n + 1) [] := by
  unfold colToName
  rw [dbl_exact (n + 1) (by omega)]

theorem toUpper_of_isUpper (ch : Char) (h : ch.isUpper = true) : ch.toUpper = ch := by
  have h1 : ¬ (ch.toNat ≥ 97 ∧ ch.toNat ≤ 122) := by
    simp only [Char.isUpper, Bool.and_eq_true, decide_eq_true_eq] at h
    intro h2
    have h3 : ch.val.toNat ≤ 90 := h.2
    have h4 : 97 ≤ ch.val.toNat := h2.1
    omega
  simp only [Char.toUpper]
  rw [if_neg h1]

theorem map_toUpper_of_isUpper (ls : List Char) (h : ∀ ch ∈ ls, ch.isUpper = true) :
    ls.map Char.toUpper = ls := by
  induction ls with
  | nil => rfl
  | cons a t ih =>
    simp only [List.map_cons]
    rw [toUpper_of_isUpper a (h a (List.mem_cons_self _ _)),
      ih (fun ch hch => h ch (List.mem_cons_of_mem _ hch))]

theorem isUpper_toNat (ch : Char) (h : ch.isUpper = true) : 65 ≤ ch.toNat ∧ ch.toNat ≤ 90 := by
  simp only [Char.isUpper, Bool.and_eq_true, decide_eq_true_eq] at h
  exact h

theorem bijective26_snoc (ls : List Char) (ch : Char) :
    bijective26 (ls ++ [ch]) = bijective26 ls * 26 + (ch.toNat - 64) := by
  simp [bijective26, List.foldl_append]

/-- While the value of the letters stays within `2 ^ 53`, no step of the `reduce` of `parseA1`
rounds: the result is the bijective base-26 value of the letters. -/
theorem colOfLetters_exact (ls : List Char) : (∀ ch ∈ ls, ch.isUpper = true) →
    bijective26 ls ≤ 2 ^ 53 → colOfLetters ls = Num.fin (bijective26 ls) 0 := by
  induction ls using List.reverseRecOn with
  | nil => intro _ _; rfl
  | append_singleton init ch ih =>
    intro hup hv
    have hch := isUpper_toNat ch (hup ch (by simp))
    rw [bijective26_snoc] at hv ⊢
    have hinit : bijective26 init ≤ 2 ^ 53 := by omega
    have h1 := ih (fun x hx => hup x (by simp [hx])) hinit
    unfold colOfLetters at h1 ⊢
    rw [map_toUpper_of_isUpper _ hup, List.foldl_append]
    rw [map_toUpper_of_isUpper _ (fun x hx => hup x (by simp [hx]))] at h1
    rw [h1]
    simp only [List.foldl_cons, List.foldl_nil]
    have e26 : (26 : Num) = Num.fin 26 0 := rfl
    rw [e26, mul_of_int _ _ (by omega), add_of_int _ _ (by omega)]
    congr 1
    omega

theorem isUpper_isAlpha (ch : Char) (h : ch.isUpper = true) : ch.isAlpha = true := by
  simp [Char.isAlpha, h]

theorem isAlpha_not_isDigit (ch : Char) (h : ch.isAlpha = true) : ch.isDigit = false := by
  simp only [Char.isAlpha, Char.isUpper, Char.isLower, Bool.or_eq_true, Bool.and_eq_true, decide_eq_true_eq] at h
  simp only [Char.isDigit, Bool.and_eq_false_imp, decide_eq_true_eq, decide_eq_false_iff_not]
  intro h0 h9
  have h9' : ch.val.toNat ≤ 57 := h9
  rcases h with ⟨h1, _⟩ | ⟨h1, _⟩
  · have : 65 ≤ ch.val.toNat := h1
    omega
  · have : 97 ≤ ch.val.toNat := h1
    omega
theorem isDigit_not_isAlpha (ch : Char) (h : ch.isDigit = true) : ch.isAlpha = false := by
  cases h' : ch.isAlpha with
  | false => rfl
  | true => rw [isAlpha_not_isDigit ch h'] at h; cases h
theorem digitChar_toNat (k : Nat) (h : k < 10) : ((Nat.digitChar k).toNat : Int) - 48 = k := by
  interval_cases k <;> rfl
theorem digitChar_isDigit (k : Nat) (h : k < 10) : (Nat.digitChar k).isDigit = true := by
  interval_cases k <;> rfl

theorem digitsValue_snoc (D : List Char) (d : Char) :
    digitsValue (D ++ [d]) = digitsValue D * 10 + ((d.toNat : Int) - 48) := by
  simp [digitsValue, List.foldl_append]

theorem toDigitsCore_spec : ∀ (fuel n : Nat) (ds : List Char), n < fuel →
    ∃ D : List Char, Nat.toDigitsCore 10 fuel n ds = D ++ ds ∧ D ≠ [] ∧
      (∀ ch ∈ D, ch.isDigit = true) ∧ digitsValue D = (n : Int) := by
  intro fuel
  induction fuel with
  | zero => intro n ds h; omega
  | succ fuel ih =>
    intro n ds h
    have hd : n % 10 < 10 := Nat.mod_lt _ (by decide)
    by_cases hq : n / 10 = 0
    · refine ⟨[Nat.digitChar (n % 10)], ?_, by simp, ?_, ?_⟩
      · simp [Nat.toDigitsCore, hq]
      · intro ch hch
        rw [List.mem_singleton] at hch
        subst hch
        exact digitChar_isDigit _ hd
      · have := digitsValue_snoc [] (Nat.digitChar (n % 10))
        simp only [List.nil_append] at this
        rw [this, digitChar_toNat _ hd]
        simp only [digitsValue, List.foldl_nil]
        omega
    · obtain ⟨D, hD, _, hdig, hval⟩ := ih (n / 10) (Nat.digitChar (n % 10) :: ds) (by omega)
      refine ⟨D ++ [Nat.digitChar (n % 10)], ?_, by simp, ?_, ?_⟩
      · simp [Nat.toDigitsCore, hq, hD]
      · intro ch hch
        rcases List.mem_append.mp hch with hm | hm
        · exact hdig ch hm
        · rw [List.mem_singleton] at hm
          subst hm
          exact digitChar_isDigit _ hd
      · rw [digitsValue_snoc, hval, digitChar_toNat _ hd]
        omega

theorem repr_spec (n : Nat) :
    (Nat.repr n).data ≠ [] ∧ (∀ ch ∈ (Nat.repr n).data, ch.isDigit = true) ∧
      digitsValue (Nat.repr n).data = (n : Int) := by
  obtain ⟨D, hD, hne, hdig, hval⟩ := toDigitsCore_spec (n + 1) n [] (Nat.lt_succ_self n)
  have : (Nat.repr n).data = D := by
    simp [Nat.repr, Nat.toDigits, hD, List.asString]
  rw [this]
  exact ⟨hne, hdig, hval⟩

theorem parseInt10_repr (n : Nat) (h : n ≤ 2 ^ 53) :
    parseInt10 (Nat.repr n).data = Num.fin n 0 := by
  unfold parseInt10
  rw [(repr_spec n).2.2, round_of_int _ (by omega)]

theorem jsNumberToString_nat (host : Host) (n : Nat) (h : n ≤ 2 ^ 53) :
    jsNumberToString host (Num.fin n 0) = Nat.repr n := by
  have hn : ((n : Int).natAbs ≤ 2 ^ 53) := by omega
  simp only [jsNumberToString, hn, and_self, if_true]
  rfl

theorem matchAt_letters_digits (L D : List Char) (hL : L ≠ [])
    (hLa : ∀ ch ∈ L, ch.isAlpha = true) (hD : D ≠ []) (hDd : ∀ ch ∈ D, ch.isDigit = true) :
    matchAt (L ++ D) = some (L, D) := by
  have htw : (L ++ D).takeWhile Char.isAlpha = L := by
    rw [List.takeWhile_append_of_pos hLa]
    cases D with
    | nil => exact absurd rfl hD
    | cons d D' =>
      have : d.isAlpha = false := isDigit_not_isAlpha d (hDd d (List.mem_cons_self _ _))
      simp [List.takeWhile_cons, this]
  unfold matchAt
  rw [htw]
  obtain ⟨k, hk⟩ : ∃ k, L.length = k + 1 := by
    cases L with
    | nil => exact absurd rfl hL
    | cons a t => exact ⟨t.length, rfl⟩
  rw [hk]
  have hdrop : (L ++ D).drop (k + 1) = D := by
    rw [← hk]; exact List.drop_left' rfl
  have htake : (L ++ D).take (k + 1) = L := by
    rw [← hk]; exact List.take_left' rfl
  have hall : D.takeWhile Char.isDigit = D := by
    rw [List.takeWhile_eq_self_iff]; exact hDd
  simp only [matchLetters, hdrop, htake, hall]
  rw [if_pos hD]

theorem reMatch_letters_digits (L D : List Char) (hL : L ≠ [])
    (hLa : ∀ ch ∈ L, ch.isAlpha = true) (hD : D ≠ []) (hDd : ∀ ch ∈ D, ch.isDigit = true) :
    reMatch (L ++ D) = some (L, D) := by
  have h := matchAt_letters_digits L D hL hLa hD hDd
  cases L with
  | nil => exact absurd rfl hL
  | cons a t =>
    simp only [List.cons_append] at h ⊢
    simp only [reMatch, h]

theorem matchLetters_some (s : List Char) : ∀ (k : Nat) (m : List Char × List Char),
    matchLetters s k = some m →
    ∃ j, 1 ≤ j ∧ j ≤ k ∧ (s.drop j).takeWhile Char.isDigit ≠ [] := by
  intro k
  induction k with
  | zero => intro m h; simp [matchLetters] at h
  | succ k ih =>
    intro m h
    by_cases hds : (s.drop (k + 1)).takeWhile Char.isDigit ≠ []
    · exact ⟨k + 1, by omega, le_refl _, hds⟩
    · simp only [matchLetters, if_neg hds] at h
      obtain ⟨j, h1, h2, h3⟩ := ih m h
      exact ⟨j, h1, by omega, h3⟩

theorem takeWhile_ne_nil_head (p : Char → Bool) (R : List Char) (h : R.takeWhile p ≠ []) :
    ∃ d R', R = d :: R' ∧ p d = true := by
  cases R with
  | nil => simp at h
  | cons d R' =>
    refine ⟨d, R', rfl, ?_⟩
    cases hp : p d with
    | true => rfl
    | false => simp [List.takeWhile_cons, hp] at h

theorem matchAt_some_letter_digit (s : List Char) (m : List Char × List Char)
    (h : matchAt s = some m) :
    ∃ (pre post : List Char) (l d : Char),
      s = pre ++ l :: d :: post ∧ l.isAlpha = true ∧ d.isDigit = true := by
  obtain ⟨j, h1, h2, h3⟩ := matchLetters_some s _ m h
  obtain ⟨d, R', hR, hd⟩ := takeWhile_ne_nil_head _ _ h3
  have hjlen : j - 1 < (s.takeWhile Char.isAlpha).length := by omega
  have hpre : s.takeWhile Char.isAlpha <+: s := List.takeWhile_prefix _
  have hjs : j - 1 < s.length := Nat.lt_of_lt_of_le hjlen hpre.length_le
  have hl : (s.get ⟨j - 1, hjs⟩).isAlpha = true := by
    have hmem : (s.takeWhile Char.isAlpha)[j - 1] ∈ s.takeWhile Char.isAlpha :=
      List.getElem_mem _
    have hget : (s.takeWhile Char.isAlpha)[j - 1] = s[j - 1] := hpre.getElem hjlen
    rw [hget] at hmem
    exact List.mem_takeWhile_imp hmem
  refine ⟨s.take (j - 1), R', s.get ⟨j - 1, hjs⟩, d, ?_, hl, hd⟩
  have hsplit : s = s.take (j - 1) ++ s.get ⟨j - 1, hjs⟩ :: s.drop (j - 1 + 1) := by
    conv_lhs => rw [← List.take_append_drop (j - 1) s]
    congr 1
    exact List.drop_eq_getElem_cons hjs
  have hj : j - 1 + 1 = j := by omega
  rw [hj, hR] at hsplit
  exact hsplit

theorem reMatch_some_letter_digit : ∀ (s : List Char) (m : List Char × List Char),
    reMatch s = some m →
    ∃ (pre post : List Char) (l d : Char),
      s = pre ++ l :: d :: post ∧ l.isAlpha = true ∧ d.isDigit = true := by
  intro s
  induction s with
  | nil => intro m h; simp [reMatch] at h
  | cons ch t ih =>
    intro m h
    cases hm : matchAt (ch :: t) with
    | some m' => exact matchAt_some_letter_digit _ m' hm
    | none =>
      simp only [reMatch, hm] at h
      obtain ⟨pre, post, l, d, hs, hl, hd⟩ := ih m h
      exact ⟨ch :: pre, post, l, d, by simp [hs], hl, hd⟩

theorem matchAt_letter_digit (l d : Char) (post : List Char)
    (hl : l.isAlpha = true) (hd : d.isDigit = true) :
    (matchAt (l :: d :: post)).isSome = true := by
  have hda : d.isAlpha = false := isDigit_not_isAlpha d hd
  have htw : (l :: d :: post).takeWhile Char.isAlpha = [l] := by
    simp [List.takeWhile_cons, hl, hda]
  unfold matchAt
  rw [htw]
  simp [matchLetters, List.takeWhile_cons, hd]

theorem reMatch_letter_digit (l d : Char) (post : List Char)
    (hl : l.isAlpha = true) (hd : d.isDigit = true) :
    ∀ pre : List Char, (reMatch (pre ++ l :: d :: post)).isSome = true := by
  intro pre
  induction pre with
  | nil =>
    have h := matchAt_letter_digit l d post hl hd
    simp only [List.nil_append, reMatch]
    cases hm : matchAt (l :: d :: post) with
    | some m => rfl
    | none => rw [hm] at h; cases h
  | cons p pre ih =>
    simp only [List.cons_append, reMatch]
    cases hm : matchAt (p :: (pre ++ l :: d :: post)) with
    | some m => rfl
    | none => exact ih

theorem wellFormed_hasLetterDigit (s : String) (h : WellFormedA1 s) : HasLetterDigit s := by
  obtain ⟨ls, ds, hs, hls, hds, hla, hdd⟩ := h
  obtain ⟨ls', l, rfl⟩ : ∃ ls' l, ls = ls' ++ [l] := by
    rcases List.eq_nil_or_concat ls with h0 | ⟨ls', l, h1⟩
    · exact absurd h0 hls
    · exact ⟨ls', l, by simpa using h1⟩
  cases ds with
  | nil => exact absurd rfl hds
  | cons d ds' =>
    refine ⟨ls', ds', l, d, by simp [hs], hla l (by simp), hdd d (by simp)⟩

/-- The address made of the name of column `c` and of the digits of `v`, with
`c < 2 ^ 53` and `v ≤ 2 ^ 53`, is parsed to row `v - 1` and column `c`. -/
theorem parseA1_name_digits (c v : Nat) (hc : c < 2 ^ 53) (hv : v ≤ 2 ^ 53) :
    parseA1 (colToName c ++ Nat.repr v) =
      some { r := Num.fin ((v : Int) - 1) 0, c := Num.fin c 0 } := by
  obtain ⟨hne, hdig, _⟩ := repr_spec v
  have hdata : (colToName c ++ Nat.repr v).data =
      colLoop (c + 1) (c + 1) [] ++ (Nat.repr v).data := by
    rw [String.data_append, colToName_data c hc]
  have hm := reMatch_letters_digits (colLoop (c + 1) (c + 1) []) (Nat.repr v).data
    (colLoop_ne_nil _ _ (Nat.succ_pos c) (by omega))
    (fun ch hch => isUpper_isAlpha ch (colLoop_isUpper _ _ ch hch)) hne hdig
  have hb := bijective26_colLoop (c + 1) (c + 1) (by omega) (le_refl _)
  unfold parseA1
  rw [hdata, hm]
  simp only []
  rw [parseInt10_repr v hv, colOfLetters_exact _ (colLoop_isUpper _ _) (by omega), hb,
    sub_one_of_int _ (by omega), sub_one_of_int _ (by omega)]
  have e : ((c + 1 : Nat) : Int) - 1 = (c : Int) := by
    push_cast
    omega
  rw [e]

/-! ### The address codec: claims -/

/-- C1 (as amended): for every row `r` and column `c` below `2 ^ 53`, `parseA1(addr(r, c))` is
a non-null result, equal to `{ r: r, c: c }`. -/
theorem parseA1_addr_roundtrip (host : Host) (r c : Nat) (hr : r < 2 ^ 53) (hc : c < 2 ^ 53) :
    parseA1 (addr host r c) = some { r := Num.fin r 0, c := Num.fin c 0 } := by
  unfold addr
  rw [dbl_exact (r + 1) (by omega), jsNumberToString_nat host (r + 1) (by omega),
    parseA1_name_digits c (r + 1) hc (by omega)]
  have e : ((r + 1 : Nat) : Int) - 1 = (r : Int) := by
    push_cast
    omega
  rw [e]

/-- C1 (witness): row 2 and column 27 give the address `AB3`, which is parsed back to row 2 and
column 27. -/
theorem parseA1_addr_roundtrip_witness :
    addr demoHost 2 27 = "AB3" ∧
    parseA1 (addr demoHost 2 27) = some { r := Num.fin 2 0, c := Num.fin 27 0 } :=
  ⟨by decide, parseA1_addr_roundtrip demoHost 2 27 (by decide) (by decide)⟩

/-- C1 (counterexample to the claim as stated): at row `2 ^ 53 = 9007199254740992` the sum
`r + 1` is rounded back to `2 ^ 53`, the address is `A9007199254740992`, and `parseA1` returns
row `2 ^ 53 - 1`, not `r`. -/
theorem parseA1_addr_roundtrip_fails_at_2_pow_53 :
    addr demoHost 9007199254740992 0 = "A9007199254740992" ∧
    parseA1 (addr demoHost 9007199254740992 0) =
      some { r := Num.fin 9007199254740991 0, c := Num.fin 0 0 } ∧
    parseA1 (addr demoHost 9007199254740992 0) ≠
      some { r := Num.fin 9007199254740992 0, c := Num.fin 0 0 } := by
  have hd : dbl (9007199254740992 + 1) = 9007199254740992 := by decide
  have ha : addr demoHost 9007199254740992 0 = colToName 0 ++ Nat.repr 9007199254740992 := by
    unfold addr
    rw [hd, jsNumberToString_nat demoHost _ (by norm_num)]
  have hp := parseA1_name_digits 0 9007199254740992 (by norm_num) (by norm_num)
  rw [← ha] at hp
  refine ⟨by rw [ha]; decide, ?_, ?_⟩
  · rw [hp]
    rfl
  · rw [hp]
    decide

/-- C2 (as amended): for every column index `n` below `2 ^ 53`, `colToName(n)` is the
spreadsheet column name of `n`: a non-empty string of letters `A`..`Z` whose bijective base-26
value is `n + 1`; `colToName(0) = "A"`, `colToName(25) = "Z"`, `colToName(26) = "AA"`; and
`colToName` is injective on the indices below `2 ^ 53`. -/
theorem colToName_standard :
    (∀ n : Nat, n < 2 ^ 53 → (colToName n).data ≠ [] ∧
      (∀ ch ∈ (colToName n).data, 'A' ≤ ch ∧ ch ≤ 'Z') ∧
      bijective26 (colToName n).data = n + 1) ∧
    colToName 0 = "A" ∧ colToName 25 = "Z" ∧ colToName 26 = "AA" ∧
    (∀ a b : Nat, a < 2 ^ 53 → b < 2 ^ 53 → colToName a = colToName b → a = b) := by
  refine ⟨fun n hn => ?_, by decide, by decide, by decide, ?_⟩
  · rw [colToName_data n hn]
    refine ⟨colLoop_ne_nil _ _ (Nat.succ_pos n) (by omega), ?_,
      bijective26_colLoop _ _ (by omega) (le_refl _)⟩
    intro ch hch
    have h := colLoop_isUpper _ _ ch hch
    simp only [Char.isUpper, Bool.and_eq_true, decide_eq_true_eq] at h
    exact h
  · intro a b ha hb hab
    have h1 := bijective26_colLoop (a + 1) (a + 1) (by omega) (le_refl _)
    have h2 := bijective26_colLoop (b + 1) (b + 1) (by omega) (le_refl _)
    have hd : (colToName a).data = (colToName b).data := congrArg String.data hab
    rw [colToName_data a ha, colToName_data b hb] at hd
    rw [hd, h2] at h1
    omega

/-- C2 (witness): column 701 is `ZZ`, of value 702, and differs from the name of column
702. -/
theorem colToName_standard_witness :
    bijective26 (colToName 701).data = 701 + 1 ∧ (colToName 701 = colToName 702 → 701 = 702) :=
  ⟨(colToName_standard.1 701 (by decide)).2.2,
    colToName_standard.2.2.2.2 701 702 (by decide) (by decide)⟩

/-- C2 (counterexample to the claim as stated): at `n = 2 ^ 53 = 9007199254740992` the step
`n += 1` is rounded back to `2 ^ 53`, so that `colToName(2 ^ 53)` is the name of column
`2 ^ 53 - 1`: its value is `2 ^ 53` and not `n + 1`, and `colToName` is not injective. -/
theorem colToName_not_injective_at_2_pow_53 :
    colToName 9007199254740992 = colToName 9007199254740991 ∧
    bijective26 (colToName 9007199254740992).data ≠ 9007199254740992 + 1 := by
  have h1 : dbl (9007199254740992 + 1) = 9007199254740992 := by decide
  have h2 : dbl (9007199254740991 + 1) = 9007199254740992 := by decide
  have e : colToName 9007199254740992 = colToName 9007199254740991 := by
    unfold colToName
    rw [h1, h2]
  refine ⟨e, ?_⟩
  rw [e, colToName_data _ (by norm_num),
    bijective26_colLoop _ _ (by norm_num) (le_refl _)]
  norm_num

/-- C3 (as amended): `parseA1` is total, it never raises; it returns a non-null result exactly
for the strings in which some letter is immediately followed by a decimal digit, hence for
every string made of one or more letters followed by one or more digits, and `null` for every
string without such a pair. -/
theorem parseA1_ne_none_iff (s : String) :
    (parseA1 s ≠ none ↔ HasLetterDigit s) ∧ (WellFormedA1 s → parseA1 s ≠ none) := by
  have key : parseA1 s ≠ none ↔ HasLetterDigit s := by
    constructor
    · intro h
      cases hm : reMatch s.data with
      | none => simp [parseA1, hm] at h
      | some m => exact reMatch_some_letter_digit _ m hm
    · rintro ⟨pre, post, l, d, hs, hl, hd⟩
      have h := reMatch_letter_digit l d post hl hd pre
      rw [← hs] at h
      cases hm : reMatch s.data with
      | none => rw [hm] at h; cases h
      | some m => simp [parseA1, hm]
  exact ⟨key, fun hw => key.mpr (wellFormed_hasLetterDigit s hw)⟩

/-- C3 (counterexample to the claim as stated): `"A1!"` is not of the form letters followed by
digits, yet `parseA1("A1!")` is the non-null `{ r: 0, c: 0 }`, because the regular expression
is not anchored. -/
theorem parseA1_accepts_trailing_garbage : ¬ WellFormedA1 "A1!" ∧ parseA1 "A1!" = some { r := 0, c := 0 } := by
  refine ⟨?_, by decide⟩
  rintro ⟨ls, ds, hs, -, hds, -, hdd⟩
  have h1 : (ls ++ ds).getLast? = some '!' := by rw [← hs]; rfl
  rw [List.getLast?_append_of_ne_nil _ hds] at h1
  have := hdd '!' (List.mem_of_getLast?_eq_some h1)
  exact absurd this (by decide)

/-! ### Lemmas on the mutation layer -/

theorem mutateSheets_skip (fn : Grid → Option Grid) (act : Int) :
    ∀ (shs : List Sheet) (i : Nat), act < (i : Int) → mutateSheets fn act i shs = some shs := by
  intro shs
  induction shs with
  | nil => intro i _; rfl
  | cons sh rest ih =>
    intro i hi
    have hne : (i : Int) ≠ act := by omega
    have hrest := ih (i + 1) (by push_cast; omega)
    simp only [mutateSheets, if_pos hne, hrest, Option.map_some']

theorem mutateSheets_active (fn : Grid → Option Grid) (act : Int) :
    ∀ (shs : List Sheet) (i k : Nat) (sh : Sheet) (g' : Grid),
      act = ((i + k : Nat) : Int) → shs[k]? = some sh → fn sh.grid = some g' →
      mutateSheets fn act i shs = some (shs.set k { sh with grid := g' }) := by
  intro shs
  induction shs with
  | nil => intro i k sh g' _ hk _; simp at hk
  | cons sh0 rest ih =>
    intro i k sh g' hact hk hfn
    cases k with
    | zero =>
      simp only [List.getElem?_cons_zero, Option.some.injEq] at hk
      subst hk
      have heq : ¬ ((i : Int) ≠ act) := by
        simp only [Nat.add_zero] at hact
        omega
      have hrest := mutateSheets_skip fn act rest (i + 1) (by push_cast; omega)
      simp only [mutateSheets, if_neg heq, hfn, hrest, Option.map_some', List.set_cons_zero]
    | succ k =>
      simp only [List.getElem?_cons_succ] at hk
      have hne : (i : Int) ≠ act := by push_cast at hact; omega
      have hrest := ih (i + 1) k sh g' (by push_cast at hact ⊢; omega) hk hfn
      simp only [mutateSheets, if_pos hne, hrest, Option.map_some', List.set_cons_succ]

theorem jsIndex_eq_some {α : Type} (arr : List α) (i : Int) (x : α) :
    jsIndex arr i = some x ↔ ∃ k : Nat, i = (k : Int) ∧ arr[k]? = some x := by
  unfold jsIndex
  constructor
  · intro h
    by_cases h0 : 0 ≤ i
    · rw [if_pos h0] at h
      exact ⟨i.toNat, (Int.toNat_of_nonneg h0).symm, h⟩
    · rw [if_neg h0] at h; cases h
  · rintro ⟨k, rfl, hk⟩
    rw [if_pos (Int.natCast_nonneg k)]
    simpa using hk

theorem activeGrid_eq_some (a : App) (g : Grid) :
    a.activeGrid = some g ↔
      ∃ (k : Nat) (sh : Sheet), a.sheets.activeIndex = (k : Int) ∧
        a.sheets.sheets[k]? = some sh ∧ sh.grid = g := by
  unfold App.activeGrid Workbook.active
  constructor
  · intro h
    cases hj : jsIndex a.sheets.sheets a.sheets.activeIndex with
    | none => rw [hj] at h; cases h
    | some sh =>
      rw [hj] at h
      obtain ⟨k, hk, hsh⟩ := (jsIndex_eq_some _ _ _).mp hj
      exact ⟨k, sh, hk, hsh, by simpa using h⟩
  · rintro ⟨k, sh, hk, hsh, rfl⟩
    rw [(jsIndex_eq_some _ _ _).mpr ⟨k, hk, hsh⟩]
    rfl

theorem mutateActiveGrid_eq (serialize : Workbook → String) (fn : Grid → Option Grid) (a : App)
    (k : Nat) (sh : Sheet) (g' : Grid) (hk : a.sheets.activeIndex = (k : Int))
    (hsh : a.sheets.sheets[k]? = some sh) (hfn : fn sh.grid = some g') :
    mutateActiveGrid serialize fn a =
      some { a with
        sheets := { a.sheets with sheets := a.sheets.sheets.set k { sh with grid := g' } },
        storage := some (serialize
          { a.sheets with sheets := a.sheets.sheets.set k { sh with grid := g' } }) } := by
  have h := mutateSheets_active fn a.sheets.activeIndex a.sheets.sheets 0 k sh g'
    (by simpa using hk) hsh hfn
  simp only [mutateActiveGrid, h]

theorem mutateActiveGrid_activeGrid (serialize : Workbook → String) (fn : Grid → Option Grid)
    (a : App) (g g' : Grid) (hg : a.activeGrid = some g) (hfn : fn g = some g') :
    ∃ a', mutateActiveGrid serialize fn a = some a' ∧ a'.activeGrid = some g' ∧
      a'.sheets.activeIndex = a.sheets.activeIndex ∧
      a'.sheets.sheets.length = a.sheets.sheets.length := by
  obtain ⟨k, sh, hk, hsh, rfl⟩ := (activeGrid_eq_some a _).mp hg
  refine ⟨_, mutateActiveGrid_eq serialize fn a k sh g' hk hsh hfn, ?_, rfl, by simp⟩
  rw [activeGrid_eq_some]
  refine ⟨k, { sh with grid := g' }, hk, ?_, rfl⟩
  have hlt : k < a.sheets.sheets.length := by
    rcases List.getElem?_eq_some_iff.mp hsh with ⟨h, _⟩
    exact h
  simp [List.getElem?_set_self, hlt]

/-! ### Lemmas on the row and column operations -/

theorem gridOK_iff (g : Grid) :
    GridOK g ↔ g ≠ [] ∧ ∃ n, 1 ≤ n ∧ ∀ row ∈ g, row.length = n := by
  constructor
  · rintro ⟨hlen, hpos, hrect⟩
    cases g with
    | nil => simp at hlen
    | cons row0 rest =>
      refine ⟨by simp, row0.length, hpos row0 (List.mem_cons_self _ _), ?_⟩
      intro row hrow
      exact hrect row hrow row0 (List.mem_cons_self _ _)
  · rintro ⟨hne, n, hn, hall⟩
    refine ⟨?_, ?_, ?_⟩
    · cases g with
      | nil => exact absurd rfl hne
      | cons row0 rest => simp
    · intro row hrow; rw [hall row hrow]; exact hn
    · intro row hrow row' hrow'; rw [hall row hrow, hall row' hrow']

theorem addRowFn_ok (g : Grid) (h : GridOK g) : ∃ g', addRowFn g = some g' ∧ GridOK g' := by
  obtain ⟨hne, n, hn, hall⟩ := (gridOK_iff g).mp h
  cases g with
  | nil => exact absurd rfl hne
  | cons row0 rest =>
    refine ⟨_, rfl, (gridOK_iff _).mpr ⟨by simp, n, hn, ?_⟩⟩
    intro row hrow
    rcases List.mem_append.mp hrow with hm | hm
    · exact hall row hm
    · rw [List.mem_singleton] at hm
      rw [hm, List.length_replicate]
      exact hall row0 (List.mem_cons_self _ _)

theorem addColFn_ok (g : Grid) (h : GridOK g) : ∃ g', addColFn g = some g' ∧ GridOK g' := by
  obtain ⟨hne, n, hn, hall⟩ := (gridOK_iff g).mp h
  refine ⟨_, rfl, (gridOK_iff _).mpr ⟨by simpa using hne, n + 1, by omega, ?_⟩⟩
  intro row hrow
  obtain ⟨r, hr, rfl⟩ := List.mem_map.mp hrow
  simp [hall r hr]

theorem delRowFn_ok (g : Grid) (h : GridOK g) : ∃ g', delRowFn g = some g' ∧ GridOK g' := by
  obtain ⟨hne, n, hn, hall⟩ := (gridOK_iff g).mp h
  refine ⟨_, rfl, ?_⟩
  by_cases hlen : g.length > 1
  · rw [if_pos hlen]
    refine (gridOK_iff _).mpr ⟨?_, n, hn, ?_⟩
    · intro h0
      have := congrArg List.length h0
      simp only [List.length_dropLast, List.length_nil] at this
      omega
    · intro row hrow
      exact hall row (List.dropLast_subset g hrow)
  · rw [if_neg hlen]; exact h

theorem delColFn_ok (g : Grid) (h : GridOK g) : ∃ g', delColFn g = some g' ∧ GridOK g' := by
  obtain ⟨hne, n, hn, hall⟩ := (gridOK_iff g).mp h
  cases g with
  | nil => exact absurd rfl hne
  | cons row0 rest =>
    refine ⟨_, rfl, ?_⟩
    by_cases hlen : row0.length > 1
    · simp only [delColFn, if_pos hlen]
      have h0 := hall row0 (List.mem_cons_self _ _)
      refine (gridOK_iff _).mpr ⟨by simp, n - 1, by omega, ?_⟩
      intro row hrow
      obtain ⟨r, hr, rfl⟩ := List.mem_map.mp hrow
      simp [hall r hr]
    · simp only [delColFn, if_neg hlen]; exact h

theorem gridOp_run_ok (serialize : Workbook → String) (op : GridOp) (a : App) (g : Grid)
    (hg : a.activeGrid = some g) (hok : GridOK g) :
    ∃ a' g', op.run serialize a = some a' ∧ a'.activeGrid = some g' ∧ GridOK g' := by
  cases op with
  | addRow =>
    obtain ⟨g', hfn, hok'⟩ := addRowFn_ok g hok
    obtain ⟨a', ha', hg', _⟩ := mutateActiveGrid_activeGrid serialize _ a g g' hg hfn
    exact ⟨a', g', ha', hg', hok'⟩
  | delRow =>
    obtain ⟨g', hfn, hok'⟩ := delRowFn_ok g hok
    obtain ⟨a', ha', hg', _⟩ := mutateActiveGrid_activeGrid serialize _ a g g' hg hfn
    exact ⟨a', g', ha', hg', hok'⟩
  | addCol =>
    obtain ⟨g', hfn, hok'⟩ := addColFn_ok g hok
    obtain ⟨a', ha', hg', _⟩ := mutateActiveGrid_activeGrid serialize _ a g g' hg hfn
    exact ⟨a', g', ha', hg', hok'⟩
  | delCol =>
    obtain ⟨g', hfn, hok'⟩ := delColFn_ok g hok
    obtain ⟨a', ha', hg', _⟩ := mutateActiveGrid_activeGrid serialize _ a g g' hg hfn
    exact ⟨a', g', ha', hg', hok'⟩

/-- C4: rectangularity is an invariant of the grid operations: from a state whose active grid
has at least one row, at least one column and rows of equal length, every finite sequence of
`addRow`, `delRow`, `addCol` and `delCol` runs through (none of them throws) and ends in a
state whose active grid has again at least one row, at least one column and rows of equal
length. -/
theorem rectangularity_invariant (serialize : Workbook → String) (ops : List GridOp) :
    ∀ (a : App) (g : Grid), a.activeGrid = some g → GridOK g →
      ∃ a' g', runGridOps serialize ops a = some a' ∧ a'.activeGrid = some g' ∧ GridOK g' := by
  induction ops with
  | nil => intro a g hg hok; exact ⟨a, g, rfl, hg, hok⟩
  | cons op ops ih =>
    intro a g hg hok
    obtain ⟨a1, g1, hrun, hg1, hok1⟩ := gridOp_run_ok serialize op a g hg hok
    obtain ⟨a', g', hrun', hg', hok'⟩ := ih a1 g1 hg1 hok1
    exact ⟨a', g', by simp only [runGridOps, hrun, hrun'], hg', hok'⟩

theorem gridOK_newGrid_2_2 : GridOK (newGrid 2 2) := by
  unfold GridOK Rect
  decide

theorem renameSheets_length (idx : Int) (name : String) :
    ∀ (shs : List Sheet) (i : Nat), (renameSheets idx name i shs).length = shs.length := by
  intro shs
  induction shs with
  | nil => intro i; rfl
  | cons sh rest ih => intro i; simp [renameSheets, ih]

theorem eraseIdx_length_ge {α : Type} (arr : List α) (k : Nat) (h : 2 ≤ arr.length) :
    1 ≤ (arr.eraseIdx k).length := by
  rw [List.length_eraseIdx]
  split <;> omega

theorem splice1_length {α : Type} (idx : Int) (arr : List α) (h : 2 ≤ arr.length) :
    1 ≤ (splice1 idx arr).length :=
  eraseIdx_length_ge arr _ h

theorem newSheet_ok (a : App) (h : WorkbookOK a.sheets) : WorkbookOK (newSheet a).sheets := by
  obtain ⟨h1, h2, h3⟩ := h
  refine ⟨?_, ?_, ?_⟩ <;> simp [newSheet]

theorem renameSheet_ok (idx : Int) (name : String) (a : App) (h : WorkbookOK a.sheets) :
    WorkbookOK (renameSheet idx name a).sheets := by
  obtain ⟨h1, h2, h3⟩ := h
  refine ⟨?_, ?_, ?_⟩ <;> simp [renameSheet, renameSheets_length] <;> assumption

theorem deleteSheet_ok (serialize : Workbook → String) (idx : Int) (a : App)
    (h : WorkbookOK a.sheets) : WorkbookOK (deleteSheet serialize idx a).sheets := by
  unfold deleteSheet
  by_cases hlen : a.sheets.sheets.length ≤ 1
  · rw [if_pos hlen]; exact h
  · rw [if_neg hlen]
    have hs := splice1_length idx a.sheets.sheets (by omega)
    have hs' : (1 : Int) ≤ ((splice1 idx a.sheets.sheets).length : Int) := by exact_mod_cast hs
    unfold WorkbookOK
    dsimp only
    refine ⟨hs, le_max_left _ _, ?_⟩
    omega

theorem setActiveSheet_ok (i : Nat) (a : App) (hi : i < a.sheets.sheets.length) :
    WorkbookOK (setActiveSheet i a).sheets := by
  refine ⟨?_, ?_, ?_⟩
  · show 1 ≤ a.sheets.sheets.length
    omega
  · show (0 : Int) ≤ (i : Int)
    omega
  · show (i : Int) < (a.sheets.sheets.length : Int)
    omega

theorem sheetOp_run_ok (serialize : Workbook → String) (op : SheetOp) (a : App)
    (h : WorkbookOK a.sheets) (hen : op.Enabled a) : WorkbookOK (op.run serialize a).sheets := by
  cases op with
  | new => exact newSheet_ok a h
  | rename idx name => exact renameSheet_ok idx name a h
  | delete idx => exact deleteSheet_ok serialize idx a h
  | setActive i => exact setActiveSheet_ok i a hen

theorem sheetRun_ok (serialize : Workbook → String) (a : App) (ops : List SheetOp) (b : App)
    (hrun : SheetRun serialize a ops b) : WorkbookOK a.sheets → WorkbookOK b.sheets := by
  induction hrun with
  | nil a => exact id
  | cons a b op ops hen _ ih => exact fun h => ih (sheetOp_run_ok serialize op a h hen)

/-- C5: the workbook invariant (at least one sheet, `0 ≤ activeIndex < sheets.length`) is
preserved by every finite sequence of `newSheet`, `renameSheet(idx, name)`, `deleteSheet(idx)`
for any integer `idx`, and clicks on existing tabs; and `deleteSheet` on a workbook with
exactly one sheet returns the state unchanged. -/
theorem workbook_invariant (serialize : Workbook → String) :
    (∀ (a : App) (ops : List SheetOp) (b : App),
      WorkbookOK a.sheets → SheetRun serialize a ops b → WorkbookOK b.sheets) ∧
    (∀ (idx : Int) (a : App), a.sheets.sheets.length = 1 → deleteSheet serialize idx a = a) := by
  refine ⟨fun a ops b h hrun => sheetRun_ok serialize a ops b hrun h, ?_⟩
  intro idx a hlen
  unfold deleteSheet
  rw [if_pos (by omega)]

/-- C4 (witness): the invariant theorem applied to the 2 x 2 grid and a run that hits both
refusals (`delRow` on one row, `delCol` on one column) before growing the grid again. -/
theorem rectangularity_invariant_witness :
    demoApp.activeGrid = some (newGrid 2 2) ∧ GridOK (newGrid 2 2) ∧
    ∃ a' g', runGridOps (fun _ => "")
        [GridOp.delRow, GridOp.delRow, GridOp.delCol, GridOp.delCol, GridOp.addRow, GridOp.addCol]
        demoApp = some a' ∧ a'.activeGrid = some g' ∧ GridOK g' :=
  ⟨rfl, gridOK_newGrid_2_2,
    rectangularity_invariant (fun _ => "") _ demoApp (newGrid 2 2) rfl gridOK_newGrid_2_2⟩

/-- C5 (witness): the invariant theorem applied to a run on the one-sheet state (new sheet,
click on tab 0, `deleteSheet(-5)`), and `deleteSheet(0)` on the one-sheet state. -/
theorem workbook_invariant_witness :
    WorkbookOK demoApp.sheets ∧
    WorkbookOK (deleteSheet (fun _ => "") (-5) (setActiveSheet 0 (newSheet demoApp))).sheets ∧
    deleteSheet (fun _ => "") 0 demoApp = demoApp := by
  have hok : WorkbookOK demoApp.sheets := by
    unfold WorkbookOK; decide
  refine ⟨hok, ?_, (workbook_invariant (fun _ => "")).2 0 demoApp rfl⟩
  refine (workbook_invariant (fun _ => "")).1 demoApp
    [SheetOp.new, SheetOp.setActive 0, SheetOp.delete (-5)] _ hok ?_
  refine SheetRun.cons _ _ _ _ trivial (SheetRun.cons _ _ _ _ ?_ (SheetRun.cons _ _ _ _ trivial
    (SheetRun.nil _)))
  show 0 < (newSheet demoApp).sheets.sheets.length
  decide

/-! ### Lemmas on the validation gate and the cell edit -/

theorem startsWithEq_iff (val : String) : startsWithEq val = true ↔ val.data.head? = some '=' := by
  unfold startsWithEq
  cases val.data with
  | nil => simp
  | cons ch t => simp

theorem cellAt_eq_some (g : Grid) (r c : Nat) (cell : Cell) :
    cellAt g r c = some cell ↔ ∃ row, g[r]? = some row ∧ row[c]? = some cell := by
  unfold cellAt
  cases g[r]? with
  | none => simp
  | some row => simp

theorem setInputFn_eq (g : Grid) (r c : Nat) (val : String) (row : List Cell) (cell : Cell)
    (hrow : g[r]? = some row) (hcell : row[c]? = some cell) :
    setInputFn r c val g = some (g.set r (row.set c { cell with input := val })) := by
  simp only [setInputFn, hrow, hcell]

theorem cellAt_set_set (g : Grid) (r c : Nat) (row : List Cell) (cell x : Cell)
    (hrow : g[r]? = some row) (hcell : row[c]? = some cell) :
    cellAt (g.set r (row.set c x)) r c = some x := by
  have hr : r < g.length := (List.getElem?_eq_some_iff.mp hrow).1
  have hc : c < row.length := (List.getElem?_eq_some_iff.mp hcell).1
  simp [cellAt, List.getElem?_set_self, hr, hc]

/-- C6: the gate of `commitEdit` is the specification's `isAcceptable`: without a rule every
value is accepted; under a rule of type `list` a value is accepted if and only if it begins
with `=` or is a member of the rule's allowed values, and is rejected otherwise. -/
theorem commitGate_isAcceptable :
    (∀ val : String, commitRejected none val = false ∧ isAcceptable val none) ∧
    (∀ (rule : Rule) (val : String), rule.type = "list" →
      (commitRejected (some rule) val = false ↔ isAcceptable val (some (rule.values.getD []))) ∧
      (commitRejected (some rule) val = true ↔
        ¬ isAcceptable val (some (rule.values.getD [])))) := by
  refine ⟨fun val => ⟨rfl, trivial⟩, ?_⟩
  intro rule val htype
  have key : commitRejected (some rule) val = false ↔
      isAcceptable val (some (rule.values.getD [])) := by
    unfold commitRejected isAcceptable
    rw [← startsWithEq_iff]
    simp only [htype, beq_self_eq_true, Bool.true_and, Bool.and_eq_false_imp,
      Bool.not_eq_true', Bool.not_eq_false', decide_eq_false_iff_not,
      List.elem_eq_mem]
    constructor
    · intro h
      by_cases hm : val ∈ rule.values.getD []
      · exact Or.inr hm
      · exact Or.inl (h (by simpa using hm))
    · rintro (h | h) hm
      · exact h
      · simp [h] at hm
  refine ⟨key, ?_⟩
  rw [← key]
  cases commitRejected (some rule) val <;> simp

/-- C7: a rejected commit is atomic and an accepted one writes the input.  For a selected cell
that carries a list rule: a value that is neither among the allowed values nor begins with `=`
leaves the state as it was apart from ending the edit, so the workbook and the stored snapshot
are unchanged and the cell keeps its input; any other value is written into the input of the
selected cell.  The rule `["High", "Medium", "Low"]` accepts `"High"` and `"=A1"` and rejects
`"Critical"`. -/
theorem commitEdit_atomic (serialize : Workbook → String) (a : App) (g : Grid) (cell : Cell)
    (rule : Rule) (hg : a.activeGrid = some g) (hcell : cellAt g a.selR a.selC = some cell)
    (hrule : cell.validation = some rule) (htype : rule.type = "list") :
    ((a.editVal ∉ rule.values.getD [] ∧ startsWithEq a.editVal = false) →
      commitEdit serialize a = some { a with isEditing := false } ∧
      ∀ a', commitEdit serialize a = some a' →
        a'.sheets = a.sheets ∧ a'.storage = a.storage ∧
        (a'.activeGrid.bind fun g' => cellAt g' a.selR a.selC) = some cell) ∧
    ((a.editVal ∈ rule.values.getD [] ∨ startsWithEq a.editVal = true) →
      ∃ a' g' cell', commitEdit serialize a = some a' ∧ a'.activeGrid = some g' ∧
        cellAt g' a.selR a.selC = some cell' ∧ cell'.input = a.editVal) ∧
    (commitRejected (some ⟨"list", some ["High", "Medium", "Low"]⟩) "High" = false ∧
      commitRejected (some ⟨"list", some ["High", "Medium", "Low"]⟩) "=A1" = false ∧
      commitRejected (some ⟨"list", some ["High", "Medium", "Low"]⟩) "Critical" = true) := by
  have hsel : (a.activeGrid.bind fun g => cellAt g a.selR a.selC) = some cell := by
    rw [hg]; exact hcell
  refine ⟨?_, ?_, by decide⟩
  · rintro ⟨hmem, hst⟩
    have hrej : commitRejected cell.validation a.editVal = true := by
      rw [hrule]
      simp [commitRejected, htype, hmem, hst]
    have hce : commitEdit serialize a = some { a with isEditing := false } := by
      simp only [commitEdit, hsel, hrej, if_true]
    refine ⟨hce, ?_⟩
    intro a' ha'
    rw [hce] at ha'
    cases ha'
    exact ⟨rfl, rfl, hsel⟩
  · intro hacc
    have hrej : ¬ (commitRejected cell.validation a.editVal = true) := by
      rw [hrule]
      rcases hacc with h | h <;> simp [commitRejected, htype, h]
    obtain ⟨row, hrow, hc⟩ := (cellAt_eq_some g a.selR a.selC cell).mp hcell
    have hfn := setInputFn_eq g a.selR a.selC a.editVal row cell hrow hc
    obtain ⟨a1, ha1, hg1, _, _⟩ := mutateActiveGrid_activeGrid serialize _ a g _ hg hfn
    refine ⟨{ a1 with isEditing := false }, _, { cell with input := a.editVal }, ?_, hg1,
      cellAt_set_set g a.selR a.selC row cell _ hrow hc, rfl⟩
    simp only [commitEdit, hsel, if_neg hrej, ha1, Option.map_some']

/-- C7 (witness): the theorem at the one-cell state whose cell holds `"Low"` under the rule
`["High", "Medium", "Low"]`, committing `"Critical"`: the state only leaves edit mode. -/
theorem commitEdit_atomic_witness :
    commitEdit (fun _ => "snapshot") (priorityApp "Critical") =
      some { priorityApp "Critical" with isEditing := false } :=
  ((commitEdit_atomic (fun _ => "snapshot") (priorityApp "Critical") _ _
    ⟨"list", some ["High", "Medium", "Low"]⟩ rfl rfl rfl rfl).1 ⟨by decide, by decide⟩).1

/-! ### Lemmas on the CSV import -/

theorem writeRow_char : ∀ (fields : List String) (row row' : List Cell),
    writeRow fields row = some row' →
    row'.length = row.length ∧ fields.length ≤ row.length ∧
      ∀ c : Nat, row'[c]? = (row[c]?).map (stamp (fields[c]?)) := by
  intro fields
  induction fields with
  | nil =>
    intro row row' h
    simp only [writeRow, Option.some.injEq] at h
    subst h
    refine ⟨rfl, Nat.zero_le _, fun c => ?_⟩
    cases row[c]? <;> simp [stamp]
  | cons f fs ih =>
    intro row row' h
    cases row with
    | nil => simp [writeRow] at h
    | cons cell rest =>
      cases hrest : writeRow fs rest with
      | none => simp [writeRow, hrest] at h
      | some rest' =>
        simp only [writeRow, hrest, Option.some.injEq] at h
        subst h
        obtain ⟨h1, h2, h3⟩ := ih rest rest' hrest
        refine ⟨by simp [h1], by simp only [List.length_cons]; omega, fun c => ?_⟩
        cases c with
        | zero => simp [stamp]
        | succ c => simpa using h3 c

theorem writeRow_total : ∀ (fields : List String) (row : List Cell),
    fields.length ≤ row.length → ∃ row', writeRow fields row = some row' := by
  intro fields
  induction fields with
  | nil => intro row _; exact ⟨row, rfl⟩
  | cons f fs ih =>
    intro row h
    cases row with
    | nil => simp at h
    | cons cell rest =>
      obtain ⟨rest', hrest⟩ := ih rest (by simpa using h)
      exact ⟨{ cell with input := f } :: rest', by simp only [writeRow, hrest]⟩

theorem writeRows_nil_grid : ∀ (rows : List (List String)) (g' : Grid),
    writeRows rows [] = some g' → g' = [] ∧ ∀ r c, fieldAt rows r c = none := by
  intro rows
  induction rows with
  | nil =>
    intro g' h
    simp only [writeRows, Option.some.injEq] at h
    exact ⟨h.symm, fun r c => by simp [fieldAt]⟩
  | cons fields rows ih =>
    intro g' h
    by_cases hf : fields = []
    · simp only [writeRows, if_pos hf] at h
      obtain ⟨h1, h2⟩ := ih g' h
      refine ⟨h1, fun r c => ?_⟩
      cases r with
      | zero => simp [fieldAt, hf]
      | succ r => simpa [fieldAt] using h2 r c
    · simp [writeRows, if_neg hf] at h

theorem writeRows_char : ∀ (rows : List (List String)) (g g' : Grid),
    writeRows rows g = some g' →
    g'.length = g.length ∧
      (∀ r : Nat, (g'[r]?).map List.length = (g[r]?).map List.length) ∧
      (∀ r c : Nat, cellAt g' r c = (cellAt g r c).map (stamp (fieldAt rows r c))) ∧
      (∀ r c f, fieldAt rows r c = some f → (cellAt g r c).isSome = true) := by
  intro rows
  induction rows with
  | nil =>
    intro g g' h
    simp only [writeRows, Option.some.injEq] at h
    subst h
    refine ⟨rfl, fun _ => rfl, fun r c => ?_, fun r c f hf => by simp [fieldAt] at hf⟩
    have : fieldAt [] r c = none := by simp [fieldAt]
    rw [this]
    cases cellAt g r c <;> simp [stamp]
  | cons fields rows ih =>
    intro g g' h
    cases g with
    | nil =>
      obtain ⟨h1, h2⟩ := writeRows_nil_grid (fields :: rows) g' h
      subst h1
      refine ⟨rfl, fun _ => rfl, fun r c => by simp [cellAt], fun r c f hf => ?_⟩
      rw [h2 r c] at hf; cases hf
    | cons row g0 =>
      cases hrow : writeRow fields row with
      | none => simp [writeRows, hrow] at h
      | some row' =>
        cases hrest : writeRows rows g0 with
        | none => simp [writeRows, hrow, hrest] at h
        | some g1 =>
          simp only [writeRows, hrow, hrest, Option.some.injEq] at h
          subst h
          obtain ⟨q1, q2, q3⟩ := writeRow_char fields row row' hrow
          obtain ⟨p1, p2, p3, p4⟩ := ih g0 g1 hrest
          refine ⟨by simp [p1], fun r => ?_, fun r c => ?_, fun r c f hf => ?_⟩
          · cases r with
            | zero => simp [q1]
            | succ r => simpa using p2 r
          · cases r with
            | zero => simpa [cellAt, fieldAt] using q3 c
            | succ r => simpa [cellAt, fieldAt] using p3 r c
          · cases r with
            | zero =>
              have hc : c < fields.length := by
                simp only [fieldAt, List.getElem?_cons_zero, Option.some_bind] at hf
                exact (List.getElem?_eq_some_iff.mp hf).1
              have hc' : c < row.length := by omega
              simp [cellAt, List.getElem?_eq_getElem hc']
            | succ r =>
              have := p4 r c f (by simpa [fieldAt] using hf)
              simpa [cellAt] using this

theorem writeRows_total : ∀ (rows : List (List String)) (g : Grid),
    rows.length ≤ g.length → (∀ fields ∈ rows, ∀ row ∈ g, fields.length ≤ row.length) →
    ∃ g', writeRows rows g = some g' := by
  intro rows
  induction rows with
  | nil => intro g _ _; exact ⟨g, rfl⟩
  | cons fields rows ih =>
    intro g hlen hall
    cases g with
    | nil => simp at hlen
    | cons row g0 =>
      obtain ⟨row', hrow⟩ := writeRow_total fields row
        (hall fields (List.mem_cons_self _ _) row (List.mem_cons_self _ _))
      obtain ⟨g1, hrest⟩ := ih g0 (by simpa using hlen)
        (fun fs hfs r hr => hall fs (List.mem_cons_of_mem _ hfs) r (List.mem_cons_of_mem _ hr))
      exact ⟨row' :: g1, by simp only [writeRows, hrow, hrest]⟩

theorem le_foldl_max (l : List Nat) : ∀ init : Nat,
    init ≤ l.foldl max init ∧ ∀ x ∈ l, x ≤ l.foldl max init := by
  induction l with
  | nil => intro init; simp
  | cons y t ih =>
    intro init
    obtain ⟨h1, h2⟩ := ih (max init y)
    refine ⟨le_trans (le_max_left _ _) h1, ?_⟩
    intro x hx
    rcases List.mem_cons.mp hx with rfl | hx
    · exact le_trans (le_max_right _ _) h1
    · exact h2 x hx

theorem length_le_maxWidth (rows : List (List String)) (fields : List String)
    (h : fields ∈ rows) : fields.length ≤ maxWidth rows :=
  (le_foldl_max (rows.map List.length) 0).2 _ (List.mem_map_of_mem _ h)

theorem replicate_getElem? (w : Nat) (c : Nat) :
    (List.replicate w defaultCell)[c]? = if c < w then some defaultCell else none := by
  by_cases h : c < w
  · simp [h, List.getElem?_replicate]
  · simp [h, List.getElem?_replicate]

theorem padRow_getElem? (colsN : Nat) (row : List Cell) (c : Nat) :
    (padRow colsN row)[c]? =
      if c < row.length then row[c]? else if c < colsN then some defaultCell else none := by
  unfold padRow
  by_cases h : c < row.length
  · rw [if_pos h, List.getElem?_append_left h]
  · rw [if_neg h, List.getElem?_append_right (by omega), replicate_getElem?]
    by_cases h2 : c < colsN
    · rw [if_pos h2, if_pos (by omega)]
    · rw [if_neg h2, if_neg (by omega)]

theorem padRow_length (colsN : Nat) (row : List Cell) :
    (padRow colsN row).length = max colsN row.length := by
  unfold padRow
  simp only [List.length_append, List.length_replicate]
  omega

theorem growRows_length (rowsN width : Nat) (g : Grid) :
    (growRows rowsN width g).length = max rowsN g.length := by
  unfold growRows
  simp only [List.length_append, List.length_replicate]
  omega

theorem growRows_getElem? (rowsN width : Nat) (g : Grid) (r : Nat) :
    (growRows rowsN width g)[r]? =
      if r < g.length then g[r]?
      else if r < rowsN then some (List.replicate width defaultCell) else none := by
  unfold growRows
  by_cases h : r < g.length
  · rw [if_pos h, List.getElem?_append_left h]
  · rw [if_neg h, List.getElem?_append_right (by omega)]
    by_cases h2 : r < rowsN
    · rw [if_pos h2, List.getElem?_replicate, if_pos (by omega)]
    · rw [if_neg h2, List.getElem?_replicate, if_neg (by omega)]

theorem growCols_length (colsN width : Nat) (g : Grid) :
    (growCols colsN width g).length = g.length := by
  unfold growCols
  split <;> simp

theorem growCols_getElem? (colsN width : Nat) (g : Grid) (r : Nat) :
    (growCols colsN width g)[r]? =
      (g[r]?).map (fun row => if width < colsN then padRow colsN row else row) := by
  unfold growCols
  by_cases h : width < colsN
  · simp only [if_pos h, List.getElem?_map]
  · simp only [if_neg h]
    cases g[r]? <;> rfl

/-- A cell of the grown grid is the cell the grid had at that position, or a default cell
at a position the grid did not have. -/
theorem cellAt_grow (rowsN colsN width width' : Nat) (g : Grid) (r c : Nat) :
    (∀ cell, cellAt g r c = some cell →
      cellAt (growCols colsN width (growRows rowsN width' g)) r c = some cell) ∧
    (∀ x, cellAt (growCols colsN width (growRows rowsN width' g)) r c = some x →
      cellAt g r c = some x ∨ (cellAt g r c = none ∧ x = defaultCell)) := by
  unfold cellAt
  rw [growCols_getElem?, growRows_getElem?]
  by_cases hr : r < g.length
  · rw [if_pos hr, List.getElem?_eq_getElem hr]
    simp only [Option.map_some', Option.some_bind]
    by_cases hw : width < colsN
    · simp only [if_pos hw, padRow_getElem?]
      by_cases hc : c < g[r].length
      · simp only [if_pos hc]
        exact ⟨fun cell h => h, fun x h => Or.inl h⟩
      · simp only [if_neg hc]
        have hnone : g[r][c]? = none := List.getElem?_eq_none (by omega)
        refine ⟨fun cell h => (by rw [hnone] at h; cases h), fun x h => Or.inr ⟨hnone, ?_⟩⟩
        by_cases h2 : c < colsN
        · rw [if_pos h2] at h; cases h; rfl
        · rw [if_neg h2] at h; cases h
    · simp only [if_neg hw]
      exact ⟨fun cell h => h, fun x h => Or.inl h⟩
  · rw [if_neg hr, List.getElem?_eq_none (by omega)]
    simp only [Option.none_bind]
    refine ⟨fun cell h => (by cases h), fun x h => Or.inr ⟨trivial, ?_⟩⟩
    by_cases h2 : r < rowsN
    · simp only [if_pos h2, Option.map_some', Option.some_bind] at h
      by_cases hw : width < colsN
      · simp only [if_pos hw, padRow_getElem?, List.length_replicate, replicate_getElem?] at h
        by_cases h3 : c < width'
        · simp only [if_pos h3] at h; cases h; rfl
        · simp only [if_neg h3] at h
          by_cases h4 : c < colsN
          · simp only [if_pos h4] at h; cases h; rfl
          · simp only [if_neg h4] at h; cases h
      · simp only [if_neg hw, replicate_getElem?] at h
        by_cases h3 : c < width'
        · simp only [if_pos h3] at h; cases h; rfl
        · simp only [if_neg h3] at h; cases h
    · simp only [if_neg h2, Option.map_none', Option.none_bind] at h
      cases h

/-- On a grid whose rows all have length `n`, every row of the grown grid has length
`max colsN n`, provided `colsN` is not below `n`. -/
theorem grow_row_length (rowsN colsN n : Nat) (g : Grid) (hcols : ∀ row ∈ g, row.length = n)
    (hn : n ≤ colsN) :
    ∀ row ∈ growCols colsN n (growRows rowsN n g), row.length = colsN := by
  have h1 : ∀ row ∈ growRows rowsN n g, row.length = n := by
    intro row hrow
    unfold growRows at hrow
    rcases List.mem_append.mp hrow with h | h
    · exact hcols row h
    · rw [(List.mem_replicate.mp h).2, List.length_replicate]
  intro row hrow
  unfold growCols at hrow
  by_cases hw : n < colsN
  · rw [if_pos hw] at hrow
    obtain ⟨row1, hrow1, rfl⟩ := List.mem_map.mp hrow
    rw [padRow_length, h1 row1 hrow1]
    omega
  · rw [if_neg hw] at hrow
    rw [h1 row hrow]
    omega

theorem mutateSheets_throw (fn : Grid → Option Grid) (act : Int) :
    ∀ (shs : List Sheet) (i k : Nat) (sh : Sheet),
      act = ((i + k : Nat) : Int) → shs[k]? = some sh → fn sh.grid = none →
      mutateSheets fn act i shs = none := by
  intro shs
  induction shs with
  | nil => intro i k sh _ hk _; simp at hk
  | cons sh0 rest ih =>
    intro i k sh hact hk hfn
    cases k with
    | zero =>
      simp only [List.getElem?_cons_zero, Option.some.injEq] at hk
      subst hk
      have heq : ¬ ((i : Int) ≠ act) := by
        simp only [Nat.add_zero] at hact
        omega
      simp only [mutateSheets, if_neg heq, hfn]
    | succ k =>
      simp only [List.getElem?_cons_succ] at hk
      have hne : (i : Int) ≠ act := by push_cast at hact; omega
      have hrest := ih (i + 1) k sh (by push_cast at hact ⊢; omega) hk hfn
      simp only [mutateSheets, if_pos hne, hrest, Option.map_none']

theorem mutateActiveGrid_inv (serialize : Workbook → String) (fn : Grid → Option Grid)
    (a a' : App) (g : Grid) (hg : a.activeGrid = some g)
    (h : mutateActiveGrid serialize fn a = some a') :
    ∃ g', fn g = some g' ∧ a'.activeGrid = some g' := by
  cases hfn : fn g with
  | none =>
    obtain ⟨k, sh, hk, hsh, rfl⟩ := (activeGrid_eq_some a _).mp hg
    have := mutateSheets_throw fn a.sheets.activeIndex a.sheets.sheets 0 k sh
      (by simpa using hk) hsh hfn
    simp [mutateActiveGrid, this] at h
  | some g' =>
    obtain ⟨a1, ha1, hg1, _, _⟩ := mutateActiveGrid_activeGrid serialize fn a g g' hg hfn
    rw [ha1] at h
    cases h
    exact ⟨g', rfl, hg1⟩

theorem importFn_char (rows : List (List String)) (g g' : Grid)
    (h : importFn rows g = some g') :
    g'.length = max rows.length g.length ∧
    (∀ r c cell, cellAt g r c = some cell →
      cellAt g' r c = some (stamp (fieldAt rows r c) cell)) ∧
    (∀ r c f, fieldAt rows r c = some f →
      ∃ cell', cellAt g' r c = some cell' ∧ cell'.input = f) ∧
    (∀ r c x, cellAt g' r c = some x → cellAt g r c = none → fieldAt rows r c = none →
      x = defaultCell) := by
  cases g with
  | nil => simp [importFn] at h
  | cons row0 rest =>
    simp only [importFn] at h
    obtain ⟨p1, _, p3, p4⟩ := writeRows_char rows _ g' h
    refine ⟨?_, ?_, ?_, ?_⟩
    · rw [p1, growCols_length, growRows_length]
      omega
    · intro r c cell hcell
      rw [p3 r c, (cellAt_grow _ _ _ _ _ r c).1 cell hcell]
      rfl
    · intro r c f hf
      have hsome := p4 r c f hf
      cases hx : cellAt (growCols (max (maxWidth rows) row0.length) row0.length
          (growRows (max rows.length (row0 :: rest).length) row0.length (row0 :: rest))) r c with
      | none => rw [hx] at hsome; cases hsome
      | some y =>
        refine ⟨{ y with input := f }, ?_, rfl⟩
        rw [p3 r c, hx, hf]
        rfl
    · intro r c x hx hnone hfield
      rw [p3 r c, hfield] at hx
      cases hy : cellAt (growCols (max (maxWidth rows) row0.length) row0.length
          (growRows (max rows.length (row0 :: rest).length) row0.length (row0 :: rest))) r c with
      | none => rw [hy] at hx; cases hx
      | some y =>
        rw [hy] at hx
        simp only [Option.map_some', stamp, Option.some.injEq] at hx
        rcases (cellAt_grow _ _ _ _ _ r c).2 y hy with h1 | ⟨_, h2⟩
        · rw [hnone] at h1; cases h1
        · rw [← hx, h2]

theorem importFn_rect (rows : List (List String)) (g : Grid) (n : Nat) (hne : g ≠ [])
    (hcols : ∀ row ∈ g, row.length = n) :
    ∃ g', importFn rows g = some g' ∧ ∀ row ∈ g', row.length = max (maxWidth rows) n := by
  cases g with
  | nil => exact absurd rfl hne
  | cons row0 rest =>
    have h0 : row0.length = n := hcols row0 (List.mem_cons_self _ _)
    have hlen := grow_row_length (max rows.length (row0 :: rest).length)
      (max (maxWidth rows) n) n (row0 :: rest) hcols (Nat.le_max_right _ _)
    obtain ⟨g', hg'⟩ := writeRows_total rows
      (growCols (max (maxWidth rows) n) n
        (growRows (max rows.length (row0 :: rest).length) n (row0 :: rest)))
      (by rw [growCols_length, growRows_length]; omega)
      (fun fields hf row hrow => by
        rw [hlen row hrow]
        exact le_trans (length_le_maxWidth rows fields hf) (Nat.le_max_left _ _))
    refine ⟨g', by simp only [importFn, h0]; exact hg', ?_⟩
    obtain ⟨_, p2, _, _⟩ := writeRows_char rows _ g' hg'
    intro row hrow
    obtain ⟨r, hr⟩ := List.mem_iff_getElem?.mp hrow
    have := p2 r
    rw [hr] at this
    simp only [Option.map_some'] at this
    cases hrow2 : (growCols (max (maxWidth rows) n) n
        (growRows (max rows.length (row0 :: rest).length) n (row0 :: rest)))[r]? with
    | none => rw [hrow2] at this; cases this
    | some row2 =>
      rw [hrow2] at this
      simp only [Option.map_some', Option.some.injEq] at this
      rw [this]
      exact hlen row2 (List.getElem?_mem hrow2)

/-- C9: CSV import expands and never shrinks the destination grid.  For every CSV text and
every state whose active grid has at least one row and rows of one length `n`, `importCSV`
succeeds; the new active grid has `max(number of parsed rows, g.length)` rows, each of length
`max(length of the widest parsed row, n)`, and every cell at a position that the grid did not
have and that no parsed field covers is the default cell. -/
theorem importCSV_expands (serialize : Workbook → String) (text : String) (a : App) (g : Grid)
    (n : Nat) (hg : a.activeGrid = some g) (hrows : 1 ≤ g.length)
    (hcols : ∀ row ∈ g, row.length = n) :
    ∃ a' g', importCSV serialize text a = some a' ∧ a'.activeGrid = some g' ∧
      g'.length = max (parseCSV text).length g.length ∧
      (∀ row ∈ g', row.length = max (maxWidth (parseCSV text)) n) ∧
      (∀ r c cell', cellAt g' r c = some cell' → cellAt g r c = none →
        fieldAt (parseCSV text) r c = none → cell' = defaultCell) := by
  have hne : g ≠ [] := by
    intro h0; rw [h0] at hrows; simp at hrows
  obtain ⟨g', hfn, hlen⟩ := importFn_rect (parseCSV text) g n hne hcols
  obtain ⟨a', ha', hg', _, _⟩ := mutateActiveGrid_activeGrid serialize _ a g g' hg hfn
  obtain ⟨c1, _, _, c4⟩ := importFn_char (parseCSV text) g g' hfn
  exact ⟨a', g', ha', hg', c1, hlen, c4⟩

/-- C10: CSV import writes only inputs and only inside the imported range.  Whenever
`importCSV` returns, every cell the active grid had is still there with its `value`, `fmt`
and `validation` unchanged, and with its `input` unchanged when no parsed field covers its
position; and every position covered by a parsed field holds a cell whose input is that
field.  And `importCSV` does return on every grid of the data model (at least one row, rows
of equal length). -/
theorem importCSV_frame (serialize : Workbook → String) (text : String) (a : App) (g : Grid)
    (hg : a.activeGrid = some g) :
    (∀ a', importCSV serialize text a = some a' →
      ∃ g', a'.activeGrid = some g' ∧
        (∀ r c cell, cellAt g r c = some cell →
          ∃ cell', cellAt g' r c = some cell' ∧ cell'.value = cell.value ∧
            cell'.fmt = cell.fmt ∧ cell'.validation = cell.validation ∧
            (fieldAt (parseCSV text) r c = none → cell'.input = cell.input)) ∧
        (∀ r c f, fieldAt (parseCSV text) r c = some f →
          ∃ cell', cellAt g' r c = some cell' ∧ cell'.input = f)) ∧
    (g ≠ [] → Rect g → ∃ a', importCSV serialize text a = some a') := by
  constructor
  · intro a' ha'
    obtain ⟨g', hfn, hg'⟩ := mutateActiveGrid_inv serialize _ a a' g hg ha'
    obtain ⟨_, c2, c3, _⟩ := importFn_char (parseCSV text) g g' hfn
    refine ⟨g', hg', ?_, c3⟩
    intro r c cell hcell
    refine ⟨_, c2 r c cell hcell, ?_⟩
    cases hf : fieldAt (parseCSV text) r c with
    | none => exact ⟨rfl, rfl, rfl, fun _ => rfl⟩
    | some f => exact ⟨rfl, rfl, rfl, fun h => by cases h⟩
  · intro hne hrect
    cases g with
    | nil => exact absurd rfl hne
    | cons row0 rest =>
      obtain ⟨g', hfn, _⟩ := importFn_rect (parseCSV text) (row0 :: rest) row0.length hne
        (fun row hrow => hrect row hrow row0 (List.mem_cons_self _ _))
      obtain ⟨a', ha', _⟩ := mutateActiveGrid_activeGrid serialize _ a _ g' hg hfn
      exact ⟨a', ha'⟩

/-- C9 (witness): the theorem at the 2 x 2 state and a text with a row of three fields and a
third line. -/
theorem importCSV_expands_witness :
    demoApp.activeGrid = some (newGrid 2 2) ∧
    ∃ a' g', importCSV (fun _ => "") "a,b,c\n1\n2" demoApp = some a' ∧
      a'.activeGrid = some g' ∧
      g'.length = max (parseCSV "a,b,c\n1\n2").length (newGrid 2 2).length ∧
      (∀ row ∈ g', row.length = max (maxWidth (parseCSV "a,b,c\n1\n2")) 2) ∧
      (∀ r c cell', cellAt g' r c = some cell' → cellAt (newGrid 2 2) r c = none →
        fieldAt (parseCSV "a,b,c\n1\n2") r c = none → cell' = defaultCell) :=
  ⟨rfl, importCSV_expands (fun _ => "") "a,b,c\n1\n2" demoApp (newGrid 2 2) 2 rfl (by decide)
    (by decide)⟩

/-- C10 (witness): the theorem at the 2 x 2 state: the import returns. -/
theorem importCSV_frame_witness :
    demoApp.activeGrid = some (newGrid 2 2) ∧
    ∃ a', importCSV (fun _ => "") "a,b,c\n1\n2" demoApp = some a' :=
  ⟨rfl, (importCSV_frame (fun _ => "") "a,b,c\n1\n2" demoApp (newGrid 2 2) rfl).2 (by decide)
    (by unfold Rect; decide)⟩

/-! ### Lemmas on the CSV export and the line tokenizer -/

theorem mem_escapeQuotes (ch : Char) : ∀ s : List Char, ch ∈ escapeQuotes s → ch = '"' ∨ ch ∈ s := by
  intro s
  induction s with
  | nil => intro h; simp [escapeQuotes] at h
  | cons x t ih =>
    intro h
    by_cases hx : x = '"'
    · simp only [escapeQuotes, if_pos hx, List.mem_cons] at h
      rcases h with h | h | h
      · exact Or.inl h
      · exact Or.inl h
      · rcases ih h with h' | h'
        · exact Or.inl h'
        · exact Or.inr (List.mem_cons_of_mem _ h')
    · simp only [escapeQuotes, if_neg hx, List.mem_cons] at h
      rcases h with h | h
      · exact Or.inr (by rw [h]; exact List.mem_cons_self _ _)
      · rcases ih h with h' | h'
        · exact Or.inl h'
        · exact Or.inr (List.mem_cons_of_mem _ h')

theorem mem_joinSep (sep ch : Char) : ∀ ls : List (List Char),
    ch ∈ joinSep sep ls → ch = sep ∨ ∃ l ∈ ls, ch ∈ l := by
  intro ls
  induction ls with
  | nil => intro h; simp [joinSep] at h
  | cons x t ih =>
    intro h
    cases t with
    | nil =>
      simp only [joinSep] at h
      exact Or.inr ⟨x, List.mem_cons_self _ _, h⟩
    | cons y rest =>
      simp only [joinSep, List.mem_append, List.mem_cons] at h
      rcases h with h | h | h
      · exact Or.inr ⟨x, List.mem_cons_self _ _, h⟩
      · exact Or.inl h
      · rcases ih h with h' | ⟨l, hl, hch⟩
        · exact Or.inl h'
        · exact Or.inr ⟨l, List.mem_cons_of_mem _ hl, hch⟩

theorem mem_exportLine (ch : Char) (row : List Cell) (h : ch ∈ exportLine row) :
    ch = ',' ∨ ch = '"' ∨ ∃ cell ∈ row, ch ∈ cell.input.data := by
  rcases mem_joinSep ',' ch _ h with h | ⟨l, hl, hch⟩
  · exact Or.inl h
  · obtain ⟨cell, hcell, rfl⟩ := List.mem_map.mp hl
    simp only [quoteField, List.mem_cons, List.mem_append, List.mem_singleton,
      List.not_mem_nil, or_false] at hch
    rcases hch with h | h | h
    · exact Or.inr (Or.inl h)
    · rcases mem_escapeQuotes ch _ h with h' | h'
      · exact Or.inr (Or.inl h')
      · exact Or.inr (Or.inr ⟨cell, hcell, h'⟩)
    · exact Or.inr (Or.inl h)

theorem replaceCRLF_id : ∀ s : List Char, '\r' ∉ s → replaceCRLF s = s := by
  intro s
  induction s with
  | nil => intro _; rfl
  | cons ch t ih =>
    intro h
    have hch : ch ≠ '\r' := fun e => h (by rw [e]; exact List.mem_cons_self _ _)
    have ht : '\r' ∉ t := fun e => h (List.mem_cons_of_mem _ e)
    cases t with
    | nil => rfl
    | cons d t' =>
      have hcond : ¬ (ch = '\r' ∧ d = '\n') := fun e => hch e.1
      simp only [replaceCRLF, if_neg hcond]
      rw [ih ht]

theorem replaceCR_id (s : List Char) (h : '\r' ∉ s) : replaceCR s = s := by
  unfold replaceCR
  induction s with
  | nil => rfl
  | cons ch t ih =>
    have hch : ch ≠ '\r' := fun e => h (by rw [e]; exact List.mem_cons_self _ _)
    have ht : '\r' ∉ t := fun e => h (List.mem_cons_of_mem _ e)
    simp only [List.map_cons, if_neg hch, ih ht]

theorem splitOn_append (sep : Char) : ∀ (l rest cur : List Char), sep ∉ l →
    splitOn sep (l ++ rest) cur = splitOn sep rest (cur ++ l) := by
  intro l
  induction l with
  | nil => intro rest cur _; simp
  | cons ch t ih =>
    intro rest cur h
    have hch : ch ≠ sep := fun e => h (by rw [e]; exact List.mem_cons_self _ _)
    have ht : sep ∉ t := fun e => h (List.mem_cons_of_mem _ e)
    have h1 := ih rest (cur ++ [ch]) ht
    simp only [List.append_assoc, List.singleton_append] at h1
    simpa [splitOn, hch] using h1

theorem splitOn_joinSep (sep : Char) : ∀ lines : List (List Char), lines ≠ [] →
    (∀ l ∈ lines, sep ∉ l) → splitOn sep (joinSep sep lines) [] = lines := by
  intro lines
  induction lines with
  | nil => intro h; exact absurd rfl h
  | cons x t ih =>
    intro _ hall
    have hx : sep ∉ x := hall x (List.mem_cons_self _ _)
    cases t with
    | nil =>
      have := splitOn_append sep x [] [] hx
      simp only [List.append_nil, List.nil_append] at this
      simp only [joinSep, this, splitOn]
    | cons y rest =>
      have h1 := splitOn_append sep x (sep :: joinSep sep (y :: rest)) [] hx
      simp only [List.nil_append] at h1
      simp only [joinSep, h1, splitOn, if_true]
      rw [ih (by simp) (fun l hl => hall l (List.mem_cons_of_mem _ hl))]

theorem tokenize_nil (cur : List Char) (inQ : Bool) (out : List String) :
    tokenize [] cur inQ out = out ++ [⟨cur⟩] := by
  rw [tokenize.eq_def]

theorem tokenize_cons (ch : Char) (rest cur : List Char) (inQ : Bool) (out : List String) :
    tokenize (ch :: rest) cur inQ out =
      if ch = '"' then
        match rest with
        | [] => tokenize [] cur (!inQ) out
        | d :: rest' =>
          if inQ = true ∧ d = '"' then tokenize rest' (cur ++ ['"']) inQ out
          else tokenize (d :: rest') cur (!inQ) out
      else if ch = ',' ∧ inQ = false then tokenize rest [] inQ (out ++ [⟨cur⟩])
      else tokenize rest (cur ++ [ch]) inQ out := by
  rw [tokenize.eq_def]

theorem tokenize_other (ch : Char) (rest cur : List Char) (inQ : Bool) (out : List String)
    (h1 : ch ≠ '"') (h2 : ¬ (ch = ',' ∧ inQ = false)) :
    tokenize (ch :: rest) cur inQ out = tokenize rest (cur ++ [ch]) inQ out := by
  rw [tokenize_cons, if_neg h1, if_neg h2]

theorem tokenize_comma (rest cur : List Char) (out : List String) :
    tokenize (',' :: rest) cur false out = tokenize rest [] false (out ++ [⟨cur⟩]) := by
  rw [tokenize_cons, if_neg (by decide), if_pos ⟨rfl, rfl⟩]

theorem tokenize_quote_quote (rest cur : List Char) (out : List String) :
    tokenize ('"' :: '"' :: rest) cur true out = tokenize rest (cur ++ ['"']) true out := by
  rw [tokenize_cons, if_pos rfl]
  simp only [and_self, if_true]

theorem tokenize_open (L cur : List Char) (out : List String) :
    tokenize ('"' :: L) cur false out = tokenize L cur true out := by
  rw [tokenize_cons, if_pos rfl]
  cases L with
  | nil => simp only [Bool.not_false]
  | cons d t => simp only [Bool.false_eq_true, false_and, if_false, Bool.not_false]

theorem tokenize_close (rest cur : List Char) (out : List String)
    (hrest : rest = [] ∨ ∃ t, rest = ',' :: t) :
    tokenize ('"' :: rest) cur true out = tokenize rest cur false out := by
  rw [tokenize_cons, if_pos rfl]
  rcases hrest with rfl | ⟨t, rfl⟩
  · simp only [Bool.not_true]
  · simp only [show ¬ ((',' : Char) = '"') by decide, and_false, if_false, Bool.not_true]

theorem tokenize_escaped (rest : List Char) (hrest : rest = [] ∨ ∃ t, rest = ',' :: t) :
    ∀ (s cur : List Char) (out : List String),
      tokenize (escapeQuotes s ++ '"' :: rest) cur true out =
        tokenize rest (cur ++ s) false out := by
  intro s
  induction s with
  | nil =>
    intro cur out
    simp only [escapeQuotes, List.nil_append, List.append_nil]
    exact tokenize_close rest cur out hrest
  | cons ch t ih =>
    intro cur out
    have h1 := ih (cur ++ [ch]) out
    simp only [List.append_assoc, List.singleton_append] at h1
    by_cases hch : ch = '"'
    · subst hch
      simp only [escapeQuotes, if_true, List.cons_append]
      rw [tokenize_quote_quote]
      exact h1
    · simp only [escapeQuotes, if_neg hch, List.cons_append]
      rw [tokenize_other _ _ _ _ _ hch (by simp)]
      exact h1

theorem tokenize_quoteField (f : String) (rest : List Char) (out : List String)
    (hrest : rest = [] ∨ ∃ t, rest = ',' :: t) :
    tokenize (quoteField f ++ rest) [] false out = tokenize rest f.data false out := by
  unfold quoteField
  simp only [List.cons_append, List.append_assoc, List.singleton_append, List.nil_append]
  rw [tokenize_open, tokenize_escaped rest hrest]
  simp

theorem tokenize_exportLine : ∀ (row : List Cell) (out : List String), row ≠ [] →
    tokenize (exportLine row) [] false out = out ++ row.map Cell.input := by
  intro row
  induction row with
  | nil => intro out h; exact absurd rfl h
  | cons x t ih =>
    intro out _
    cases t with
    | nil =>
      have h := tokenize_quoteField x.input [] out (Or.inl rfl)
      simp only [List.append_nil] at h
      simp only [exportLine, List.map_cons, List.map_nil, joinSep, h, tokenize_nil]
    | cons y rest =>
      have h := tokenize_quoteField x.input
        (',' :: joinSep ',' ((y :: rest).map (fun c => quoteField c.input))) out
        (Or.inr ⟨_, rfl⟩)
      have ih' := ih (out ++ [x.input]) (by simp)
      unfold exportLine at ih'
      simp only [exportLine, List.map_cons, joinSep] at h ⊢
      simp only [List.map_cons] at ih'
      rw [h, tokenize_comma, ih']
      simp

theorem parseCSV_exportGrid (g : Grid) (hne : g ≠ []) (hrows : ∀ row ∈ g, row ≠ [])
    (hnl : NoLineBreaks g) :
    parseCSV (exportGrid g) = g.map (fun row => row.map Cell.input) := by
  have hline : ∀ ch : Char, ch = '\n' ∨ ch = '\r' → ∀ row ∈ g, ch ∉ exportLine row := by
    intro ch hch row hrow hmem
    rcases mem_exportLine ch row hmem with h | h | ⟨cell, hcell, h⟩
    · rcases hch with e | e <;> rw [e] at h <;> exact absurd h (by decide)
    · rcases hch with e | e <;> rw [e] at h <;> exact absurd h (by decide)
    · rcases hch with e | e
      · rw [e] at h; exact (hnl row hrow cell hcell).1 h
      · rw [e] at h; exact (hnl row hrow cell hcell).2 h
  have hcr : '\r' ∉ joinSep '\n' (g.map exportLine) := by
    intro hmem
    rcases mem_joinSep '\n' '\r' _ hmem with h | ⟨l, hl, h⟩
    · exact absurd h (by decide)
    · obtain ⟨row, hrow, rfl⟩ := List.mem_map.mp hl
      exact hline '\r' (Or.inr rfl) row hrow h
  have hsplit : splitOn '\n' (joinSep '\n' (g.map exportLine)) [] = g.map exportLine := by
    apply splitOn_joinSep
    · simpa using hne
    · intro l hl
      obtain ⟨row, hrow, rfl⟩ := List.mem_map.mp hl
      exact hline '\n' (Or.inl rfl) row hrow
  unfold parseCSV exportGrid
  simp only []
  rw [replaceCRLF_id _ hcr, replaceCR_id _ hcr, hsplit, List.map_map]
  apply List.map_congr_left
  intro row hrow
  have := tokenize_exportLine row [] (hrows row hrow)
  simpa using this

theorem foldl_max_le (n : Nat) (l : List Nat) : ∀ init : Nat,
    init ≤ n → (∀ x ∈ l, x ≤ n) → l.foldl max init ≤ n := by
  induction l with
  | nil => intro init h _; simpa using h
  | cons y t ih =>
    intro init h hall
    exact ih (max init y) (max_le h (hall y (List.mem_cons_self _ _)))
      (fun x hx => hall x (List.mem_cons_of_mem _ hx))

theorem maxWidth_le (rows : List (List String)) (n : Nat)
    (h : ∀ fields ∈ rows, fields.length ≤ n) : maxWidth rows ≤ n := by
  apply foldl_max_le n _ 0 (Nat.zero_le _)
  intro x hx
  obtain ⟨fields, hf, rfl⟩ := List.mem_map.mp hx
  exact h fields hf

theorem fieldAt_inputs (g : Grid) (r c : Nat) :
    fieldAt (g.map (fun row => row.map Cell.input)) r c = (cellAt g r c).map Cell.input := by
  unfold fieldAt cellAt
  rw [List.getElem?_map]
  cases g[r]? with
  | none => rfl
  | some row => simp [List.getElem?_map]

/-- C8 (as amended): CSV round-trip for grids without line breaks in their inputs.  For every
grid `g` with at least one row and rows of one length `n ≥ 1` whose inputs contain neither a
line feed nor a carriage return (commas and double quotes are allowed), importing the text
that `exportCSV` produces for `g` into a default grid of the same dimensions succeeds and
yields a grid with the same number of rows, rows of length `n`, and at every position the
input that `g` has there. -/
theorem csv_roundtrip (serialize : Workbook → String) (a b : App) (g : Grid) (n : Nat)
    (text : String) (hg : a.activeGrid = some g) (hrows : 1 ≤ g.length) (hn : 1 ≤ n)
    (hcols : ∀ row ∈ g, row.length = n) (hnl : NoLineBreaks g)
    (htext : exportCSV a = some text) (hb : b.activeGrid = some (newGrid g.length n)) :
    ∃ b' g', importCSV serialize text b = some b' ∧ b'.activeGrid = some g' ∧
      g'.length = g.length ∧ (∀ row ∈ g', row.length = n) ∧
      ∀ r c cell, cellAt g r c = some cell →
        ∃ cell', cellAt g' r c = some cell' ∧ cell'.input = cell.input := by
  have htxt : text = exportGrid g := by
    simp only [exportCSV, hg, Option.map_some', Option.some.injEq] at htext
    exact htext.symm
  have hne : g ≠ [] := by
    intro h0; rw [h0] at hrows; simp at hrows
  have hparse : parseCSV text = g.map (fun row => row.map Cell.input) := by
    rw [htxt]
    refine parseCSV_exportGrid g hne ?_ hnl
    intro row hrow h0
    have := hcols row hrow
    rw [h0] at this
    simp at this
    omega
  have hdne : newGrid g.length n ≠ [] := by
    intro h0
    have := congrArg List.length h0
    simp only [newGrid, List.length_replicate, List.length_nil] at this
    omega
  have hdcols : ∀ row ∈ newGrid g.length n, row.length = n := by
    intro row hrow
    rw [(List.mem_replicate.mp hrow).2, List.length_replicate]
  obtain ⟨g', hfn, hlen⟩ := importFn_rect (parseCSV text) (newGrid g.length n) n hdne hdcols
  obtain ⟨b', hb', hg', _, _⟩ := mutateActiveGrid_activeGrid serialize _ b _ g' hb hfn
  obtain ⟨c1, _, c3, _⟩ := importFn_char (parseCSV text) _ g' hfn
  have hw : maxWidth (parseCSV text) ≤ n := by
    apply maxWidth_le
    intro fields hf
    rw [hparse] at hf
    obtain ⟨row, hrow, rfl⟩ := List.mem_map.mp hf
    simp [hcols row hrow]
  refine ⟨b', g', hb', hg', ?_, ?_, ?_⟩
  · rw [c1, hparse]
    simp [newGrid]
  · intro row hrow
    rw [hlen row hrow]
    omega
  · intro r c cell hcell
    apply c3 r c cell.input
    rw [hparse, fieldAt_inputs, hcell]
    rfl

/-- C8 (witness): the round-trip theorem at a 1 x 2 grid whose first input holds a comma and
double quotes and whose second input is empty. -/
theorem csv_roundtrip_witness :
    ∃ b' g', importCSV (fun _ => "")
        (exportGrid [[{ defaultCell with input := "a,\"b\"" }, defaultCell]])
        (oneSheetApp (newGrid 1 2)) = some b' ∧
      b'.activeGrid = some g' ∧ g'.length = 1 ∧ (∀ row ∈ g', row.length = 2) ∧
      ∀ r c cell,
        cellAt [[{ defaultCell with input := "a,\"b\"" }, defaultCell]] r c = some cell →
        ∃ cell', cellAt g' r c = some cell' ∧ cell'.input = cell.input :=
  csv_roundtrip (fun _ => "")
    (oneSheetApp [[{ defaultCell with input := "a,\"b\"" }, defaultCell]])
    (oneSheetApp (newGrid 1 2)) [[{ defaultCell with input := "a,\"b\"" }, defaultCell]] 2
    _ rfl (by decide) (by decide) (by decide) (by unfold NoLineBreaks; decide) rfl rfl

/-- C8 (counterexample to the claim as stated): the 1 x 1 grid whose input is `a`, a line
feed, `b` is exported as one quoted field spanning two lines; the import splits the text into
lines before it looks at quotes, so importing into a 1 x 1 default grid gives a grid of two
rows with the inputs `a` and `b`: neither the dimensions nor the input at (0, 0) survive. -/
theorem csv_roundtrip_fails_on_line_feed :
    GridOK [[{ defaultCell with input := "a\nb" }]] ∧
    exportCSV (oneSheetApp [[{ defaultCell with input := "a\nb" }]]) = some "\"a\nb\"" ∧
    (importCSV (fun _ => "") "\"a\nb\"" (oneSheetApp (newGrid 1 1))).bind App.activeGrid =
      some [[{ defaultCell with input := "a" }], [{ defaultCell with input := "b" }]] := by
  refine ⟨by unfold GridOK Rect; decide, by decide, by decide⟩

/-! ### Exact results of `delRow` and `delCol`, frame of an accepted edit, line round-trip -/

theorem dropLast_getElem? {α : Type} (l : List α) (i : Nat) (h : i < l.length - 1) :
    l.dropLast[i]? = l[i]? := by
  rw [List.dropLast_eq_take, List.getElem?_take, if_pos h]

theorem cellAt_map_dropLast (g : Grid) (n : Nat) (hcols : ∀ row ∈ g, row.length = n)
    (r c : Nat) (hc : c < n - 1) : cellAt (g.map List.dropLast) r c = cellAt g r c := by
  unfold cellAt
  rw [List.getElem?_map]
  cases hr : g[r]? with
  | none => rfl
  | some row =>
    have hlen : row.length = n := hcols row (List.getElem?_mem hr)
    simp only [Option.map_some', Option.some_bind]
    exact dropLast_getElem? row c (by omega)

/-- C18: `delRow` and `delCol` remove exactly the last element or refuse.  On a grid with at
least one row and rows of one length `n`: with more than one row `delRow` leaves a grid
with one row less whose rows are the rows the grid had at the same indices, and with exactly
one row it leaves the grid as it is; with `n > 1` `delCol` leaves a grid with the same
number of rows, each of length `n - 1`, whose cells are the cells the grid had at the same
positions, and with `n = 1` it leaves the grid as it is. -/
theorem delRow_delCol_exact (serialize : Workbook → String) (a : App) (g : Grid) (n : Nat)
    (hg : a.activeGrid = some g) (hrows : 1 ≤ g.length)
    (hcols : ∀ row ∈ g, row.length = n) :
    (∃ a' g', delRow serialize a = some a' ∧ a'.activeGrid = some g' ∧
      (1 < g.length → g'.length = g.length - 1 ∧
        ∀ r : Nat, r < g.length - 1 → g'[r]? = g[r]?) ∧
      (g.length = 1 → g' = g)) ∧
    (∃ a' g', delCol serialize a = some a' ∧ a'.activeGrid = some g' ∧
      (1 < n → g'.length = g.length ∧ (∀ row ∈ g', row.length = n - 1) ∧
        ∀ r c : Nat, c < n - 1 → cellAt g' r c = cellAt g r c) ∧
      (n = 1 → g' = g)) := by
  constructor
  · obtain ⟨a', ha', hg', _⟩ := mutateActiveGrid_activeGrid serialize delRowFn a g
      (if g.length > 1 then g.dropLast else g) hg rfl
    refine ⟨a', _, ha', hg', ?_, ?_⟩
    · intro h1
      rw [if_pos h1]
      exact ⟨List.length_dropLast g, fun r hr => dropLast_getElem? g r hr⟩
    · intro h1
      rw [if_neg (by omega)]
  · cases g with
    | nil => simp at hrows
    | cons row0 rest =>
      have h0 : row0.length = n := hcols row0 (List.mem_cons_self _ _)
      obtain ⟨a', ha', hg', _⟩ := mutateActiveGrid_activeGrid serialize delColFn a
        (row0 :: rest)
        (if row0.length > 1 then (row0 :: rest).map List.dropLast else row0 :: rest) hg rfl
      refine ⟨a', _, ha', hg', ?_, ?_⟩
      · intro h1
        rw [if_pos (by omega)]
        refine ⟨by simp, ?_, fun r c hc => cellAt_map_dropLast _ n hcols r c hc⟩
        intro row hrow
        obtain ⟨row1, hrow1, rfl⟩ := List.mem_map.mp hrow
        rw [List.length_dropLast, hcols row1 hrow1]
      · intro h1
        rw [if_neg (by omega)]

/-- C18 (witness): the theorem at the 2 x 2 state. -/
theorem delRow_delCol_exact_witness :
    (∃ a' g', delRow (fun _ => "") demoApp = some a' ∧ a'.activeGrid = some g' ∧
      (1 < (newGrid 2 2).length → g'.length = (newGrid 2 2).length - 1 ∧
        ∀ r : Nat, r < (newGrid 2 2).length - 1 → g'[r]? = (newGrid 2 2)[r]?) ∧
      ((newGrid 2 2).length = 1 → g' = newGrid 2 2)) ∧
    (∃ a' g', delCol (fun _ => "") demoApp = some a' ∧ a'.activeGrid = some g' ∧
      (1 < 2 → g'.length = (newGrid 2 2).length ∧ (∀ row ∈ g', row.length = 2 - 1) ∧
        ∀ r c : Nat, c < 2 - 1 → cellAt g' r c = cellAt (newGrid 2 2) r c) ∧
      (2 = 1 → g' = newGrid 2 2)) :=
  delRow_delCol_exact (fun _ => "") demoApp (newGrid 2 2) 2 rfl (by decide) (by decide)

theorem cellAt_set_set_ne (g : Grid) (r c r' c' : Nat) (row : List Cell) (x : Cell)
    (hrow : g[r]? = some row) (hne : ¬ (r' = r ∧ c' = c)) :
    cellAt (g.set r (row.set c x)) r' c' = cellAt g r' c' := by
  unfold cellAt
  by_cases hr : r' = r
  · subst hr
    have hc : c ≠ c' := fun e => hne ⟨rfl, e.symm⟩
    have hlt : r' < g.length := (List.getElem?_eq_some_iff.mp hrow).1
    rw [List.getElem?_set_self hlt, hrow]
    simp only [Option.some_bind]
    exact List.getElem?_set_ne hc
  · rw [List.getElem?_set_ne (fun e => hr e.symm)]

theorem set_set_row_length (g : Grid) (r c : Nat) (row : List Cell) (x : Cell)
    (hrow : g[r]? = some row) (r' : Nat) :
    ((g.set r (row.set c x))[r']?).map List.length = (g[r']?).map List.length := by
  by_cases hr : r' = r
  · subst hr
    have hlt : r' < g.length := (List.getElem?_eq_some_iff.mp hrow).1
    rw [List.getElem?_set_self hlt, hrow]
    simp
  · rw [List.getElem?_set_ne (fun e => hr e.symm)]

/-- C19: an accepted cell edit writes only the input of the target cell.  When the selection
is a cell of the active sheet and the gate accepts `editVal`, `commitEdit` returns a state in
which `activeIndex` and the number of sheets are unchanged, every other sheet is unchanged,
and the active sheet keeps its name, its named ranges and the dimensions of its grid; the
selected cell has `input = editVal` and its `value`, `fmt` and `validation` as before; every
other cell of the active sheet is unchanged. -/
theorem commitEdit_frame (serialize : Workbook → String) (a : App) (k : Nat) (sh : Sheet)
    (cell : Cell) (hk : a.sheets.activeIndex = (k : Int)) (hsh : a.sheets.sheets[k]? = some sh)
    (hcell : cellAt sh.grid a.selR a.selC = some cell)
    (hacc : commitRejected cell.validation a.editVal = false) :
    ∃ a' sh', commitEdit serialize a = some a' ∧
      a'.sheets.activeIndex = a.sheets.activeIndex ∧
      a'.sheets.sheets.length = a.sheets.sheets.length ∧
      (∀ j : Nat, j ≠ k → a'.sheets.sheets[j]? = a.sheets.sheets[j]?) ∧
      a'.sheets.sheets[k]? = some sh' ∧ sh'.name = sh.name ∧ sh'.names = sh.names ∧
      sh'.grid.length = sh.grid.length ∧
      (∀ r : Nat, (sh'.grid[r]?).map List.length = (sh.grid[r]?).map List.length) ∧
      cellAt sh'.grid a.selR a.selC = some { cell with input := a.editVal } ∧
      (∀ r c : Nat, ¬ (r = a.selR ∧ c = a.selC) → cellAt sh'.grid r c = cellAt sh.grid r c) := by
  obtain ⟨row, hrow, hc⟩ := (cellAt_eq_some sh.grid a.selR a.selC cell).mp hcell
  have hfn := setInputFn_eq sh.grid a.selR a.selC a.editVal row cell hrow hc
  have hmut := mutateActiveGrid_eq serialize _ a k sh _ hk hsh hfn
  have hg : a.activeGrid = some sh.grid := (activeGrid_eq_some a _).mpr ⟨k, sh, hk, hsh, rfl⟩
  have hsel : (a.activeGrid.bind fun g => cellAt g a.selR a.selC) = some cell := by
    rw [hg]; exact hcell
  have hlt : k < a.sheets.sheets.length := (List.getElem?_eq_some_iff.mp hsh).1
  obtain ⟨sh1, hsh1⟩ : ∃ sh1 : Sheet, sh1 =
      { sh with grid := sh.grid.set a.selR (row.set a.selC { cell with input := a.editVal }) } :=
    ⟨_, rfl⟩
  rw [← hsh1] at hmut
  obtain ⟨w1, hw1⟩ : ∃ w1 : Workbook, w1 =
      { a.sheets with sheets := a.sheets.sheets.set k sh1 } := ⟨_, rfl⟩
  rw [← hw1] at hmut
  refine ⟨{ a with sheets := w1, storage := some (serialize w1), isEditing := false }, sh1,
    ?_, ?_, ?_, ?_, ?_, ?_, ?_, ?_, ?_, ?_, ?_⟩
  · simp only [commitEdit, hsel, hacc, Bool.false_eq_true, if_false, hmut, Option.map_some']
  · rw [hw1]
  · rw [hw1]; simp
  · intro j hj
    rw [hw1]
    exact List.getElem?_set_ne (fun e => hj e.symm)
  · rw [hw1]
    exact List.getElem?_set_self hlt
  · rw [hsh1]
  · rw [hsh1]
  · rw [hsh1]; simp
  · rw [hsh1]
    exact set_set_row_length sh.grid a.selR a.selC row _ hrow
  · rw [hsh1]
    exact cellAt_set_set sh.grid a.selR a.selC row cell _ hrow hc
  · intro r c hne
    rw [hsh1]
    exact cellAt_set_set_ne sh.grid a.selR a.selC r c row _ hrow hne

/-- C19 (witness): the theorem at the one-cell state under the rule `["High", "Medium", "Low"]`,
committing `"High"`. -/
theorem commitEdit_frame_witness :
    ∃ a' sh', commitEdit (fun _ => "") (priorityApp "High") = some a' ∧
      a'.sheets.sheets[0]? = some sh' ∧
      cellAt sh'.grid 0 0 = some
        { defaultCell with
          input := "High",
          validation := some { type := "list", values := some ["High", "Medium", "Low"] } } := by
  obtain ⟨a', sh', h1, _, _, _, h5, _, _, _, _, h10, _⟩ :=
    commitEdit_frame (fun _ => "") (priorityApp "High") 0 _ _ rfl rfl rfl (by decide)
  exact ⟨a', sh', h1, h5, h10⟩

/-- C20: line-level CSV round-trip.  For every non-empty list of field strings (commas,
double quotes and empty fields included; the absence of line breaks is not needed), the
tokenizer of `importCSV`, run on the line that `exportCSV` writes for these fields (each field
in double quotes with its double quotes doubled, the fields joined by commas), returns
exactly the list of fields. -/
theorem tokenize_roundtrip (fields : List String) (hne : fields ≠ []) :
    tokenize (joinSep ',' (fields.map quoteField)) [] false [] = fields := by
  have h := tokenize_exportLine (fields.map fun f => { defaultCell with input := f }) []
    (by simpa using hne)
  simp only [exportLine, List.map_map, List.nil_append] at h
  have h1 : ((fun c : Cell => quoteField c.input) ∘ fun f => { defaultCell with input := f }) =
      quoteField := rfl
  have h2 : (Cell.input ∘ fun f => { defaultCell with input := f }) = id := rfl
  rw [h1, h2, List.map_id] at h
  exact h

/-- C20 (witness): the theorem at three fields: one with a comma, one with double quotes, one
empty. -/
theorem tokenize_roundtrip_witness :
    tokenize (joinSep ',' (["a,b", "say \"hi\"", ""].map quoteField)) [] false [] =
      ["a,b", "say \"hi\"", ""] :=
  tokenize_roundtrip ["a,b", "say \"hi\"", ""] (by decide)

/-! ### Lemmas on the recompute effect -/


theorem recomputeRow_idem (host : Host) (engine : Engine) (id : Int) (r : Nat) :
    ∀ (row row' : List Cell) (c : Nat), recomputeRow host engine id r c row = some row' →
      recomputeRow host engine id r c row' = some row' := by
  intro row
  induction row with
  | nil =>
    intro row' c h
    simp only [recomputeRow, Option.some.injEq] at h
    subst h
    rfl
  | cons cell rest ih =>
    intro row' c h
    cases hv : engine id c r with
    | none => simp [recomputeRow, hv] at h
    | some v =>
      cases hrest : recomputeRow host engine id r (c + 1) rest with
      | none => simp [recomputeRow, hv, hrest] at h
      | some rest' =>
        simp only [recomputeRow, hv, hrest, Option.some.injEq] at h
        subst h
        simp only [recomputeRow, hv, ih rest' (c + 1) hrest]

theorem recomputeRows_idem (host : Host) (engine : Engine) (id : Int) :
    ∀ (g g' : Grid) (r : Nat), recomputeRows host engine id r g = some g' →
      recomputeRows host engine id r g' = some g' := by
  intro g
  induction g with
  | nil =>
    intro g' r h
    simp only [recomputeRows, Option.some.injEq] at h
    subst h
    rfl
  | cons row rest ih =>
    intro g' r h
    cases hrow : recomputeRow host engine id r 0 row with
    | none => simp [recomputeRows, hrow] at h
    | some row' =>
      cases hrest : recomputeRows host engine id (r + 1) rest with
      | none => simp [recomputeRows, hrow, hrest] at h
      | some rest' =>
        simp only [recomputeRows, hrow, hrest, Option.some.injEq] at h
        subst h
        simp only [recomputeRows, recomputeRow_idem host engine id r row row' 0 hrow,
          ih rest' (r + 1) hrest]

theorem recomputeRow_values (host : Host) (engine : Engine) (id : Int) (r : Nat) :
    ∀ (row1 row2 : List Cell), List.Forall₂ (fun c1 c2 : Cell => c1.fmt = c2.fmt) row1 row2 →
      ∀ c : Nat, (recomputeRow host engine id r c row1).map (List.map Cell.value) =
        (recomputeRow host engine id r c row2).map (List.map Cell.value) := by
  intro row1 row2 h
  induction h with
  | nil => intro c; rfl
  | cons hfmt _ ih =>
    intro c
    cases hv : engine id c r with
    | none => simp [recomputeRow, hv]
    | some v =>
      have := ih (c + 1)
      simp only [recomputeRow, hv]
      cases h1 : recomputeRow host engine id r (c + 1) _ with
      | none =>
        rw [h1] at this
        cases h2 : recomputeRow host engine id r (c + 1) _ with
        | none => rfl
        | some x => rw [h2] at this; simp at this
      | some x =>
        rw [h1] at this
        cases h2 : recomputeRow host engine id r (c + 1) _ with
        | none => rw [h2] at this; simp at this
        | some y =>
          rw [h2] at this
          simp only [Option.map_some', Option.some.injEq] at this
          simp [this, hfmt]

theorem recomputeRows_values (host : Host) (engine : Engine) (id : Int) :
    ∀ (g1 g2 : Grid), SameFmt g1 g2 →
      ∀ r : Nat, (recomputeRows host engine id r g1).map gridValues =
        (recomputeRows host engine id r g2).map gridValues := by
  intro g1 g2 h
  induction h with
  | nil => intro r; rfl
  | cons hrow _ ih =>
    intro r
    have h0 := recomputeRow_values host engine id r _ _ hrow 0
    have h1 := ih (r + 1)
    simp only [recomputeRows]
    cases a1 : recomputeRow host engine id r 0 _ with
    | none =>
      rw [a1] at h0
      cases a2 : recomputeRow host engine id r 0 _ with
      | none => rfl
      | some x => rw [a2] at h0; simp at h0
    | some x =>
      rw [a1] at h0
      cases a2 : recomputeRow host engine id r 0 _ with
      | none => rw [a2] at h0; simp at h0
      | some y =>
        rw [a2] at h0
        simp only [Option.map_some', Option.some.injEq] at h0
        cases b1 : recomputeRows host engine id (r + 1) _ with
        | none =>
          rw [b1] at h1
          cases b2 : recomputeRows host engine id (r + 1) _ with
          | none => rfl
          | some z => rw [b2] at h1; simp at h1
        | some z =>
          rw [b1] at h1
          cases b2 : recomputeRows host engine id (r + 1) _ with
          | none => rw [b2] at h1; simp at h1
          | some w =>
            rw [b2] at h1
            simp only [Option.map_some', Option.some.injEq] at h1
            simp only [Option.map_some', Option.some.injEq, gridValues, List.map_cons] at h1 ⊢
            rw [h0, h1]

theorem recomputeRow_total (host : Host) (engine : Engine) (id : Int) (r : Nat)
    (hall : ∀ c : Nat, ∃ v, engine id c r = some v) :
    ∀ (row : List Cell) (c : Nat), ∃ row', recomputeRow host engine id r c row = some row' := by
  intro row
  induction row with
  | nil => intro c; exact ⟨[], rfl⟩
  | cons cell rest ih =>
    intro c
    obtain ⟨v, hv⟩ := hall c
    obtain ⟨rest', hrest⟩ := ih (c + 1)
    exact ⟨{ cell with value := displayOf host v cell.fmt.type } :: rest',
      by simp only [recomputeRow, hv, hrest]⟩

theorem recomputeRows_total (host : Host) (engine : Engine) (id : Int)
    (hall : ∀ r c : Nat, ∃ v, engine id c r = some v) :
    ∀ (g : Grid) (r : Nat), ∃ g', recomputeRows host engine id r g = some g' := by
  intro g
  induction g with
  | nil => intro r; exact ⟨[], rfl⟩
  | cons row rest ih =>
    intro r
    obtain ⟨row', hrow⟩ := recomputeRow_total host engine id r (hall r) row 0
    obtain ⟨rest', hrest⟩ := ih (r + 1)
    exact ⟨row' :: rest', by simp only [recomputeRows, hrow, hrest]⟩

/-- C14: the recompute step is idempotent.  For a fixed engine and every grid `g`: when the
step returns a grid, the step applied to that grid returns the same grid; the values it
computes are the same for any two grids that agree in shape and in the `fmt` of their cells,
whatever their previous values and inputs; and the step does return a grid whenever the engine
answers at every position. -/
theorem recompute_idempotent (host : Host) (engine : Engine) (id : Int) (g : Grid) :
    (∀ g', recomputeGrid host engine id g = some g' →
      recomputeGrid host engine id g' = some g') ∧
    (∀ g2, SameFmt g g2 →
      (recomputeGrid host engine id g).map gridValues =
        (recomputeGrid host engine id g2).map gridValues) ∧
    ((∀ r c : Nat, ∃ v, engine id c r = some v) →
      ∃ g', recomputeGrid host engine id g = some g') :=
  ⟨fun g' h => recomputeRows_idem host engine id g g' 0 h,
    fun g2 h => recomputeRows_values host engine id g g2 h 0,
    fun hall => recomputeRows_total host engine id hall g 0⟩

/-- C15 (the code at the failing input, and what does hold): the sentinel tests run one after
the other, so an object with a `type` property is shown as `"#ARRAY"` whether or not it also
has a `value` property, under every format type; `"#ERR"` is shown for an object with a
`value` property and without a `type` property.  The sentinels are not numbers
(`Number("#ARRAY")` and `Number("#ERR")` are `NaN`). -/
theorem display_sentinels (host : Host)
    (hArray : (host.numberOfString "#ARRAY").isFinite = false)
    (hErr : (host.numberOfString "#ERR").isFinite = false) (t : String) (number : Num) :
    displayOf host (Val.object true true number) t = Val.str "#ARRAY" ∧
    displayOf host (Val.object true false number) t = Val.str "#ARRAY" ∧
    displayOf host (Val.object false true number) t = Val.str "#ERR" := by
  refine ⟨?_, ?_, ?_⟩ <;>
    simp [displayOf, arraySentinel, errorSentinel, jsNumber, hArray, hErr]

/-- C15 (witness): an error object that has both a `type` and a `value` property, in a cell
of type `text`, is shown as `"#ARRAY"`. -/
theorem display_sentinels_witness :
    displayOf demoHost (Val.object true true Num.nan) "text" = Val.str "#ARRAY" :=
  (display_sentinels demoHost rfl rfl "text" Num.nan).1

/-! ### Lemmas on the grouping of the pivot -/

theorem mapGet_mapSet (k : String) (v : Agg) : ∀ (m : List (String × Agg)) (k' : String),
    mapGet (mapSet m k v) k' = if k = k' then some v else mapGet m k' := by
  intro m
  induction m with
  | nil => intro k'; simp [mapSet, mapGet]
  | cons e rest ih =>
    intro k'
    obtain ⟨k0, v0⟩ := e
    by_cases h0 : k0 = k
    · subst h0
      simp only [mapSet, if_true, mapGet]
      by_cases h1 : k0 = k' <;> simp [h1]
    · simp only [mapSet, if_neg h0, mapGet, ih k']
      by_cases h1 : k0 = k'
      · subst h1
        simp [h0, Ne.symm h0]
      · simp [h1]

theorem mapGet_eq_none_iff : ∀ (m : List (String × Agg)) (k : String),
    mapGet m k = none ↔ k ∉ m.map Prod.fst := by
  intro m
  induction m with
  | nil => intro k; simp [mapGet]
  | cons e rest ih =>
    intro k
    obtain ⟨k0, v0⟩ := e
    by_cases h0 : k0 = k
    · subst h0; simp [mapGet]
    · simp only [mapGet, if_neg h0, ih k, List.map_cons, List.mem_cons, not_or]
      exact ⟨fun h => ⟨fun e => h0 e.symm, h⟩, fun h => h.2⟩

theorem mapSet_keys (k : String) (v : Agg) : ∀ m : List (String × Agg),
    (mapSet m k v).map Prod.fst =
      if k ∈ m.map Prod.fst then m.map Prod.fst else m.map Prod.fst ++ [k] := by
  intro m
  induction m with
  | nil => simp [mapSet]
  | cons e rest ih =>
    obtain ⟨k0, v0⟩ := e
    by_cases h0 : k0 = k
    · subst h0; simp [mapSet]
    · simp only [mapSet, if_neg h0, List.map_cons, ih, List.mem_cons]
      by_cases h1 : k ∈ rest.map Prod.fst
      · simp [h1]
      · simp [h1, Ne.symm h0]

theorem mapGet_of_mem : ∀ (m : List (String × Agg)) (k : String) (v : Agg),
    (m.map Prod.fst).Nodup → (k, v) ∈ m → mapGet m k = some v := by
  intro m
  induction m with
  | nil => intro k v _ h; simp at h
  | cons e rest ih =>
    intro k v hnd h
    obtain ⟨k0, v0⟩ := e
    simp only [List.map_cons, List.nodup_cons] at hnd
    rcases List.mem_cons.mp h with h1 | h1
    · cases h1
      simp [mapGet]
    · have hk : k ∈ rest.map Prod.fst := List.mem_map_of_mem Prod.fst h1
      have h0 : k0 ≠ k := fun e => hnd.1 (e ▸ hk)
      simp only [mapGet, if_neg h0]
      exact ih k v hnd.2 h1

/-- The invariant of the loop of `buildPivot`: after the rows `P` the keys of the map are
distinct, and the map holds for a key exactly the number of rows of `P` with that key and the
sum, accumulated in row order, of their values that are finite numbers. -/
theorem pivot_fold_invariant (host : Host) (idxRow idxVal : Int) :
    ∀ (rows P : List (List Val)) (m : List (String × Agg)),
      (m.map Prod.fst).Nodup →
      (∀ k, mapGet m k =
        if ∃ row ∈ P, pivotKey host idxRow row = k then
          some { count := (P.filter fun row => pivotKey host idxRow row = k).length,
                 sum := sumInOrder (((P.filter fun row => pivotKey host idxRow row = k).map
                          (pivotNum host idxVal)).filter Num.isFinite) }
        else none) →
      ((rows.foldl (pivotStep host idxRow idxVal) m).map Prod.fst).Nodup ∧
      (∀ k, mapGet (rows.foldl (pivotStep host idxRow idxVal) m) k =
        if ∃ row ∈ P ++ rows, pivotKey host idxRow row = k then
          some { count := ((P ++ rows).filter fun row => pivotKey host idxRow row = k).length,
                 sum := sumInOrder ((((P ++ rows).filter fun row =>
                          pivotKey host idxRow row = k).map
                          (pivotNum host idxVal)).filter Num.isFinite) }
        else none) := by
  intro rows
  induction rows with
  | nil => intro P m hnd hget; simpa using ⟨hnd, hget⟩
  | cons row rest ih =>
    intro P m hnd hget
    have hstep := ih (P ++ [row]) (pivotStep host idxRow idxVal m row) ?_ ?_
    · simp only [List.foldl_cons]
      rw [List.append_assoc, List.singleton_append] at hstep
      exact hstep
    · unfold pivotStep
      simp only []
      rw [mapSet_keys]
      split
      · exact hnd
      · rename_i hk
        rw [List.nodup_append]
        exact ⟨hnd, List.nodup_singleton _, by
          intro x hx hx'
          rw [List.mem_singleton] at hx'
          exact hk (hx' ▸ hx)⟩
    · intro k
      unfold pivotStep
      simp only []
      rw [mapGet_mapSet]
      by_cases hk : pivotKey host idxRow row = k
      · subst hk
        have hex : ∃ r ∈ P ++ [row], pivotKey host idxRow r = pivotKey host idxRow row :=
          ⟨row, by simp, rfl⟩
        rw [if_pos rfl, if_pos hex, hget (pivotKey host idxRow row)]
        have hobj : (if ∃ r ∈ P, pivotKey host idxRow r = pivotKey host idxRow row then
              some ({ count := (P.filter fun r =>
                        pivotKey host idxRow r = pivotKey host idxRow row).length,
                      sum := sumInOrder (((P.filter fun r => pivotKey host idxRow r =
                        pivotKey host idxRow row).map (pivotNum host idxVal)).filter
                          Num.isFinite) } : Agg)
            else none).getD { count := 0, sum := 0 } =
            { count := (P.filter fun r =>
                pivotKey host idxRow r = pivotKey host idxRow row).length,
              sum := sumInOrder (((P.filter fun r => pivotKey host idxRow r =
                pivotKey host idxRow row).map (pivotNum host idxVal)).filter Num.isFinite) } := by
          by_cases hP : ∃ r ∈ P, pivotKey host idxRow r = pivotKey host idxRow row
          · rw [if_pos hP]; rfl
          · rw [if_neg hP]
            have hnil : (P.filter fun r =>
                pivotKey host idxRow r = pivotKey host idxRow row) = [] := by
              rw [List.filter_eq_nil_iff]
              intro r hr hkr
              exact hP ⟨r, hr, by simpa using hkr⟩
            simp only [hnil, Option.getD_none, List.length_nil, List.map_nil, List.filter_nil]
            rfl
        rw [hobj]
        cases hv : (pivotNum host idxVal row).isFinite with
        | false =>
          simp [List.filter_append, List.map_append, hv]
        | true =>
          simp [List.filter_append, List.map_append, hv, sumInOrder, List.foldl_append]
      · have hk' : ¬ (k = pivotKey host idxRow row) := fun e => hk e.symm
        rw [if_neg hk, hget k]
        have hiff : (∃ r ∈ P ++ [row], pivotKey host idxRow r = k) ↔
            ∃ r ∈ P, pivotKey host idxRow r = k := by
          constructor
          · rintro ⟨r, hr, hkr⟩
            rcases List.mem_append.mp hr with h | h
            · exact ⟨r, h, hkr⟩
            · rw [List.mem_singleton] at h
              subst h
              exact absurd hkr hk
          · rintro ⟨r, hr, hkr⟩
            exact ⟨r, List.mem_append_left _ hr, hkr⟩
        simp only [hiff, List.filter_append, List.filter_cons, hk, decide_False,
          List.filter_nil, List.append_nil, Bool.false_eq_true, if_false]

/-- Integers whose absolute values add up to at most `2 ^ 53` are added without rounding. -/
theorem sumInOrder_int_aux : ∀ (ns : List Int) (acc : Int),
    acc.natAbs + (ns.map Int.natAbs).sum ≤ 2 ^ 53 →
    (ns.map fun n => Num.fin n 0).foldl Num.add (Num.fin acc 0) = Num.fin (acc + ns.sum) 0 := by
  intro ns
  induction ns with
  | nil => intro acc _; simp
  | cons n rest ih =>
    intro acc h
    simp only [List.map_cons, List.sum_cons, List.foldl_cons] at h ⊢
    have h1 : (acc + n).natAbs ≤ acc.natAbs + n.natAbs := Int.natAbs_add_le acc n
    rw [add_of_int acc n (by omega), ih (acc + n) (by omega), add_assoc]

/-- C11 (as amended): the grouping of `buildPivot` equals its reference definition.  For every
list of rows and every pair of indices the output has exactly one record per distinct key
`String(row[idxRow])` of the rows; the `COUNT` of the record of a key is the number of rows
with that key and its `SUM` is what adding `Number(row[idxVal])` of those of them for which it
is a finite number gives, one after the other in row order, from 0 on, each addition rounded to
the nearest number; this is the exact sum when the values are integers whose absolute values
add up to at most `2 ^ 53`.  The rows `[["x", 10], ["y", 5], ["x", 7]]` with the indices 0 and
1 give `{ key: "x", COUNT: 2, SUM: 17 }` and `{ key: "y", COUNT: 1, SUM: 5 }`. -/
theorem pivotRows_spec (host : Host) (idxRow idxVal : Int) (rows : List (List Val)) :
    ((pivotRows host idxRow idxVal rows).map PivotRow.key).Nodup ∧
    (∀ k, k ∈ (pivotRows host idxRow idxVal rows).map PivotRow.key ↔
      ∃ row ∈ rows, pivotKey host idxRow row = k) ∧
    (∀ record ∈ pivotRows host idxRow idxVal rows,
      record.COUNT = (rows.filter fun row => pivotKey host idxRow row = record.key).length ∧
      record.SUM = sumInOrder (((rows.filter fun row =>
        pivotKey host idxRow row = record.key).map (pivotNum host idxVal)).filter
          Num.isFinite)) ∧
    (∀ ns : List Int, ((ns.map Int.natAbs).sum ≤ 2 ^ 53 →
      sumInOrder (ns.map fun n => Num.fin n 0) = Num.fin ns.sum 0)) ∧
    pivotRows host 0 1
      [[Val.str "x", Val.num 10], [Val.str "y", Val.num 5], [Val.str "x", Val.num 7]] =
      [⟨"x", 2, 17⟩, ⟨"y", 1, 5⟩] := by
  obtain ⟨hnd, hget⟩ := pivot_fold_invariant host idxRow idxVal rows [] [] (by simp)
    (by intro k; simp [mapGet])
  simp only [List.nil_append] at hget
  have hkeys : (pivotRows host idxRow idxVal rows).map PivotRow.key =
      (rows.foldl (pivotStep host idxRow idxVal) []).map Prod.fst := by
    simp [pivotRows, List.map_map, Function.comp_def]
  refine ⟨by rw [hkeys]; exact hnd, ?_, ?_, ?_, rfl⟩
  · intro k
    rw [hkeys]
    constructor
    · intro hk
      by_contra hex
      have := hget k
      rw [if_neg hex, mapGet_eq_none_iff] at this
      exact this hk
    · intro hex
      by_contra hk
      have h1 := (mapGet_eq_none_iff _ k).mpr hk
      rw [hget k, if_pos hex] at h1
      cases h1
  · intro record hrec
    unfold pivotRows at hrec
    obtain ⟨e, he, rfl⟩ := List.mem_map.mp hrec
    obtain ⟨k, agg⟩ := e
    have h1 := mapGet_of_mem _ k agg hnd he
    rw [hget k] at h1
    by_cases hex : ∃ row ∈ rows, pivotKey host idxRow row = k
    · rw [if_pos hex] at h1
      simp only [Option.some.injEq] at h1
      rw [← h1]
      exact ⟨rfl, rfl⟩
    · rw [if_neg hex] at h1
      cases h1
  · intro ns h
    have := sumInOrder_int_aux ns 0 (by simpa using h)
    simpa [sumInOrder] using this

/-- C11 (witness): the integers 3 and -4 are added without rounding. -/
theorem pivotRows_spec_witness :
    sumInOrder ([3, -4].map fun n => Num.fin n 0) = Num.fin ([3, -4] : List Int).sum 0 :=
  (pivotRows_spec demoHost 0 1 []).2.2.2.1 [3, -4] (by decide)

/-- C11 (counterexample to the claim as stated): three rows with the key `x` and the values
`10000000000000000`, `1` and `1` give the `SUM` `10000000000000000`, because each of the two
additions of 1 is rounded back; the sum of the three values is `10000000000000002`. -/
theorem pivotRows_sum_is_rounded :
    pivotRows demoHost 0 1
      [[Val.str "x", Val.num 10000000000000000], [Val.str "x", Val.num 1],
        [Val.str "x", Val.num 1]] = [⟨"x", 3, 10000000000000000⟩] ∧
    (10000000000000000 : Num) ≠ Num.fin (10000000000000000 + 1 + 1) 0 := by
  decide

/-! ### Lemmas on the range pattern -/

theorem tryDown_some {α : Type} (f : Nat → Option α) : ∀ (n : Nat) (x : α),
    tryDown f n = some x → ∃ k, 1 ≤ k ∧ k ≤ n ∧ f k = some x := by
  intro n
  induction n with
  | zero => intro x h; simp [tryDown] at h
  | succ n ih =>
    intro x h
    cases hf : f (n + 1) with
    | some y =>
      simp only [tryDown, hf, Option.some.injEq] at h
      exact ⟨n + 1, by omega, le_refl _, by rw [hf, h]⟩
    | none =>
      simp only [tryDown, hf] at h
      obtain ⟨k, h1, h2, h3⟩ := ih x h
      exact ⟨k, h1, by omega, h3⟩

theorem tryDown_top {α : Type} (f : Nat → Option α) (n : Nat) (x : α) (hn : 1 ≤ n)
    (h : f n = some x) : tryDown f n = some x := by
  cases n with
  | zero => omega
  | succ n => simp only [tryDown, h]

theorem take_of_le_takeWhile (p : Char → Bool) (s : List Char) (k : Nat)
    (h : k ≤ (s.takeWhile p).length) : ∀ ch ∈ s.take k, p ch = true := by
  obtain ⟨t, ht⟩ := List.takeWhile_prefix (l := s) p
  intro ch hch
  have hs : s.take k = (s.takeWhile p).take k := by
    conv_lhs => rw [← ht]
    exact List.take_append_of_le_length h
  rw [hs] at hch
  exact List.mem_takeWhile_imp (List.mem_of_mem_take hch)

theorem length_takeWhile_le' (p : Char → Bool) (s : List Char) :
    (s.takeWhile p).length ≤ s.length :=
  (List.takeWhile_prefix (l := s) p).length_le

theorem matchAddr_some {α : Type} (s : List Char) (cont : List Char → List Char → Option α)
    (x : α) (h : matchAddr s cont = some x) :
    ∃ m rest, s = m ++ rest ∧ WellFormedA1 ⟨m⟩ ∧ cont m rest = some x := by
  unfold matchAddr at h
  obtain ⟨k, hk1, hk2, hk⟩ := tryDown_some _ _ x h
  obtain ⟨d, hd1, hd2, hd⟩ := tryDown_some _ _ x hk
  refine ⟨s.take (k + d), s.drop (k + d), (List.take_append_drop _ _).symm, ?_, hd⟩
  refine ⟨s.take k, (s.drop k).take d, ?_, ?_, ?_, ?_, ?_⟩
  · show s.take (k + d) = s.take k ++ (s.drop k).take d
    exact List.take_add s k d
  · intro h0
    have := congrArg List.length h0
    have hle := length_takeWhile_le' Char.isAlpha s
    simp only [List.length_take, List.length_nil] at this
    omega
  · intro h0
    have := congrArg List.length h0
    have hle := length_takeWhile_le' Char.isDigit (s.drop k)
    simp only [List.length_take, List.length_nil] at this
    omega
  · exact take_of_le_takeWhile Char.isAlpha s k hk2
  · exact take_of_le_takeWhile Char.isDigit (s.drop k) d hd2

theorem matchRangeAt_some (s m1 m2 : List Char) (h : matchRangeAt s = some (m1, m2)) :
    ∃ post, s = m1 ++ ':' :: (m2 ++ post) ∧ WellFormedA1 ⟨m1⟩ ∧ WellFormedA1 ⟨m2⟩ := by
  unfold matchRangeAt at h
  obtain ⟨m, rest, hs, hwf, hcont⟩ := matchAddr_some s _ _ h
  cases rest with
  | nil => simp at hcont
  | cons ch rest' =>
    by_cases hch : ch = ':'
    · subst hch
      simp only [if_true] at hcont
      obtain ⟨m', post, hs', hwf', hc'⟩ := matchAddr_some rest' _ _ hcont
      simp only [Option.some.injEq, Prod.mk.injEq] at hc'
      obtain ⟨e1, e2⟩ := hc'
      subst e1 e2
      exact ⟨post, by rw [hs, hs'], hwf, hwf'⟩
    · simp only [if_neg hch] at hcont
      cases hcont

theorem reMatchRange_some : ∀ (s m1 m2 : List Char), reMatchRange s = some (m1, m2) →
    ∃ pre post, s = pre ++ (m1 ++ ':' :: (m2 ++ post)) ∧
      WellFormedA1 ⟨m1⟩ ∧ WellFormedA1 ⟨m2⟩ := by
  intro s
  induction s with
  | nil => intro m1 m2 h; simp [reMatchRange] at h
  | cons ch t ih =>
    intro m1 m2 h
    cases hm : matchRangeAt (ch :: t) with
    | some m =>
      simp only [reMatchRange, hm, Option.some.injEq] at h
      subst h
      obtain ⟨post, hs, h1, h2⟩ := matchRangeAt_some _ _ _ hm
      exact ⟨[], post, by simpa using hs, h1, h2⟩
    | none =>
      simp only [reMatchRange, hm] at h
      obtain ⟨pre, post, hs, h1, h2⟩ := ih m1 m2 h
      exact ⟨ch :: pre, post, by simp [hs], h1, h2⟩

theorem takeWhile_letters (L rest : List Char) (hLa : ∀ ch ∈ L, ch.isAlpha = true)
    (hrest : ∀ ch, rest.head? = some ch → ch.isAlpha = false) :
    (L ++ rest).takeWhile Char.isAlpha = L := by
  rw [List.takeWhile_append_of_pos hLa]
  cases rest with
  | nil => simp
  | cons d t =>
    have := hrest d rfl
    simp [List.takeWhile_cons, this]

theorem takeWhile_digits (D rest : List Char) (hDd : ∀ ch ∈ D, ch.isDigit = true)
    (hrest : ∀ ch, rest.head? = some ch → ch.isDigit = false) :
    (D ++ rest).takeWhile Char.isDigit = D := by
  rw [List.takeWhile_append_of_pos hDd]
  cases rest with
  | nil => simp
  | cons d t =>
    have := hrest d rfl
    simp [List.takeWhile_cons, this]

/-- The address part of the pattern on an address that is followed by something that is not a
digit: the first attempt takes the whole address. -/
theorem matchAddr_wf {α : Type} (L D rest : List Char) (cont : List Char → List Char → Option α)
    (x : α) (hL : L ≠ []) (hLa : ∀ ch ∈ L, ch.isAlpha = true) (hD : D ≠ [])
    (hDd : ∀ ch ∈ D, ch.isDigit = true)
    (hrest : ∀ ch, rest.head? = some ch → ch.isDigit = false)
    (hcont : cont (L ++ D) rest = some x) :
    matchAddr (L ++ (D ++ rest)) cont = some x := by
  have hDhead : ∀ ch, (D ++ rest).head? = some ch → ch.isAlpha = false := by
    intro ch hch
    cases D with
    | nil => exact absurd rfl hD
    | cons d t =>
      simp only [List.cons_append, List.head?_cons, Option.some.injEq] at hch
      subst hch
      exact isDigit_not_isAlpha _ (hDd _ (List.mem_cons_self _ _))
  have htw : (L ++ (D ++ rest)).takeWhile Char.isAlpha = L :=
    takeWhile_letters L (D ++ rest) hLa hDhead
  have hdrop : (L ++ (D ++ rest)).drop L.length = D ++ rest := List.drop_left' rfl
  have htd : ((L ++ (D ++ rest)).drop L.length).takeWhile Char.isDigit = D := by
    rw [hdrop]; exact takeWhile_digits D rest hDd hrest
  have hLlen : 1 ≤ L.length := by
    cases L with
    | nil => exact absurd rfl hL
    | cons a t => simp
  have hDlen : 1 ≤ D.length := by
    cases D with
    | nil => exact absurd rfl hD
    | cons a t => simp
  have htake : (L ++ (D ++ rest)).take (L.length + D.length) = L ++ D := by
    rw [← List.append_assoc]
    exact List.take_left' (by simp)
  have hdrop2 : (L ++ (D ++ rest)).drop (L.length + D.length) = rest := by
    rw [← List.append_assoc]
    exact List.drop_left' (by simp)
  unfold matchAddr
  rw [htw]
  apply tryDown_top _ _ _ hLlen
  simp only [htd]
  apply tryDown_top _ _ _ hDlen
  rw [htake, hdrop2]
  exact hcont

/-- The address part of the pattern at the end of the pattern, on an address followed by
anything: there is a match. -/
theorem matchAddr_last {α : Type} (L D post : List Char) (f : List Char → α) (hL : L ≠ [])
    (hLa : ∀ ch ∈ L, ch.isAlpha = true) (hD : D ≠ [])
    (hDd : ∀ ch ∈ D, ch.isDigit = true) :
    ∃ x, matchAddr (L ++ (D ++ post)) (fun m _ => some (f m)) = some x := by
  have hDhead : ∀ ch, (D ++ post).head? = some ch → ch.isAlpha = false := by
    intro ch hch
    cases D with
    | nil => exact absurd rfl hD
    | cons d t =>
      simp only [List.cons_append, List.head?_cons, Option.some.injEq] at hch
      subst hch
      exact isDigit_not_isAlpha _ (hDd _ (List.mem_cons_self _ _))
  have htw : (L ++ (D ++ post)).takeWhile Char.isAlpha = L :=
    takeWhile_letters L (D ++ post) hLa hDhead
  have hdrop : (L ++ (D ++ post)).drop L.length = D ++ post := List.drop_left' rfl
  have hLlen : 1 ≤ L.length := by
    cases L with
    | nil => exact absurd rfl hL
    | cons a t => simp
  have hrun : 1 ≤ (((L ++ (D ++ post)).drop L.length).takeWhile Char.isDigit).length := by
    rw [hdrop, List.takeWhile_append_of_pos hDd]
    cases D with
    | nil => exact absurd rfl hD
    | cons a t => simp
  unfold matchAddr
  rw [htw]
  exact ⟨_, tryDown_top _ _ _ hLlen (tryDown_top _ _ _ hrun rfl)⟩

theorem colon_not_digit (rest : List Char) : ∀ ch, (':' :: rest).head? = some ch →
    ch.isDigit = false := by
  intro ch h
  simp only [List.head?_cons, Option.some.injEq] at h
  subst h
  decide

theorem matchRangeAt_complete (a b : String) (post : List Char) (ha : WellFormedA1 a)
    (hb : WellFormedA1 b) :
    ∃ m, matchRangeAt (a.data ++ ':' :: (b.data ++ post)) = some m := by
  obtain ⟨L1, D1, ha', hL1, hD1, hL1a, hD1d⟩ := ha
  obtain ⟨L2, D2, hb', hL2, hD2, hL2a, hD2d⟩ := hb
  obtain ⟨x, hx⟩ := matchAddr_last L2 D2 post (fun m2 => (L1 ++ D1, m2)) hL2 hL2a hD2 hD2d
  refine ⟨x, ?_⟩
  unfold matchRangeAt
  rw [ha', hb', List.append_assoc, List.append_assoc]
  apply matchAddr_wf L1 D1 _ _ x hL1 hL1a hD1 hD1d (colon_not_digit _)
  simp only [if_true]
  exact hx

theorem reMatchRange_complete (a b : String) (post : List Char) (ha : WellFormedA1 a)
    (hb : WellFormedA1 b) :
    ∀ pre : List Char, ∃ m, reMatchRange (pre ++ (a.data ++ ':' :: (b.data ++ post))) = some m := by
  intro pre
  induction pre with
  | nil =>
    obtain ⟨m, hm⟩ := matchRangeAt_complete a b post ha hb
    have hne : a.data ++ ':' :: (b.data ++ post) ≠ [] := by
      obtain ⟨L1, D1, ha', hL1, _⟩ := ha
      rw [ha']
      cases L1 with
      | nil => exact absurd rfl hL1
      | cons c t => simp
    refine ⟨m, ?_⟩
    simp only [List.nil_append]
    cases hs : a.data ++ ':' :: (b.data ++ post) with
    | nil => exact absurd hs hne
    | cons c t =>
      rw [hs] at hm
      simp only [reMatchRange, hm]
  | cons p pre ih =>
    obtain ⟨m, hm⟩ := ih
    simp only [List.cons_append, reMatchRange]
    cases h1 : matchRangeAt (p :: (pre ++ (a.data ++ ':' :: (b.data ++ post)))) with
    | some m' => exact ⟨m', rfl⟩
    | none => exact ⟨m, hm⟩

theorem matchRangeAt_exact (a b : String) (ha : WellFormedA1 a) (hb : WellFormedA1 b) :
    reMatchRange (a ++ ":" ++ b).data = some (a.data, b.data) := by
  obtain ⟨L1, D1, ha', hL1, hD1, hL1a, hD1d⟩ := ha
  obtain ⟨L2, D2, hb', hL2, hD2, hL2a, hD2d⟩ := hb
  have hdata : (a ++ ":" ++ b).data = L1 ++ (D1 ++ ':' :: (L2 ++ (D2 ++ []))) := by
    simp only [String.data_append, ha', hb']
    simp
  have h2 : matchAddr (L2 ++ (D2 ++ [])) (fun m2 _ => some (L1 ++ D1, m2)) =
      some (L1 ++ D1, L2 ++ D2) :=
    matchAddr_wf L2 D2 [] _ _ hL2 hL2a hD2 hD2d (by intro ch h; simp at h) rfl
  have h1 : matchRangeAt (L1 ++ (D1 ++ ':' :: (L2 ++ (D2 ++ [])))) =
      some (L1 ++ D1, L2 ++ D2) := by
    unfold matchRangeAt
    apply matchAddr_wf L1 D1 _ _ _ hL1 hL1a hD1 hD1d (colon_not_digit _)
    simp only [if_true]
    exact h2
  rw [hdata, ha', hb']
  cases L1 with
  | nil => exact absurd rfl hL1
  | cons c t =>
    simp only [List.cons_append] at h1 ⊢
    simp only [reMatchRange, h1]

theorem parseA1_wf (a : String) (ha : WellFormedA1 a) : ∃ pa, parseA1 a = some pa := by
  obtain ⟨L, D, ha', hL, hD, hLa, hDd⟩ := ha
  have := reMatch_letters_digits L D hL hLa hD hDd
  exact ⟨{ r := Num.sub (parseInt10 D) 1, c := Num.sub (colOfLetters L) 1 },
    by simp only [parseA1, ha', this]⟩

/-! ### Lemmas on the numbers of `parseA1` and on the loops of `buildPivot` -/

theorem round_isIntOrInf (m e : Int) (he : 0 ≤ e) : (Num.round m e).IsIntOrInf := by
  unfold Num.round
  simp only []
  split
  · exact Or.inr ⟨_, rfl⟩
  · unfold Num.norm
    rw [if_pos (by omega)]
    exact Or.inl ⟨_, rfl⟩

theorem add_fin_isIntOrInf (x : Num) (k : Int) (hx : x.IsIntOrInf) :
    (Num.add x (Num.fin k 0)).IsIntOrInf := by
  rcases hx with ⟨n, rfl⟩ | ⟨s, rfl⟩
  · simp only [Num.add]
    exact round_isIntOrInf _ _ (by simp)
  · exact Or.inr ⟨s, rfl⟩

theorem mul_fin_isIntOrInf (x : Num) (k : Int) (hk : k ≠ 0) (hx : x.IsIntOrInf) :
    (Num.mul x (Num.fin k 0)).IsIntOrInf := by
  rcases hx with ⟨n, rfl⟩ | ⟨s, rfl⟩
  · simp only [Num.mul]
    exact round_isIntOrInf _ _ (by simp)
  · simp only [Num.mul, if_neg hk]
    exact Or.inr ⟨_, rfl⟩

theorem foldl_isIntOrInf (ls : List Char) : ∀ acc : Num, acc.IsIntOrInf →
    (ls.foldl (fun n ch => Num.add (Num.mul n 26) (Num.fin ((ch.toNat : Int) - 64) 0))
      acc).IsIntOrInf := by
  induction ls with
  | nil => intro acc h; exact h
  | cons ch rest ih =>
    intro acc h
    simp only [List.foldl_cons]
    apply ih
    apply add_fin_isIntOrInf
    exact mul_fin_isIntOrInf acc 26 (by decide) h

theorem parseA1_isIntOrInf (s : String) (pa : RC) (h : parseA1 s = some pa) :
    pa.r.IsIntOrInf ∧ pa.c.IsIntOrInf := by
  unfold parseA1 at h
  cases hm : reMatch s.data with
  | none => rw [hm] at h; cases h
  | some m =>
    obtain ⟨ls, ds⟩ := m
    rw [hm] at h
    simp only [Option.some.injEq] at h
    subst h
    constructor
    · exact add_fin_isIntOrInf _ (-1) (round_isIntOrInf _ _ (le_refl _))
    · exact add_fin_isIntOrInf _ (-1) (foldl_isIntOrInf _ _ (Or.inl ⟨0, rfl⟩))

theorem min_fin (a b : Int) : Num.min (Num.fin a 0) (Num.fin b 0) = Num.fin (min a b) 0 := by
  simp only [Num.min, Num.lt, min_self, sub_self, Int.toNat_zero, pow_zero, mul_one,
    decide_eq_true_eq]
  split
  · rw [min_eq_right (by omega)]
  · rw [min_eq_left (by omega)]

theorem max_fin (a b : Int) : Num.max (Num.fin a 0) (Num.fin b 0) = Num.fin (max a b) 0 := by
  simp only [Num.max, Num.lt, min_self, sub_self, Int.toNat_zero, pow_zero, mul_one,
    decide_eq_true_eq]
  split
  · rw [max_eq_right (by omega)]
  · rw [max_eq_left (by omega)]

theorem min_comm_of (x y : Num) (hx : x.IsIntOrInf) (hy : y.IsIntOrInf) :
    Num.min x y = Num.min y x := by
  rcases hx with ⟨a, rfl⟩ | ⟨s, rfl⟩ <;> rcases hy with ⟨b, rfl⟩ | ⟨t, rfl⟩
  · rw [min_fin, min_fin, min_comm]
  · cases t <;> simp [Num.min, Num.lt]
  · cases s <;> simp [Num.min, Num.lt]
  · cases s <;> cases t <;> simp [Num.min, Num.lt]

theorem max_comm_of (x y : Num) (hx : x.IsIntOrInf) (hy : y.IsIntOrInf) :
    Num.max x y = Num.max y x := by
  rcases hx with ⟨a, rfl⟩ | ⟨s, rfl⟩ <;> rcases hy with ⟨b, rfl⟩ | ⟨t, rfl⟩
  · rw [max_fin, max_fin, max_comm]
  · cases t <;> simp [Num.max, Num.lt]
  · cases s <;> simp [Num.max, Num.lt]
  · cases s <;> cases t <;> simp [Num.max, Num.lt]

theorem loopRange_fin (lo hi : Int) (h1 : hi < 2 ^ 53)
    (h2 : (hi - lo + 1).toNat ≤ maxArrayLength) :
    loopRange (Num.fin lo 0) (Num.fin hi 0) = some (intRange lo hi) := by
  simp only [loopRange, Num.toInt?, le_refl, if_true, Int.toNat_zero, pow_zero, mul_one]
  rw [if_pos ⟨h1, h2⟩]

theorem forEachM_map {α β γ : Type} (f : β → Option γ) (h : α → β) (g : α → γ) :
    ∀ l : List α, (∀ x ∈ l, f (h x) = some (g x)) →
      forEachM f (l.map h) = some (l.map g) := by
  intro l
  induction l with
  | nil => intro _; rfl
  | cons x rest ih =>
    intro hall
    simp only [List.map_cons, forEachM, hall x (List.mem_cons_self _ _),
      ih (fun y hy => hall y (List.mem_cons_of_mem _ hy))]

theorem forEachM_none {α β : Type} (f : α → Option β) :
    ∀ (l : List α) (x : α), x ∈ l → f x = none → forEachM f l = none := by
  intro l
  induction l with
  | nil => intro x hx; simp at hx
  | cons y rest ih =>
    intro x hx hf
    rcases List.mem_cons.mp hx with h | h
    · subst h
      simp only [forEachM, hf]
    · cases hy : f y with
      | none => simp only [forEachM, hy]
      | some v => simp only [forEachM, hy, ih x h hf]

theorem mem_intRange (lo hi : Int) (i : Nat) (h : i < (hi - lo + 1).toNat) :
    lo + (i : Int) ∈ intRange lo hi := by
  unfold intRange
  exact List.mem_map.mpr ⟨i, List.mem_range.mpr h, rfl⟩

/-- The two loops of `buildPivot` on a rectangle in which the engine answers everywhere: the
rows in order, and in each row the cells in order. -/
theorem readRows_fin (engine : Engine) (id r0 r1 c0 c1 : Int) (cells : Nat → Nat → Val)
    (hr1 : r1 < 2 ^ 53) (hc1 : c1 < 2 ^ 53)
    (hr : (r1 - r0 + 1).toNat ≤ maxArrayLength) (hc : (c1 - c0 + 1).toNat ≤ maxArrayLength)
    (hall : ∀ i j : Nat, i < (r1 - r0 + 1).toNat → j < (c1 - c0 + 1).toNat →
      engine id (c0 + (j : Int)) (r0 + (i : Int)) = some (cells i j)) :
    readRows engine id (Num.fin r0 0) (Num.fin r1 0) (Num.fin c0 0) (Num.fin c1 0) =
      some ((List.range (r1 - r0 + 1).toNat).map fun i =>
        (List.range (c1 - c0 + 1).toNat).map fun j => blankObject (cells i j)) := by
  unfold readRows
  rw [loopRange_fin r0 r1 hr1 hr, loopRange_fin c0 c1 hc1 hc]
  simp only []
  unfold intRange
  apply forEachM_map
  intro i hi
  apply forEachM_map
  intro j hj
  unfold readCell
  rw [hall i j (List.mem_range.mp hi) (List.mem_range.mp hj)]
  rfl

/-- The two loops of `buildPivot` on a rectangle in which the engine throws somewhere. -/
theorem readRows_throw (engine : Engine) (id r0 r1 c0 c1 : Int)
    (hr1 : r1 < 2 ^ 53) (hc1 : c1 < 2 ^ 53)
    (hr : (r1 - r0 + 1).toNat ≤ maxArrayLength) (hc : (c1 - c0 + 1).toNat ≤ maxArrayLength)
    (i j : Nat) (hi : i < (r1 - r0 + 1).toNat) (hj : j < (c1 - c0 + 1).toNat)
    (hnone : engine id (c0 + (j : Int)) (r0 + (i : Int)) = none) :
    readRows engine id (Num.fin r0 0) (Num.fin r1 0) (Num.fin c0 0) (Num.fin c1 0) = none := by
  unfold readRows
  rw [loopRange_fin r0 r1 hr1 hr, loopRange_fin c0 c1 hc1 hc]
  simp only []
  apply forEachM_none _ _ (r0 + (i : Int)) (mem_intRange r0 r1 i hi)
  apply forEachM_none _ _ (c0 + (j : Int)) (mem_intRange c0 c1 j hj)
  unfold readCell
  rw [hnone]
  rfl

/-- C12: the pivot range is read the same way whichever corner comes first.  For two
addresses `a` and `b` (letters followed by digits), `buildPivot` on the range `b:a` gives the
same result as on the range `a:b`, for every engine and every pair of field indices.  When
`parseA1` gives the rows and columns `(ra, ca)` for `a` and `(rb, cb)` for `b`, all below
`2 ^ 53`, and the rectangle has no more rows and no more columns than an array can hold, then
`buildPivot` reads exactly the cells of the rows `min(ra, rb)..max(ra, rb)` and in each of them
of the columns `min(ca, cb)..max(ca, cb)`, in this order: when the engine answers at all of
them the result is the grouping of these rows (an object replaced by the empty string), and
when the engine throws at one of them the result is the error `"Pivot error"`. -/
theorem buildPivot_corner_order (host : Host) (engine : Engine) (sheets : Workbook)
    (a b : String) (rowCol valCol : Int) (agg : String) (ha : WellFormedA1 a)
    (hb : WellFormedA1 b) :
    buildPivot host engine sheets ⟨b ++ ":" ++ a, rowCol, valCol, agg⟩ =
      buildPivot host engine sheets ⟨a ++ ":" ++ b, rowCol, valCol, agg⟩ ∧
    ∀ ra ca rb cb : Int,
      parseA1 a = some { r := Num.fin ra 0, c := Num.fin ca 0 } →
      parseA1 b = some { r := Num.fin rb 0, c := Num.fin cb 0 } →
      max ra rb < 2 ^ 53 → max ca cb < 2 ^ 53 →
      (max ra rb - min ra rb + 1).toNat ≤ maxArrayLength →
      (max ca cb - min ca cb + 1).toNat ≤ maxArrayLength →
      (∀ cells : Nat → Nat → Val,
        (∀ i j : Nat, i < (max ra rb - min ra rb + 1).toNat →
          j < (max ca cb - min ca cb + 1).toNat →
          engine sheets.activeIndex (min ca cb + (j : Int)) (min ra rb + (i : Int)) =
            some (cells i j)) →
        buildPivot host engine sheets ⟨a ++ ":" ++ b, rowCol, valCol, agg⟩ =
          PivotData.rows (pivotRows host rowCol valCol
            ((List.range (max ra rb - min ra rb + 1).toNat).map fun i =>
              (List.range (max ca cb - min ca cb + 1).toNat).map fun j =>
                blankObject (cells i j)))) ∧
      (∀ i j : Nat, i < (max ra rb - min ra rb + 1).toNat →
        j < (max ca cb - min ca cb + 1).toNat →
        engine sheets.activeIndex (min ca cb + (j : Int)) (min ra rb + (i : Int)) = none →
        buildPivot host engine sheets ⟨a ++ ":" ++ b, rowCol, valCol, agg⟩ =
          PivotData.error "Pivot error") := by
  obtain ⟨pa, hpa⟩ := parseA1_wf a ha
  obtain ⟨pb, hpb⟩ := parseA1_wf b hb
  obtain ⟨har, hac⟩ := parseA1_isIntOrInf a pa hpa
  obtain ⟨hbr, hbc⟩ := parseA1_isIntOrInf b pb hpb
  have hab := matchRangeAt_exact a b ha hb
  have hba := matchRangeAt_exact b a hb ha
  have e1 : buildPivot host engine sheets ⟨a ++ ":" ++ b, rowCol, valCol, agg⟩ =
      (match readRows engine sheets.activeIndex (Num.min pa.r pb.r) (Num.max pa.r pb.r)
          (Num.min pa.c pb.c) (Num.max pa.c pb.c) with
        | none => PivotData.error "Pivot error"
        | some rows => PivotData.rows (pivotRows host rowCol valCol rows)) := by
    simp only [buildPivot, hab, hpa, hpb]
  have e2 : buildPivot host engine sheets ⟨b ++ ":" ++ a, rowCol, valCol, agg⟩ =
      (match readRows engine sheets.activeIndex (Num.min pb.r pa.r) (Num.max pb.r pa.r)
          (Num.min pb.c pa.c) (Num.max pb.c pa.c) with
        | none => PivotData.error "Pivot error"
        | some rows => PivotData.rows (pivotRows host rowCol valCol rows)) := by
    simp only [buildPivot, hba, hpa, hpb]
  refine ⟨?_, ?_⟩
  · rw [e1, e2, min_comm_of pb.r pa.r hbr har, max_comm_of pb.r pa.r hbr har,
      min_comm_of pb.c pa.c hbc hac, max_comm_of pb.c pa.c hbc hac]
  · intro ra ca rb cb hA hB hr1 hc1 hr hc
    rw [hpa] at hA
    rw [hpb] at hB
    simp only [Option.some.injEq] at hA hB
    subst hA hB
    simp only [min_fin, max_fin] at e1
    refine ⟨fun cells hall => ?_, fun i j hi hj hnone => ?_⟩
    · rw [e1, readRows_fin engine sheets.activeIndex _ _ _ _ cells hr1 hc1 hr hc hall]
    · rw [e1, readRows_throw engine sheets.activeIndex _ _ _ _ hr1 hc1 hr hc i j hi hj hnone]

/-- C12 (witness): the ranges `B3:A1` and `A1:B3` on the example engine both read the rows 0
to 2 and the columns 0 to 1 and give the records of `x` and `y`. -/
theorem buildPivot_corner_order_witness :
    buildPivot demoHost demoEngine demoApp.sheets ⟨"B3" ++ ":" ++ "A1", 0, 1, "SUM"⟩ =
      PivotData.rows [⟨"x", 2, 17⟩, ⟨"y", 1, 5⟩] ∧
    buildPivot demoHost demoEngine demoApp.sheets ⟨"A1" ++ ":" ++ "B3", 0, 1, "SUM"⟩ =
      PivotData.rows [⟨"x", 2, 17⟩, ⟨"y", 1, 5⟩] := by
  obtain ⟨h1, h2⟩ := buildPivot_corner_order demoHost demoEngine demoApp.sheets
    "A1" "B3" 0 1 "SUM"
    ⟨['A'], ['1'], rfl, by decide, by decide, by decide, by decide⟩
    ⟨['B'], ['3'], rfl, by decide, by decide, by decide, by decide⟩
  have h3 := (h2 0 0 2 1 (by decide) (by decide) (by decide) (by decide) (by decide)
    (by decide)).1
    (fun i j => (demoEngine 0 (j : Int) (i : Int)).getD Val.null)
    (by
      intro i j hi hj
      have hi' : i < 3 := hi
      have hj' : j < 2 := hj
      interval_cases i <;> interval_cases j <;> rfl)
  have h4 : buildPivot demoHost demoEngine demoApp.sheets ⟨"A1" ++ ":" ++ "B3", 0, 1, "SUM"⟩ =
      PivotData.rows [⟨"x", 2, 17⟩, ⟨"y", 1, 5⟩] := by
    rw [h3]
    rfl
  exact ⟨h1.trans h4, h4⟩

/-- C13 (as amended): `buildPivot` rejects exactly the range strings in which the two-endpoint
pattern occurs nowhere, and never raises.  The result is the error
`"Range must be like A1:C100"` exactly when the range string holds nowhere an address, a colon
and an address; a range string of the two-endpoint form is therefore never rejected with that
error; and whatever the range string, the engine and the indices, the result is that error,
the error `"Pivot error"` (anything thrown inside is caught), or a list of rows. -/
theorem buildPivot_rejects (host : Host) (engine : Engine) (sheets : Workbook) (pivot : Pivot) :
    (buildPivot host engine sheets pivot = PivotData.error "Range must be like A1:C100" ↔
      ¬ HasRangePattern pivot.range) ∧
    (IsRangeString pivot.range →
      buildPivot host engine sheets pivot ≠ PivotData.error "Range must be like A1:C100") ∧
    (buildPivot host engine sheets pivot = PivotData.error "Range must be like A1:C100" ∨
      buildPivot host engine sheets pivot = PivotData.error "Pivot error" ∨
      ∃ out, buildPivot host engine sheets pivot = PivotData.rows out) := by
  have key : (buildPivot host engine sheets pivot =
        PivotData.error "Range must be like A1:C100" ↔ ¬ HasRangePattern pivot.range) ∧
      (buildPivot host engine sheets pivot = PivotData.error "Range must be like A1:C100" ∨
        buildPivot host engine sheets pivot = PivotData.error "Pivot error" ∨
        ∃ out, buildPivot host engine sheets pivot = PivotData.rows out) := by
    cases hm : reMatchRange pivot.range.data with
    | none =>
      have hb : buildPivot host engine sheets pivot =
          PivotData.error "Range must be like A1:C100" := by
        simp only [buildPivot, hm]
      refine ⟨⟨fun _ => ?_, fun _ => hb⟩, Or.inl hb⟩
      rintro ⟨pre, post, a, b, hs, ha, hb'⟩
      obtain ⟨m, hm'⟩ := reMatchRange_complete a b post ha hb' pre
      rw [← hs, hm] at hm'
      cases hm'
    | some m =>
      obtain ⟨m1, m2⟩ := m
      obtain ⟨pre, post, hs, h1, h2⟩ := reMatchRange_some _ _ _ hm
      have hpat : HasRangePattern pivot.range := ⟨pre, post, ⟨m1⟩, ⟨m2⟩, hs, h1, h2⟩
      obtain ⟨s, hs1⟩ := parseA1_wf ⟨m1⟩ h1
      obtain ⟨e, he1⟩ := parseA1_wf ⟨m2⟩ h2
      cases hr : readRows engine sheets.activeIndex (Num.min s.r e.r) (Num.max s.r e.r)
          (Num.min s.c e.c) (Num.max s.c e.c) with
      | none =>
        have hb : buildPivot host engine sheets pivot = PivotData.error "Pivot error" := by
          simp only [buildPivot, hm, hs1, he1, hr]
        refine ⟨⟨fun h => ?_, fun h => absurd hpat h⟩, Or.inr (Or.inl hb)⟩
        rw [hb] at h
        exact absurd h (by decide)
      | some rows =>
        have hb : buildPivot host engine sheets pivot =
            PivotData.rows (pivotRows host pivot.rowCol pivot.valCol rows) := by
          simp only [buildPivot, hm, hs1, he1, hr]
        refine ⟨⟨fun h => ?_, fun h => absurd hpat h⟩, Or.inr (Or.inr ⟨_, hb⟩)⟩
        rw [hb] at h
        cases h
  refine ⟨key.1, ?_, key.2⟩
  rintro ⟨a, b, hs, ha, hb⟩ h
  apply key.1.mp h
  refine ⟨[], [], a, b, ?_, ha, hb⟩
  rw [hs]
  simp [String.data_append]

/-- C13 (witness): the range string `A1:B3` is of the two-endpoint form and is not
rejected. -/
theorem buildPivot_rejects_witness :
    IsRangeString "A1:B3" ∧
    buildPivot demoHost demoEngine demoApp.sheets ⟨"A1:B3", 0, 1, "SUM"⟩ ≠
      PivotData.error "Range must be like A1:C100" :=
  have h : IsRangeString "A1:B3" :=
    ⟨"A1", "B3", rfl, ⟨['A'], ['1'], rfl, by decide, by decide, by decide, by decide⟩,
      ⟨['B'], ['3'], rfl, by decide, by decide, by decide, by decide⟩⟩
  ⟨h, (buildPivot_rejects demoHost demoEngine demoApp.sheets ⟨"A1:B3", 0, 1, "SUM"⟩).2.1 h⟩

/-- C13 (counterexample to the claim as stated): `"A1:B3!"` is not of the two-endpoint form,
an address, a colon and an address, yet `buildPivot` does not reject it: the pattern is not
anchored, the range `A1:B3` is found inside, and the result is the rows of that range. -/
theorem buildPivot_accepts_trailing_garbage :
    ¬ IsRangeString "A1:B3!" ∧
    buildPivot demoHost demoEngine demoApp.sheets ⟨"A1:B3!", 0, 1, "SUM"⟩ =
      PivotData.rows [⟨"x", 2, 17⟩, ⟨"y", 1, 5⟩] := by
  refine ⟨?_, by decide⟩
  rintro ⟨a, b, hs, -, ls, ds, hb, -, hds, -, hdd⟩
  have hdata : "A1:B3!".data = a.data ++ ([':'] ++ b.data) := by
    rw [hs]
    simp [String.data_append]
  have h1 : (a.data ++ ([':'] ++ b.data)).getLast? = some '!' := by rw [← hdata]; rfl
  rw [hb, ← List.append_assoc, ← List.append_assoc,
    List.getLast?_append_of_ne_nil _ hds] at h1
  have := hdd '!' (List.mem_of_getLast?_eq_some h1)
  exact absurd this (by decide)

/-! ### The initial state: the code at the failing inputs -/

/-- C16 (the code at the failing inputs, and what does hold): an absent key and a text that
`JSON.parse` rejects give the fresh workbook; but a parsed value is taken as the state as
soon as its `sheets` is truthy and its `activeIndex` is `>= 0`: the text
`{"sheets":[],"activeIndex":0}`, a workbook without sheets, and a text whose `activeIndex` 7
lies beyond its single sheet are both returned as the initial state instead of the fresh
workbook. -/
theorem initialSheets_accepts_invalid :
    (∀ host : JsonHost, initialSheets host none = InitialState.fresh defaultWorkbook) ∧
    (∀ (host : JsonHost) (s : String), host.parse s = none →
      initialSheets host (some s) = InitialState.fresh defaultWorkbook) ∧
    (∀ (host : JsonHost) (s : String) (sheets : List Json) (i : Int),
      host.parse s = some (Json.obj [("sheets", Json.arr sheets), ("activeIndex", Json.num i)]) →
      0 ≤ i →
      initialSheets host (some s) =
        InitialState.saved (Json.obj [("sheets", Json.arr sheets), ("activeIndex", Json.num i)])) ∧
    initialSheets demoJsonHost (some "\x7b\"sheets\":[],\"activeIndex\":0\x7d") =
      InitialState.saved (Json.obj [("sheets", Json.arr []), ("activeIndex", Json.num 0)]) ∧
    initialSheets demoJsonHost
        (some "\x7b\"sheets\":[\x7b\"name\":\"S\",\"grid\":[],\"names\":\x7b\x7d\x7d],\"activeIndex\":7\x7d") =
      InitialState.saved (Json.obj
        [("sheets", Json.arr [Json.obj [("name", Json.str "S"), ("grid", Json.arr []),
            ("names", Json.obj [])]]),
         ("activeIndex", Json.num 7)]) := by
  refine ⟨?_, ?_, ?_, ?_, ?_⟩
  · intro host
    simp [initialSheets, deserialize, Json.get, jsTruthy]
  · intro host s hs
    simp [initialSheets, deserialize, hs, Json.get, jsTruthy]
  · intro host s sheets i hs hi
    simp [initialSheets, deserialize, hs, Json.get, jsTruthy, jsGeZero, List.lookup, hi]
  · simp [initialSheets, deserialize, demoJsonHost, Json.get, jsTruthy, jsGeZero, List.lookup]
  · simp [initialSheets, deserialize, demoJsonHost, Json.get, jsTruthy, jsGeZero, List.lookup]

/-! ### The stored value after a mutation -/

theorem mutateActiveGrid_storage (serialize : Workbook → String) (fn : Grid → Option Grid)
    (a a' : App) (h : mutateActiveGrid serialize fn a = some a') :
    a'.storage = some (serialize a'.sheets) := by
  unfold mutateActiveGrid at h
  cases hm : mutateSheets fn a.sheets.activeIndex 0 a.sheets.sheets with
  | none => rw [hm] at h; cases h
  | some shs =>
    rw [hm] at h
    simp only [Option.some.injEq] at h
    rw [← h]

theorem recompute_storage (host : Host) (serialize : Workbook → String) (engine : Engine)
    (a a' : App) (h : recompute host serialize engine a = some a') :
    a'.storage = some (serialize a'.sheets) := by
  unfold recompute at h
  cases hact : a.sheets.active with
  | none => rw [hact] at h; cases h
  | some active =>
    rw [hact] at h
    simp only [] at h
    cases hg : recomputeGrid host engine a.sheets.activeIndex active.grid with
    | none => rw [hg] at h; cases h
    | some nextGrid =>
      rw [hg] at h
      simp only [Option.some.injEq] at h
      rw [← h]

theorem effectRuns_storage (host : Host) (serialize : Workbook → String)
    (build : Workbook → Engine) : ∀ (n : Nat) (a a' : App),
    effectRuns host serialize build (n + 1) a = some a' →
    a'.storage = some (serialize a'.sheets) := by
  intro n
  induction n with
  | zero =>
    intro a a' h
    cases hr : recompute host serialize (build a.sheets) a with
    | none => simp [effectRuns, hr] at h
    | some b =>
      simp only [effectRuns, hr, Option.some.injEq] at h
      subst h
      exact recompute_storage host serialize _ a b hr
  | succ n ih =>
    intro a a' h
    cases hr : recompute host serialize (build a.sheets) a with
    | none => simp [effectRuns, hr] at h
    | some b =>
      rw [effectRuns, hr] at h
      exact ih b a' h

theorem replaceActiveGrid_length (g : Grid) (idx : Int) : ∀ (l : List Sheet) (i : Nat),
    (replaceActiveGrid g idx i l).length = l.length := by
  intro l
  induction l with
  | nil => intro i; rfl
  | cons s rest ih => intro i; simp [replaceActiveGrid, ih]

/-- One run of the recompute effect completes when there is an active sheet and the engine
answers everywhere, and it leaves an active sheet. -/
theorem recompute_total (host : Host) (serialize : Workbook → String) (engine : Engine)
    (a : App) (hidx : 0 ≤ a.sheets.activeIndex ∧ a.sheets.activeIndex < a.sheets.sheets.length)
    (hall : ∀ (id : Int) (r c : Nat), ∃ v, engine id c r = some v) :
    ∃ a', recompute host serialize engine a = some a' ∧
      0 ≤ a'.sheets.activeIndex ∧ a'.sheets.activeIndex < a'.sheets.sheets.length := by
  have hact : ∃ sh, a.sheets.active = some sh := by
    unfold Workbook.active jsIndex
    rw [if_pos hidx.1]
    have hlt : a.sheets.activeIndex.toNat < a.sheets.sheets.length := by omega
    exact ⟨_, List.getElem?_eq_getElem hlt⟩
  obtain ⟨sh, hsh⟩ := hact
  obtain ⟨g', hg'⟩ := recomputeRows_total host engine a.sheets.activeIndex
    (hall a.sheets.activeIndex) sh.grid 0
  simp only [recompute, hsh, recomputeGrid, hg']
  refine ⟨_, rfl, hidx.1, ?_⟩
  simp only [replaceActiveGrid_length]
  exact hidx.2

theorem effectRuns_total (host : Host) (serialize : Workbook → String)
    (build : Workbook → Engine)
    (hall : ∀ (w : Workbook) (id : Int) (r c : Nat), ∃ v, build w id c r = some v) :
    ∀ (n : Nat) (a : App),
      0 ≤ a.sheets.activeIndex ∧ a.sheets.activeIndex < a.sheets.sheets.length →
      ∃ a', effectRuns host serialize build n a = some a' := by
  intro n
  induction n with
  | zero => intro a _; exact ⟨a, rfl⟩
  | succ n ih =>
    intro a hidx
    obtain ⟨b, hb, hb1, hb2⟩ := recompute_total host serialize (build a.sheets) a hidx
      (hall a.sheets)
    obtain ⟨a', ha'⟩ := ih b ⟨hb1, hb2⟩
    exact ⟨a', by rw [effectRuns, hb]; exact ha'⟩

theorem forall₂_refl_of {α : Type} (R : α → α → Prop) (h : ∀ x, R x x) :
    ∀ l : List α, List.Forall₂ R l l := by
  intro l
  induction l with
  | nil => exact List.Forall₂.nil
  | cons x rest ih => exact List.Forall₂.cons (h x) ih

theorem forall₂_trans_of {α : Type} (R : α → α → Prop)
    (h : ∀ x y z, R x y → R y z → R x z) :
    ∀ l1 l2 l3 : List α, List.Forall₂ R l1 l2 → List.Forall₂ R l2 l3 →
      List.Forall₂ R l1 l3 := by
  intro l1 l2 l3 h12
  induction h12 generalizing l3 with
  | nil => intro h23; cases h23; exact List.Forall₂.nil
  | cons hxy _ ih =>
    intro h23
    cases h23 with
    | cons hyz hrest => exact List.Forall₂.cons (h _ _ _ hxy hyz) (ih _ hrest)

theorem sameCell_refl (c : Cell) : SameCell c c := ⟨rfl, rfl, rfl⟩

theorem sameCell_trans (x y z : Cell) (h1 : SameCell x y) (h2 : SameCell y z) : SameCell x z :=
  ⟨h1.1.trans h2.1, h1.2.1.trans h2.2.1, h1.2.2.trans h2.2.2⟩

theorem sameContent_refl (w : Workbook) : SameContent w w :=
  ⟨rfl, forall₂_refl_of _ (fun s => ⟨rfl, rfl,
    forall₂_refl_of _ (forall₂_refl_of _ sameCell_refl) s.grid⟩) w.sheets⟩

theorem sameContent_trans (w1 w2 w3 : Workbook) (h1 : SameContent w1 w2)
    (h2 : SameContent w2 w3) : SameContent w1 w3 :=
  ⟨h1.1.trans h2.1, forall₂_trans_of _ (fun x y z hxy hyz =>
    ⟨hxy.1.trans hyz.1, hxy.2.1.trans hyz.2.1,
      forall₂_trans_of _ (forall₂_trans_of _ sameCell_trans) x.grid y.grid z.grid
        hxy.2.2 hyz.2.2⟩)
    _ _ _ h1.2 h2.2⟩

theorem recomputeRow_same (host : Host) (engine : Engine) (id : Int) (r : Nat) :
    ∀ (row row' : List Cell) (c : Nat), recomputeRow host engine id r c row = some row' →
      List.Forall₂ SameCell row row' := by
  intro row
  induction row with
  | nil =>
    intro row' c h
    simp only [recomputeRow, Option.some.injEq] at h
    subst h
    exact List.Forall₂.nil
  | cons cell rest ih =>
    intro row' c h
    cases hv : engine id c r with
    | none => simp [recomputeRow, hv] at h
    | some v =>
      cases hrest : recomputeRow host engine id r (c + 1) rest with
      | none => simp [recomputeRow, hv, hrest] at h
      | some rest' =>
        simp only [recomputeRow, hv, hrest, Option.some.injEq] at h
        subst h
        exact List.Forall₂.cons ⟨rfl, rfl, rfl⟩ (ih rest' (c + 1) hrest)

theorem recomputeRows_same (host : Host) (engine : Engine) (id : Int) :
    ∀ (g g' : Grid) (r : Nat), recomputeRows host engine id r g = some g' →
      List.Forall₂ (List.Forall₂ SameCell) g g' := by
  intro g
  induction g with
  | nil =>
    intro g' r h
    simp only [recomputeRows, Option.some.injEq] at h
    subst h
    exact List.Forall₂.nil
  | cons row rest ih =>
    intro g' r h
    cases hrow : recomputeRow host engine id r 0 row with
    | none => simp [recomputeRows, hrow] at h
    | some row' =>
      cases hrest : recomputeRows host engine id (r + 1) rest with
      | none => simp [recomputeRows, hrow, hrest] at h
      | some rest' =>
        simp only [recomputeRows, hrow, hrest, Option.some.injEq] at h
        subst h
        exact List.Forall₂.cons (recomputeRow_same host engine id r row row' 0 hrow)
          (ih rest' (r + 1) hrest)

theorem replaceActiveGrid_same (g' : Grid) (idx : Int) : ∀ (l : List Sheet) (i : Nat),
    (∀ (k : Nat) (s : Sheet), l[k]? = some s → ((i + k : Nat) : Int) = idx →
      List.Forall₂ (List.Forall₂ SameCell) s.grid g') →
    List.Forall₂
      (fun s1 s2 : Sheet =>
        s1.name = s2.name ∧ s1.names = s2.names ∧
          List.Forall₂ (List.Forall₂ SameCell) s1.grid s2.grid)
      l (replaceActiveGrid g' idx i l) := by
  intro l
  induction l with
  | nil => intro i _; exact List.Forall₂.nil
  | cons s rest ih =>
    intro i h
    simp only [replaceActiveGrid]
    refine List.Forall₂.cons ?_ (ih (i + 1) ?_)
    · by_cases hi : (i : Int) = idx
      · rw [if_pos hi]
        exact ⟨rfl, rfl, h 0 s (by simp) (by simpa using hi)⟩
      · rw [if_neg hi]
        exact ⟨rfl, rfl, forall₂_refl_of _ (forall₂_refl_of _ sameCell_refl) s.grid⟩
    · intro k s' hk hik
      exact h (k + 1) s' (by simpa using hk) (by rw [← hik]; congr 1; omega)

/-- One run of the recompute effect changes nothing but displayed values. -/
theorem recompute_same (host : Host) (serialize : Workbook → String) (engine : Engine)
    (a a' : App) (h : recompute host serialize engine a = some a') :
    SameContent a.sheets a'.sheets := by
  unfold recompute at h
  cases hact : a.sheets.active with
  | none => rw [hact] at h; cases h
  | some active =>
    rw [hact] at h
    simp only [] at h
    cases hg : recomputeGrid host engine a.sheets.activeIndex active.grid with
    | none => rw [hg] at h; cases h
    | some nextGrid =>
      rw [hg] at h
      simp only [Option.some.injEq] at h
      subst h
      refine ⟨rfl, replaceActiveGrid_same nextGrid a.sheets.activeIndex a.sheets.sheets 0 ?_⟩
      intro k s hk hik
      have hs : s = active := by
        unfold Workbook.active jsIndex at hact
        have h0 : 0 ≤ a.sheets.activeIndex := by omega
        rw [if_pos h0] at hact
        have hk' : a.sheets.activeIndex.toNat = k := by omega
        rw [hk', hk] at hact
        exact Option.some.inj hact
      rw [hs]
      exact recomputeRows_same host engine _ _ _ 0 hg

theorem effectRuns_same (host : Host) (serialize : Workbook → String)
    (build : Workbook → Engine) : ∀ (n : Nat) (a a' : App),
    effectRuns host serialize build n a = some a' → SameContent a.sheets a'.sheets := by
  intro n
  induction n with
  | zero =>
    intro a a' h
    simp only [effectRuns, Option.some.injEq] at h
    subst h
    exact sameContent_refl _
  | succ n ih =>
    intro a a' h
    cases hr : recompute host serialize (build a.sheets) a with
    | none => simp [effectRuns, hr] at h
    | some b =>
      rw [effectRuns, hr] at h
      exact sameContent_trans _ _ _ (recompute_same host serialize _ a b hr) (ih b a' h)

/-- C17: the stored value after a mutation.  A mutation is a state update followed by the
recompute effect, which runs after every change of the state `sheets` (it runs again on the
state it sets itself, any number of times).  For each of the mutations (cell edit with an
accepted value, `setFmt`, `addRow`, `addCol`, `delRow`, `delCol`, CSV import, validation rule
set, named-range save, `newSheet`, `renameSheet`, `deleteSheet` in a workbook with more than one
sheet): when the state update returns and the effect has run once or more, the value stored
under the storage key is `serialize` of the workbook of the state that the mutation has led to,
which is the workbook that the state update returned with the displayed values of its cells
recomputed and nothing else changed.  The state updates other than those of `newSheet` and `renameSheet` have stored `serialize` of
the workbook they return already before the effect; those of `newSheet` and `renameSheet`
leave the stored value as it was, and for them the write is the one of the effect.  The effect
does run to its end when the state after the update has an active sheet and the engine answers
everywhere. -/
theorem mutation_persists (host : Host) (serialize : Workbook → String)
    (build : Workbook → Engine) (m : Mutation) (a a1 : App) (n : Nat)
    (happ : m.Applies a) (hrun : m.run serialize a = some a1) :
    (∀ a', effectRuns host serialize build (n + 1) a1 = some a' →
      a'.storage = some (serialize a'.sheets) ∧ SameContent a1.sheets a'.sheets) ∧
    (m.storesItself = true → a1.storage = some (serialize a1.sheets)) ∧
    (m.storesItself = false → a1.storage = a.storage) ∧
    ((0 ≤ a1.sheets.activeIndex ∧ a1.sheets.activeIndex < a1.sheets.sheets.length) →
      (∀ (w : Workbook) (id : Int) (r c : Nat), ∃ v, build w id c r = some v) →
      ∃ a', effectRuns host serialize build (n + 1) a1 = some a') := by
  refine ⟨fun a' h => ⟨effectRuns_storage host serialize build n a1 a' h,
      effectRuns_same host serialize build (n + 1) a1 a' h⟩, ?_, ?_,
    fun hidx hall => effectRuns_total host serialize build hall (n + 1) a1 hidx⟩
  · intro _
    cases m with
    | commitEdit =>
      obtain ⟨cell, hcell, hacc⟩ := happ
      simp only [Mutation.run, commitEdit, hcell, hacc, Bool.false_eq_true, if_false] at hrun
      cases hm : mutateActiveGrid serialize (setInputFn a.selR a.selC a.editVal) a with
      | none => rw [hm] at hrun; cases hrun
      | some b =>
        rw [hm] at hrun
        simp only [Option.map_some', Option.some.injEq] at hrun
        subst hrun
        exact mutateActiveGrid_storage serialize _ a b hm
    | setFmt p => exact mutateActiveGrid_storage serialize _ a a1 hrun
    | addRow => exact mutateActiveGrid_storage serialize _ a a1 hrun
    | addCol => exact mutateActiveGrid_storage serialize _ a a1 hrun
    | delRow => exact mutateActiveGrid_storage serialize _ a a1 hrun
    | delCol => exact mutateActiveGrid_storage serialize _ a a1 hrun
    | importCSV text => exact mutateActiveGrid_storage serialize _ a a1 hrun
    | applyValidationList valList => exact mutateActiveGrid_storage serialize _ a a1 hrun
    | saveNamedRange nameKey nameRef =>
      simp only [Mutation.run, Option.some.injEq] at hrun
      subst hrun
      unfold saveNamedRange
      rw [if_neg (by
        intro h
        rcases h with h | h
        · exact happ.1 h
        · exact happ.2 h)]
    | newSheet => rename_i h; cases h
    | renameSheet idx name => rename_i h; cases h
    | deleteSheet idx =>
      simp only [Mutation.run, Option.some.injEq] at hrun
      subst hrun
      unfold deleteSheet
      have hlen : 1 < a.sheets.sheets.length := happ
      rw [if_neg (by omega)]
  · intro hs
    cases m with
    | newSheet =>
      simp only [Mutation.run, Option.some.injEq] at hrun
      subst hrun
      rfl
    | renameSheet idx name =>
      simp only [Mutation.run, Option.some.injEq] at hrun
      subst hrun
      rfl
    | _ => cases hs

/-- C17 (witness): `renameSheet(0, "Data")` on the example state, followed by one run of the
effect with the example engine; the workbook is serialized to the names of its sheets. -/
theorem mutation_persists_witness :
    ∃ a', effectRuns demoHost (fun w => String.join (w.sheets.map Sheet.name))
        (fun _ => demoEngine) 1 (renameSheet 0 "Data" demoApp) = some a' ∧
      a'.storage = some (String.join (a'.sheets.sheets.map Sheet.name)) ∧
      SameContent (renameSheet 0 "Data" demoApp).sheets a'.sheets := by
  obtain ⟨h1, _, _, h4⟩ := mutation_persists demoHost
    (fun w => String.join (w.sheets.map Sheet.name)) (fun _ => demoEngine)
    (Mutation.renameSheet 0 "Data") demoApp (renameSheet 0 "Data" demoApp) 0 trivial rfl
  obtain ⟨a', ha'⟩ := h4 (by decide) (by
    intro w id r c
    unfold demoEngine
    split_ifs <;> exact ⟨_, rfl⟩)
  exact ⟨a', ha', (h1 a' ha').1, (h1 a' ha').2⟩

/-! ### The exact result of `deleteSheet` -/

theorem splice1_of_lt {α : Type} (arr : List α) (idx : Nat) (h : idx < arr.length) :
    splice1 (idx : Int) arr = arr.eraseIdx idx := by
  unfold splice1
  have h1 : ¬ ((idx : Int) < 0) := by omega
  have h2 : min (idx : Int) (arr.length : Int) = (idx : Int) := by omega
  simp only [if_neg h1, h2, Int.toNat_ofNat]

/-- C21: the exact result of `deleteSheet`.  For a workbook with `n ≥ 2` sheets and an active
index that is not negative, and every `idx` with `0 ≤ idx < n`: the new sheet list has `n - 1`
sheets, those before `idx` at their indices and those after `idx` one index lower, all
unchanged; the new `activeIndex` is `max(0, min(activeIndex, n - 2))`, which is
`min(activeIndex, n - 2)`; the index is clamped and not shifted, so when
`idx < activeIndex < n - 1` the active sheet afterwards is the sheet that stood right after
the previously active one. -/
theorem deleteSheet_exact (serialize : Workbook → String) (a : App) (idx : Nat)
    (hn : 2 ≤ a.sheets.sheets.length) (hidx : idx < a.sheets.sheets.length)
    (hact : 0 ≤ a.sheets.activeIndex) :
    (deleteSheet serialize idx a).sheets.sheets.length = a.sheets.sheets.length - 1 ∧
    (∀ j : Nat, j < idx →
      (deleteSheet serialize idx a).sheets.sheets[j]? = a.sheets.sheets[j]?) ∧
    (∀ j : Nat, idx ≤ j →
      (deleteSheet serialize idx a).sheets.sheets[j]? = a.sheets.sheets[j + 1]?) ∧
    (deleteSheet serialize idx a).sheets.activeIndex =
      max 0 (min a.sheets.activeIndex ((a.sheets.sheets.length : Int) - 2)) ∧
    (deleteSheet serialize idx a).sheets.activeIndex =
      min a.sheets.activeIndex ((a.sheets.sheets.length : Int) - 2) ∧
    (∀ k : Nat, a.sheets.activeIndex = (k : Int) → idx < k → k < a.sheets.sheets.length - 1 →
      (deleteSheet serialize idx a).sheets.active = a.sheets.sheets[k + 1]?) := by
  have hsp := splice1_of_lt a.sheets.sheets idx hidx
  have hlen : (a.sheets.sheets.eraseIdx idx).length = a.sheets.sheets.length - 1 :=
    List.length_eraseIdx_of_lt hidx
  have hsheets : (deleteSheet serialize idx a).sheets.sheets = a.sheets.sheets.eraseIdx idx := by
    unfold deleteSheet
    rw [if_neg (by omega)]
    exact hsp
  have hidxv : (deleteSheet serialize idx a).sheets.activeIndex =
      max 0 (min a.sheets.activeIndex ((a.sheets.sheets.length : Int) - 2)) := by
    unfold deleteSheet
    rw [if_neg (by omega)]
    show max 0 (min a.sheets.activeIndex (((splice1 (idx : Int) a.sheets.sheets).length : Int) - 1)) = _
    rw [hsp, hlen]
    congr 2
    omega
  have hmin : (deleteSheet serialize idx a).sheets.activeIndex =
      min a.sheets.activeIndex ((a.sheets.sheets.length : Int) - 2) := by
    rw [hidxv]
    omega
  refine ⟨by rw [hsheets, hlen], ?_, ?_, hidxv, hmin, ?_⟩
  · intro j hj
    rw [hsheets]
    exact List.getElem?_eraseIdx_of_lt _ _ _ hj
  · intro j hj
    rw [hsheets]
    exact List.getElem?_eraseIdx_of_ge _ _ _ hj
  · intro k hk hik hkn
    have hnew : (deleteSheet serialize idx a).sheets.activeIndex = (k : Int) := by
      rw [hmin, hk]
      omega
    unfold Workbook.active
    rw [hnew, hsheets]
    unfold jsIndex
    rw [if_pos (by omega), Int.toNat_ofNat]
    exact List.getElem?_eraseIdx_of_ge _ _ _ (by omega)

/-- C21 (witness): deleting sheet 0 of the sheets `A`, `B`, `C` with `B` active leaves `B`,
`C` with `activeIndex` 1, so that `C` is active. -/
theorem deleteSheet_exact_witness :
    (deleteSheet (fun _ => "") 0 threeSheetApp).sheets.sheets.length = 2 ∧
    (deleteSheet (fun _ => "") 0 threeSheetApp).sheets.activeIndex = 1 ∧
    (deleteSheet (fun _ => "") 0 threeSheetApp).sheets.active =
      some { name := "C", grid := newGrid 1 1, names := [] } := by
  obtain ⟨h1, _, _, _, h5, h6⟩ :=
    deleteSheet_exact (fun _ => "") threeSheetApp 0 (by decide) (by decide) (by decide)
  exact ⟨h1, h5, h6 1 rfl (by decide) (by decide)⟩

end Cosmos
